import Mathlib

/-!
# pmbw: the 64-bit ARM kernel catalogue (`funcs_arm64.h`)

A shallow embedding of the benchmark kernels of `funcs_arm64.h` and theorems about
their memory effect, their access sequence and their termination.

## Machine model

* Memory is byte addressed: `mem : Nat → Nat`, one byte per address; effective addresses
  are 64-bit, so every access reduces its address modulo `2^64`.
* Registers are natural numbers below `2^64`; `add`/`subs` wrap modulo `2^64`.
* Every load or store instruction of an `asm volatile` statement appends one `Access`
  (direction, effective address, width in bytes) to the machine's `trace`, in program
  order. The stores of the C writers are logged the same way, in the order of the C++
  abstract machine: their bytes reach the caller's area. The reads of the C pointer walker
  only feed a local variable that is never used: they are not observable, nothing in the
  source obliges the machine to perform them, and they are not logged.
* Loops are run with a fuel bound: `none` means the fuel ran out. Theorems that say a
  kernel returns exhibit a fuel that is enough.
-/

namespace Pmbw

/-! ## Memory and trace -/

/-- One elementary memory access: direction, effective address, width in bytes. -/
structure Access where
  write : Bool
  addr : Nat
  width : Nat
deriving DecidableEq, Repr

/-- Memory (one byte per address) and the log of accesses performed so far. -/
structure Machine where
  mem : Nat → Nat
  trace : List Access

/-- The constant every writer stores: `uint64_t value = 0xFAEE00C0FFEEEEEE`. -/
def PATTERN : Nat := 0xFAEE00C0FFEEEEEE

/-- Little-endian bytes of the low `n` bytes of `v`. -/
def bytesLE (n v : Nat) : List Nat :=
  (List.range n).map fun i => v / 256 ^ i % 256

/-- Value of a little-endian byte string. -/
def fromLE : List Nat → Nat
  | [] => 0
  | b :: bs => b + 256 * fromLE bs

/-- Store the bytes `bs` at consecutive addresses starting at `addr` (modulo `2^64`). -/
def writeBytes : List Nat → Nat → (Nat → Nat) → Nat → Nat
  | [], _, mem => mem
  | b :: bs, addr, mem =>
    writeBytes bs (addr + 1) (fun x => if x = addr % 2 ^ 64 then b else mem x)

/-- The `n` bytes at consecutive addresses starting at `addr` (modulo `2^64`). -/
def readBytes (mem : Nat → Nat) (addr n : Nat) : List Nat :=
  (List.range n).map fun i => mem ((addr + i) % 2 ^ 64)

/-- The 64-bit little-endian word stored at `addr`. -/
def load64 (mem : Nat → Nat) (addr : Nat) : Nat :=
  fromLE (readBytes mem addr 8)

/-! ## Instructions -/

/-- `str Xt, [addr]` (and C's `*p = value` on `uint64_t`): one 8-byte store. -/
def str (m : Machine) (value addr : Nat) : Machine :=
  { mem := writeBytes (bytesLE 8 value) addr m.mem
    trace := m.trace ++ [⟨true, addr % 2 ^ 64, 8⟩] }

/-- `str Qt, [addr]` (and C's `*p = value` on a pair of `uint64_t`): one 16-byte store of
the two 64-bit lanes `q.1` (`d[0]`) and `q.2` (`d[1]`). -/
def strq (m : Machine) (q : Nat × Nat) (addr : Nat) : Machine :=
  { mem := writeBytes (bytesLE 8 q.1 ++ bytesLE 8 q.2) addr m.mem
    trace := m.trace ++ [⟨true, addr % 2 ^ 64, 16⟩] }

/-- `stnp Qt1, Qt2, [addr]`: one 32-byte store of two 128-bit registers. -/
def stnp (m : Machine) (q1 q2 : Nat × Nat) (addr : Nat) : Machine :=
  { mem := writeBytes (bytesLE 8 q1.1 ++ bytesLE 8 q1.2 ++ (bytesLE 8 q2.1 ++ bytesLE 8 q2.2))
      addr m.mem
    trace := m.trace ++ [⟨true, addr % 2 ^ 64, 32⟩] }

/-- `ldr Xt, [addr]`: one 8-byte load; returns the loaded value and the machine with the
access logged. -/
def ldr (m : Machine) (addr : Nat) : Nat × Machine :=
  (load64 m.mem addr, { m with trace := m.trace ++ [⟨false, addr % 2 ^ 64, 8⟩] })

/-- `ldr Qt, [addr]`: one 16-byte load into two 64-bit lanes. -/
def ldrq (m : Machine) (addr : Nat) : (Nat × Nat) × Machine :=
  ((load64 m.mem addr, load64 m.mem (addr + 8)),
    { m with trace := m.trace ++ [⟨false, addr % 2 ^ 64, 16⟩] })

/-- `ldnp Qt1, Qt2, [addr]`: one 32-byte load into two 128-bit registers. -/
def ldnp (m : Machine) (addr : Nat) : ((Nat × Nat) × (Nat × Nat)) × Machine :=
  (((load64 m.mem addr, load64 m.mem (addr + 8)),
      (load64 m.mem (addr + 16), load64 m.mem (addr + 24))),
    { m with trace := m.trace ++ [⟨false, addr % 2 ^ 64, 32⟩] })

/-! ## Loops -/

/-- Test-after loop `2: body; cmp; b.cond 2b` (C: `do body while (cond)`): run `body`,
then repeat while `cond` holds of the new state. -/
def doWhile {σ : Type} (body : σ → σ) (cond : σ → Bool) : Nat → σ → Option σ
  | 0, _ => none
  | fuel + 1, s =>
    let s1 := body s
    if cond s1 then doWhile body cond fuel s1 else some s1

/-- Test-before loop (C: `for (...; cond; ...) body`). -/
def whileLoop {σ : Type} (cond : σ → Bool) (body : σ → σ) : Nat → σ → Option σ
  | 0, _ => none
  | fuel + 1, s => if cond s then whileLoop cond body fuel (body s) else some s

/-- The repeat loop shared by all kernels:
`1: pass; subs repeats, repeats, #1; bne 1b` (C: `do pass while (--repeats != 0)`).
The counter is decremented modulo `2^64` and then tested against zero. -/
def repeatLoop (pass : Machine → Option Machine) : Nat → Nat → Machine → Option Machine
  | 0, _, _ => none
  | fuel + 1, repeats, m =>
    match pass m with
    | none => none
    | some m1 =>
      let repeats1 := (repeats + 2 ^ 64 - 1) % 2 ^ 64
      if repeats1 ≠ 0 then repeatLoop pass fuel repeats1 m1 else some m1

/-! ## 64-bit operations -/

/-- 64-bit writer in a simple loop (C version). -/
def cScanWrite64PtrSimpleLoop (fuel memarea size repeats : Nat) (m : Machine) :
    Option Machine :=
  let begin_ := memarea
  let endp := (begin_ + size / 8 * 8) % 2 ^ 64        -- begin + size / sizeof(uint64_t)
  let value := PATTERN
  repeatLoop (fun m =>
    (doWhile (fun s : Nat × Machine =>
        let p := s.1
        let m := str s.2 value p                      -- *p++ = value
        let p := (p + 8) % 2 ^ 64
        (p, m))
      (fun s => decide (s.1 < endp))                  -- while (p < end)
      fuel (begin_, m)).map Prod.snd) fuel repeats m

/-- 64-bit writer in a simple loop (Assembler version). -/
def ScanWrite64PtrSimpleLoop (fuel memarea size repeats : Nat) (m : Machine) :
    Option Machine :=
  let value := PATTERN
  let endp := (memarea + size) % 2 ^ 64               -- [end] "r" (memarea+size)
  repeatLoop (fun m =>
    (doWhile (fun s : Nat × Machine =>
        let x16 := s.1
        let m := str s.2 value x16                    -- str value, [x16], #8
        let x16 := (x16 + 8) % 2 ^ 64
        (x16, m))
      (fun s => decide (s.1 < endp))                  -- cmp x16, end; blo 2b
      fuel (memarea, m)).map Prod.snd) fuel repeats m

/-- 64-bit writer in an unrolled loop (Assembler version). -/
def ScanWrite64PtrUnrollLoop (fuel memarea size repeats : Nat) (m : Machine) :
    Option Machine :=
  let value := PATTERN
  let endp := (memarea + size) % 2 ^ 64
  repeatLoop (fun m =>
    (doWhile (fun s : Nat × Machine =>
        let x16 := s.1
        let m := s.2
        let m := str m value (x16 + 0 * 8)
        let m := str m value (x16 + 1 * 8)
        let m := str m value (x16 + 2 * 8)
        let m := str m value (x16 + 3 * 8)
        let m := str m value (x16 + 4 * 8)
        let m := str m value (x16 + 5 * 8)
        let m := str m value (x16 + 6 * 8)
        let m := str m value (x16 + 7 * 8)
        let m := str m value (x16 + 8 * 8)
        let m := str m value (x16 + 9 * 8)
        let m := str m value (x16 + 10 * 8)
        let m := str m value (x16 + 11 * 8)
        let m := str m value (x16 + 12 * 8)
        let m := str m value (x16 + 13 * 8)
        let m := str m value (x16 + 14 * 8)
        let m := str m value (x16 + 15 * 8)
        let x16 := (x16 + 16 * 8) % 2 ^ 64            -- add x16, x16, #16*8
        (x16, m))
      (fun s => decide (s.1 < endp))                  -- cmp x16, end; blo 2b
      fuel (memarea, m)).map Prod.snd) fuel repeats m

/-- 64-bit read in a simple loop (Assembler version). The loaded `x0` is discarded. -/
def ScanRead64PtrSimpleLoop (fuel memarea size repeats : Nat) (m : Machine) :
    Option Machine :=
  let endp := (memarea + size) % 2 ^ 64
  repeatLoop (fun m =>
    (doWhile (fun s : Nat × Machine =>
        let x16 := s.1
        let m := (ldr s.2 x16).2                      -- ldr x0, [x16], #8
        let x16 := (x16 + 8) % 2 ^ 64
        (x16, m))
      (fun s => decide (s.1 < endp))                  -- cmp x16, end; blo 2b
      fuel (memarea, m)).map Prod.snd) fuel repeats m

/-- 64-bit reader in an unrolled loop (Assembler version). -/
def ScanRead64PtrUnrollLoop (fuel memarea size repeats : Nat) (m : Machine) :
    Option Machine :=
  let endp := (memarea + size) % 2 ^ 64
  repeatLoop (fun m =>
    (doWhile (fun s : Nat × Machine =>
        let x16 := s.1
        let m := s.2
        let m := (ldr m (x16 + 0 * 8)).2
        let m := (ldr m (x16 + 1 * 8)).2
        let m := (ldr m (x16 + 2 * 8)).2
        let m := (ldr m (x16 + 3 * 8)).2
        let m := (ldr m (x16 + 4 * 8)).2
        let m := (ldr m (x16 + 5 * 8)).2
        let m := (ldr m (x16 + 6 * 8)).2
        let m := (ldr m (x16 + 7 * 8)).2
        let m := (ldr m (x16 + 8 * 8)).2
        let m := (ldr m (x16 + 9 * 8)).2
        let m := (ldr m (x16 + 10 * 8)).2
        let m := (ldr m (x16 + 11 * 8)).2
        let m := (ldr m (x16 + 12 * 8)).2
        let m := (ldr m (x16 + 13 * 8)).2
        let m := (ldr m (x16 + 14 * 8)).2
        let m := (ldr m (x16 + 15 * 8)).2
        let x16 := (x16 + 16 * 8) % 2 ^ 64            -- add x16, x16, #16*8
        (x16, m))
      (fun s => decide (s.1 < endp))                  -- cmp x16, end; blo 2b
      fuel (memarea, m)).map Prod.snd) fuel repeats m

/-- 64-bit writer in an indexed loop (C version). -/
def cScanWrite64IndexSimpleLoop (fuel _memarea _size repeats : Nat) (m : Machine) :
    Option Machine :=
  let memarea := _memarea
  let size := _size / 8                               -- _size / sizeof(uint64_t)
  let value := PATTERN
  repeatLoop (fun m =>
    (whileLoop (fun s : Nat × Machine => decide (s.1 < size))   -- i < size
      (fun s =>
        let i := s.1
        let m := str s.2 value (memarea + i * 8)      -- memarea[i] = value
        let i := (i + 1) % 2 ^ 64                     -- ++i
        (i, m))
      fuel (0, m)).map Prod.snd) fuel repeats m

/-- 64-bit writer in an indexed loop (Assembler version). -/
def ScanWrite64IndexSimpleLoop (fuel memarea size repeats : Nat) (m : Machine) :
    Option Machine :=
  let value := PATTERN
  repeatLoop (fun m =>
    (doWhile (fun s : Nat × Machine =>
        let x16 := s.1
        let m := str s.2 value (memarea + x16)        -- str value, [memarea, x16]
        let x16 := (x16 + 8) % 2 ^ 64                 -- add x16, x16, #8
        (x16, m))
      (fun s => decide (s.1 < size))                  -- cmp x16, size; blo 2b
      fuel (0, m)).map Prod.snd) fuel repeats m

/-- 64-bit reader in an indexed loop (Assembler version). -/
def ScanRead64IndexSimpleLoop (fuel memarea size repeats : Nat) (m : Machine) :
    Option Machine :=
  repeatLoop (fun m =>
    (doWhile (fun s : Nat × Machine =>
        let x16 := s.1
        let m := (ldr s.2 (memarea + x16)).2          -- ldr x0, [memarea, x16]
        let x16 := (x16 + 8) % 2 ^ 64                 -- add x16, x16, #8
        (x16, m))
      (fun s => decide (s.1 < size))                  -- cmp x16, size; blo 2b
      fuel (0, m)).map Prod.snd) fuel repeats m

/-! ## 128-bit operations -/

/-- 128-bit writer in a simple loop (C version); a `uint128` is a pair of `uint64_t`. -/
def cScanWrite128PtrSimpleLoop (fuel memarea size repeats : Nat) (m : Machine) :
    Option Machine :=
  let begin_ := memarea
  let endp := (begin_ + size / 16 * 16) % 2 ^ 64      -- begin + size / sizeof(uint128)
  let val64 := PATTERN
  let value := (val64, val64)
  repeatLoop (fun m =>
    (doWhile (fun s : Nat × Machine =>
        let p := s.1
        let m := strq s.2 value p                     -- *p++ = value
        let p := (p + 16) % 2 ^ 64
        (p, m))
      (fun s => decide (s.1 < endp))                  -- while (p < end)
      fuel (begin_, m)).map Prod.snd) fuel repeats m

/-- 128-bit writer in a simple loop (Assembler version). -/
def ScanWrite128PtrSimpleLoop (fuel memarea size repeats : Nat) (m : Machine) :
    Option Machine :=
  let value := PATTERN
  let endp := (memarea + size) % 2 ^ 64
  let q4 := (value, value)                            -- mov v4.d[0], value; mov v4.d[1], value
  repeatLoop (fun m =>
    (doWhile (fun s : Nat × Machine =>
        let x16 := s.1
        let m := strq s.2 q4 x16                      -- str q4, [x16], #16
        let x16 := (x16 + 16) % 2 ^ 64
        (x16, m))
      (fun s => decide (s.1 < endp))                  -- cmp x16, end; blo 2b
      fuel (memarea, m)).map Prod.snd) fuel repeats m

/-- 128-bit writer in an unrolled loop (Assembler version). -/
def ScanWrite128PtrUnrollLoop (fuel memarea size repeats : Nat) (m : Machine) :
    Option Machine :=
  let value := PATTERN
  let endp := (memarea + size) % 2 ^ 64
  let q4 := (value, value)
  repeatLoop (fun m =>
    (doWhile (fun s : Nat × Machine =>
        let x16 := s.1
        let m := s.2
        let m := strq m q4 (x16 + 0 * 16)
        let m := strq m q4 (x16 + 1 * 16)
        let m := strq m q4 (x16 + 2 * 16)
        let m := strq m q4 (x16 + 3 * 16)
        let m := strq m q4 (x16 + 4 * 16)
        let m := strq m q4 (x16 + 5 * 16)
        let m := strq m q4 (x16 + 6 * 16)
        let m := strq m q4 (x16 + 7 * 16)
        let m := strq m q4 (x16 + 8 * 16)
        let m := strq m q4 (x16 + 9 * 16)
        let m := strq m q4 (x16 + 10 * 16)
        let m := strq m q4 (x16 + 11 * 16)
        let m := strq m q4 (x16 + 12 * 16)
        let m := strq m q4 (x16 + 13 * 16)
        let m := strq m q4 (x16 + 14 * 16)
        let m := strq m q4 (x16 + 15 * 16)
        let x16 := (x16 + 16 * 16) % 2 ^ 64           -- add x16, x16, #16*16
        (x16, m))
      (fun s => decide (s.1 < endp))                  -- cmp x16, end; blo 2b
      fuel (memarea, m)).map Prod.snd) fuel repeats m

/-- 128-bit reader in a simple loop (Assembler version). -/
def ScanRead128PtrSimpleLoop (fuel memarea size repeats : Nat) (m : Machine) :
    Option Machine :=
  let endp := (memarea + size) % 2 ^ 64
  repeatLoop (fun m =>
    (doWhile (fun s : Nat × Machine =>
        let x16 := s.1
        let m := (ldrq s.2 x16).2                     -- ldr q4, [x16], #16
        let x16 := (x16 + 16) % 2 ^ 64
        (x16, m))
      (fun s => decide (s.1 < endp))                  -- cmp x16, end; blo 2b
      fuel (memarea, m)).map Prod.snd) fuel repeats m

/-- 128-bit reader in an unrolled loop (Assembler version). -/
def ScanRead128PtrUnrollLoop (fuel memarea size repeats : Nat) (m : Machine) :
    Option Machine :=
  let endp := (memarea + size) % 2 ^ 64
  repeatLoop (fun m =>
    (doWhile (fun s : Nat × Machine =>
        let x16 := s.1
        let m := s.2
        let m := (ldrq m (x16 + 0 * 16)).2
        let m := (ldrq m (x16 + 1 * 16)).2
        let m := (ldrq m (x16 + 2 * 16)).2
        let m := (ldrq m (x16 + 3 * 16)).2
        let m := (ldrq m (x16 + 4 * 16)).2
        let m := (ldrq m (x16 + 5 * 16)).2
        let m := (ldrq m (x16 + 6 * 16)).2
        let m := (ldrq m (x16 + 7 * 16)).2
        let m := (ldrq m (x16 + 8 * 16)).2
        let m := (ldrq m (x16 + 9 * 16)).2
        let m := (ldrq m (x16 + 10 * 16)).2
        let m := (ldrq m (x16 + 11 * 16)).2
        let m := (ldrq m (x16 + 12 * 16)).2
        let m := (ldrq m (x16 + 13 * 16)).2
        let m := (ldrq m (x16 + 14 * 16)).2
        let m := (ldrq m (x16 + 15 * 16)).2
        let x16 := (x16 + 16 * 16) % 2 ^ 64           -- add x16, x16, #16*16
        (x16, m))
      (fun s => decide (s.1 < endp))                  -- cmp x16, end; blo 2b
      fuel (memarea, m)).map Prod.snd) fuel repeats m

/-! ## 256-bit operations -/

/-- 256-bit writer in a simple loop (Assembler version). -/
def ScanWrite256PtrSimpleLoop (fuel memarea size repeats : Nat) (m : Machine) :
    Option Machine :=
  let value := PATTERN
  let endp := (memarea + size) % 2 ^ 64
  let q4 := (value, value)                            -- mov v4.d[0], value; mov v4.d[1], value
  let q5 := (value, value)                            -- mov v5.d[0], value; mov v5.d[1], value
  repeatLoop (fun m =>
    (doWhile (fun s : Nat × Machine =>
        let x16 := s.1
        let m := stnp s.2 q4 q5 x16                   -- stnp q4, q5, [x16]
        let x16 := (x16 + 32) % 2 ^ 64                -- add x16, x16, #32
        (x16, m))
      (fun s => decide (s.1 < endp))                  -- cmp x16, end; blo 2b
      fuel (memarea, m)).map Prod.snd) fuel repeats m

/-- 256-bit writer in an unrolled loop (Assembler version). -/
def ScanWrite256PtrUnrollLoop (fuel memarea size repeats : Nat) (m : Machine) :
    Option Machine :=
  let value := PATTERN
  let endp := (memarea + size) % 2 ^ 64
  let q4 := (value, value)
  let q5 := (value, value)
  repeatLoop (fun m =>
    (doWhile (fun s : Nat × Machine =>
        let x16 := s.1
        let m := s.2
        let m := stnp m q4 q5 (x16 + 0 * 32)
        let m := stnp m q4 q5 (x16 + 1 * 32)
        let m := stnp m q4 q5 (x16 + 2 * 32)
        let m := stnp m q4 q5 (x16 + 3 * 32)
        let m := stnp m q4 q5 (x16 + 4 * 32)
        let m := stnp m q4 q5 (x16 + 5 * 32)
        let m := stnp m q4 q5 (x16 + 6 * 32)
        let m := stnp m q4 q5 (x16 + 7 * 32)
        let m := stnp m q4 q5 (x16 + 8 * 32)
        let m := stnp m q4 q5 (x16 + 9 * 32)
        let m := stnp m q4 q5 (x16 + 10 * 32)
        let m := stnp m q4 q5 (x16 + 11 * 32)
        let m := stnp m q4 q5 (x16 + 12 * 32)
        let m := stnp m q4 q5 (x16 + 13 * 32)
        let m := stnp m q4 q5 (x16 + 14 * 32)
        let m := stnp m q4 q5 (x16 + 15 * 32)
        let x16 := (x16 + 16 * 32) % 2 ^ 64           -- add x16, x16, #16*32
        (x16, m))
      (fun s => decide (s.1 < endp))                  -- cmp x16, end; blo 2b
      fuel (memarea, m)).map Prod.snd) fuel repeats m

/-- 256-bit reader in a simple loop (Assembler version). -/
def ScanRead256PtrSimpleLoop (fuel memarea size repeats : Nat) (m : Machine) :
    Option Machine :=
  let endp := (memarea + size) % 2 ^ 64
  repeatLoop (fun m =>
    (doWhile (fun s : Nat × Machine =>
        let x16 := s.1
        let m := (ldnp s.2 x16).2                     -- ldnp q4, q5, [x16]
        let x16 := (x16 + 32) % 2 ^ 64                -- add x16, x16, #32
        (x16, m))
      (fun s => decide (s.1 < endp))                  -- cmp x16, end; blo 2b
      fuel (memarea, m)).map Prod.snd) fuel repeats m

/-- 256-bit reader in an unrolled loop (Assembler version). -/
def ScanRead256PtrUnrollLoop (fuel memarea size repeats : Nat) (m : Machine) :
    Option Machine :=
  let endp := (memarea + size) % 2 ^ 64
  repeatLoop (fun m =>
    (doWhile (fun s : Nat × Machine =>
        let x16 := s.1
        let m := s.2
        let m := (ldnp m (x16 + 0 * 32)).2
        let m := (ldnp m (x16 + 1 * 32)).2
        let m := (ldnp m (x16 + 2 * 32)).2
        let m := (ldnp m (x16 + 3 * 32)).2
        let m := (ldnp m (x16 + 4 * 32)).2
        let m := (ldnp m (x16 + 5 * 32)).2
        let m := (ldnp m (x16 + 6 * 32)).2
        let m := (ldnp m (x16 + 7 * 32)).2
        let m := (ldnp m (x16 + 8 * 32)).2
        let m := (ldnp m (x16 + 9 * 32)).2
        let m := (ldnp m (x16 + 10 * 32)).2
        let m := (ldnp m (x16 + 11 * 32)).2
        let m := (ldnp m (x16 + 12 * 32)).2
        let m := (ldnp m (x16 + 13 * 32)).2
        let m := (ldnp m (x16 + 14 * 32)).2
        let m := (ldnp m (x16 + 15 * 32)).2
        let x16 := (x16 + 16 * 32) % 2 ^ 64           -- add x16, x16, #16*32
        (x16, m))
      (fun s => decide (s.1 < endp))                  -- cmp x16, end; blo 2b
      fuel (memarea, m)).map Prod.snd) fuel repeats m

/-! ## Permutation walking -/

/-- One transition `current <- *current` on the pair (current, machine):
`ldr x16, [x16]`. -/
def chase (s : Nat × Machine) : Nat × Machine :=
  let r := ldr s.2 s.1
  (r.1, r.2)

/-- Follow 64-bit permutation in a simple loop (C version). The size argument is unused.
The function is plain C++: `p` is a local, non-volatile pointer that is never used after
the loop and the function returns nothing, so the reads `*p` are not observable and the
machine is not obliged to perform them. The walk is computed on the cursor alone (it
decides whether the call returns); no access is logged and the machine is handed back as
it was received. -/
def cPermRead64SimpleLoop (fuel memarea _size repeats : Nat) (m : Machine) :
    Option Machine :=
  let begin_ := memarea
  repeatLoop (fun m =>
    (doWhile (fun p : Nat =>
        let p := load64 m.mem p                       -- p = (uint64_t* )*p
        p)
      (fun p => decide (p ≠ begin_))                  -- while (p != begin)
      fuel begin_).map (fun _ => m)) fuel repeats m

/-- Follow 64-bit permutation in a simple loop (Assembler version). -/
def PermRead64SimpleLoop (fuel memarea _size repeats : Nat) (m : Machine) :
    Option Machine :=
  repeatLoop (fun m =>
    (doWhile (fun s : Nat × Machine =>
        let s := chase s                              -- ldr x16, [x16]
        s)
      (fun s => decide (s.1 ≠ memarea))               -- cmp x16, memarea; bne 2b
      fuel (memarea, m)).map Prod.snd) fuel repeats m

/-- Follow 64-bit permutation in an unrolled loop (Assembler version). -/
def PermRead64UnrollLoop (fuel memarea _size repeats : Nat) (m : Machine) :
    Option Machine :=
  repeatLoop (fun m =>
    (doWhile (fun s : Nat × Machine =>
        let s := chase s                              -- ldr x16, [x16]
        let s := chase s
        let s := chase s
        let s := chase s
        let s := chase s
        let s := chase s
        let s := chase s
        let s := chase s
        let s := chase s
        let s := chase s
        let s := chase s
        let s := chase s
        let s := chase s
        let s := chase s
        let s := chase s
        let s := chase s
        s)
      (fun s => decide (s.1 ≠ memarea))               -- cmp x16, memarea; bne 2b
      fuel (memarea, m)).map Prod.snd) fuel repeats m

/-! ## Generic scans (used to state and prove the theorems) -/

/-- Byte `i` of the stored pattern (little-endian). -/
def patByte (i : Nat) : Nat := PATTERN / 256 ^ i % 256

/-- The `w` bytes a `w`-byte store of the replicated pattern writes. -/
def fillBytes (w : Nat) : List Nat := (List.range w).map fun i => patByte (i % 8)

/-- One elementary access of `w` bytes at `a`: a store of the replicated pattern when
`wr`, a load (memory untouched) otherwise. Every instruction of the kernels is one. -/
def access (wr : Bool) (w : Nat) (m : Machine) (a : Nat) : Machine :=
  { mem := if wr then writeBytes (fillBytes w) a m.mem else m.mem
    trace := m.trace ++ [⟨wr, a % 2 ^ 64, w⟩] }

/-- The accesses `op · base`, `op · (base + w)`, ..., `op · (base + (n-1) * w)` in order. -/
def sweep (op : Machine → Nat → Machine) (base w : Nat) : Nat → Machine → Machine
  | 0, m => m
  | n + 1, m => op (sweep op base w n m) (base + n * w)

/-- Memory `mem` with `[base, base + len)` overwritten by the replicated pattern. -/
def filled (mem : Nat → Nat) (base len : Nat) : Nat → Nat :=
  fun x => if base ≤ x ∧ x < base + len then patByte ((x - base) % 8) else mem x

/-- Body of a pointer-addressed inner loop: `u` accesses at the cursor, then advance the
cursor by `u * w` bytes. -/
def ptrBody (op : Machine → Nat → Machine) (w u : Nat) (s : Nat × Machine) : Nat × Machine :=
  ((s.1 + u * w) % 2 ^ 64, sweep op s.1 w u s.2)

/-- Kernel with pointer addressing, access width `w` and `u` accesses per iteration. -/
def scanPtr (wr : Bool) (w u : Nat) (fuel memarea size repeats : Nat) (m : Machine) :
    Option Machine :=
  repeatLoop (fun m =>
    (doWhile (ptrBody (access wr w) w u)
      (fun s => decide (s.1 < (memarea + size) % 2 ^ 64)) fuel (memarea, m)).map Prod.snd)
    fuel repeats m

/-- Body of the index-addressed inner loop: access `memarea + x16`, then `x16 += 8`. -/
def idxBody (op : Machine → Nat → Machine) (memarea : Nat) (s : Nat × Machine) :
    Nat × Machine :=
  ((s.1 + 8) % 2 ^ 64, op s.2 (memarea + s.1))

/-- Kernel with index addressing (width 8, one access per iteration). -/
def scanIdx (wr : Bool) (fuel memarea size repeats : Nat) (m : Machine) : Option Machine :=
  repeatLoop (fun m =>
    (doWhile (idxBody (access wr 8) memarea) (fun s => decide (s.1 < size)) fuel (0, m)).map
      Prod.snd) fuel repeats m

/-- Body of the C `for` loop: `memarea[i] = value; ++i`. -/
def forBody (op : Machine → Nat → Machine) (memarea : Nat) (s : Nat × Machine) :
    Nat × Machine :=
  ((s.1 + 1) % 2 ^ 64, op s.2 (memarea + s.1 * 8))

/-- Indexed C writer: a test-before loop over `i < size / 8`. -/
def scanFor (fuel memarea size repeats : Nat) (m : Machine) : Option Machine :=
  repeatLoop (fun m =>
    (whileLoop (fun s : Nat × Machine => decide (s.1 < size / 8))
      (forBody (access true 8) memarea) fuel (0, m)).map Prod.snd) fuel repeats m

/-- The accesses of one pass of `n` accesses of width `w` from `base`, in order. -/
def passTrace (wr : Bool) (w base n : Nat) : List Access :=
  (List.range n).map fun i => ⟨wr, base + i * w, w⟩

/-- Machine after one pass over `[base, base + size)`. -/
def afterPass (wr : Bool) (w base size : Nat) (m : Machine) : Machine :=
  { mem := if wr then filled m.mem base size else m.mem
    trace := m.trace ++ passTrace wr w base (size / w) }

/-- Machine after `r` passes over `[base, base + size)`. -/
def afterPasses (wr : Bool) (w base size r : Nat) (m : Machine) : Machine :=
  { mem := if wr then filled m.mem base size else m.mem
    trace := m.trace ++ (List.replicate r (passTrace wr w base (size / w))).flatten }

/-- A memory transformer that overwrites a fixed set of addresses with values that do not
depend on the memory it is applied to, and leaves every other address alone. -/
def IsOverwrite (G : (Nat → Nat) → Nat → Nat) : Prop :=
  ∃ S : Nat → Prop, ∀ mem x,
    (S x → ∀ mem2, G mem x = G mem2 x) ∧ (¬ S x → G mem x = mem x)

/-- Memory effect of a sweep of `n` stores of the replicated pattern. -/
def sweepMem (w base : Nat) : Nat → (Nat → Nat) → Nat → Nat
  | 0, mem => mem
  | n + 1, mem => writeBytes (fillBytes w) (base + n * w) (sweepMem w base n mem)

/-! ## The catalogue -/

/-- The functions of `funcs_arm64.h`. -/
inductive Kernel
  | cScanWrite64PtrSimpleLoop
  | ScanWrite64PtrSimpleLoop
  | ScanWrite64PtrUnrollLoop
  | ScanRead64PtrSimpleLoop
  | ScanRead64PtrUnrollLoop
  | cScanWrite64IndexSimpleLoop
  | ScanWrite64IndexSimpleLoop
  | ScanRead64IndexSimpleLoop
  | cScanWrite128PtrSimpleLoop
  | ScanWrite128PtrSimpleLoop
  | ScanWrite128PtrUnrollLoop
  | ScanRead128PtrSimpleLoop
  | ScanRead128PtrUnrollLoop
  | ScanWrite256PtrSimpleLoop
  | ScanWrite256PtrUnrollLoop
  | ScanRead256PtrSimpleLoop
  | ScanRead256PtrUnrollLoop
  | cPermRead64SimpleLoop
  | PermRead64SimpleLoop
  | PermRead64UnrollLoop
deriving DecidableEq, Repr

/-- The function a catalogue entry names. -/
def Kernel.run : Kernel → Nat → Nat → Nat → Nat → Machine → Option Machine
  | .cScanWrite64PtrSimpleLoop => Pmbw.cScanWrite64PtrSimpleLoop
  | .ScanWrite64PtrSimpleLoop => Pmbw.ScanWrite64PtrSimpleLoop
  | .ScanWrite64PtrUnrollLoop => Pmbw.ScanWrite64PtrUnrollLoop
  | .ScanRead64PtrSimpleLoop => Pmbw.ScanRead64PtrSimpleLoop
  | .ScanRead64PtrUnrollLoop => Pmbw.ScanRead64PtrUnrollLoop
  | .cScanWrite64IndexSimpleLoop => Pmbw.cScanWrite64IndexSimpleLoop
  | .ScanWrite64IndexSimpleLoop => Pmbw.ScanWrite64IndexSimpleLoop
  | .ScanRead64IndexSimpleLoop => Pmbw.ScanRead64IndexSimpleLoop
  | .cScanWrite128PtrSimpleLoop => Pmbw.cScanWrite128PtrSimpleLoop
  | .ScanWrite128PtrSimpleLoop => Pmbw.ScanWrite128PtrSimpleLoop
  | .ScanWrite128PtrUnrollLoop => Pmbw.ScanWrite128PtrUnrollLoop
  | .ScanRead128PtrSimpleLoop => Pmbw.ScanRead128PtrSimpleLoop
  | .ScanRead128PtrUnrollLoop => Pmbw.ScanRead128PtrUnrollLoop
  | .ScanWrite256PtrSimpleLoop => Pmbw.ScanWrite256PtrSimpleLoop
  | .ScanWrite256PtrUnrollLoop => Pmbw.ScanWrite256PtrUnrollLoop
  | .ScanRead256PtrSimpleLoop => Pmbw.ScanRead256PtrSimpleLoop
  | .ScanRead256PtrUnrollLoop => Pmbw.ScanRead256PtrUnrollLoop
  | .cPermRead64SimpleLoop => Pmbw.cPermRead64SimpleLoop
  | .PermRead64SimpleLoop => Pmbw.PermRead64SimpleLoop
  | .PermRead64UnrollLoop => Pmbw.PermRead64UnrollLoop

/-- Declared access width in bytes, as the kernel's name gives it: 8 for the `64`
kernels, 16 for `128`, 32 for `256`; the permutation walkers load pointers (8 bytes). -/
def Kernel.width : Kernel → Nat
  | .cScanWrite64PtrSimpleLoop => 8
  | .ScanWrite64PtrSimpleLoop => 8
  | .ScanWrite64PtrUnrollLoop => 8
  | .ScanRead64PtrSimpleLoop => 8
  | .ScanRead64PtrUnrollLoop => 8
  | .cScanWrite64IndexSimpleLoop => 8
  | .ScanWrite64IndexSimpleLoop => 8
  | .ScanRead64IndexSimpleLoop => 8
  | .cScanWrite128PtrSimpleLoop => 16
  | .ScanWrite128PtrSimpleLoop => 16
  | .ScanWrite128PtrUnrollLoop => 16
  | .ScanRead128PtrSimpleLoop => 16
  | .ScanRead128PtrUnrollLoop => 16
  | .ScanWrite256PtrSimpleLoop => 32
  | .ScanWrite256PtrUnrollLoop => 32
  | .ScanRead256PtrSimpleLoop => 32
  | .ScanRead256PtrUnrollLoop => 32
  | .cPermRead64SimpleLoop => 8
  | .PermRead64SimpleLoop => 8
  | .PermRead64UnrollLoop => 8

/-- Unroll factor, as the kernel's name gives it: 16 for the `Unroll` kernels, 1 for the
`Simple` ones. -/
def Kernel.unroll : Kernel → Nat
  | .ScanWrite64PtrUnrollLoop => 16
  | .ScanRead64PtrUnrollLoop => 16
  | .ScanWrite128PtrUnrollLoop => 16
  | .ScanRead128PtrUnrollLoop => 16
  | .ScanWrite256PtrUnrollLoop => 16
  | .ScanRead256PtrUnrollLoop => 16
  | .PermRead64UnrollLoop => 16
  | _ => 1

/-- Whether the kernel stores (`Write`) rather than loads. -/
def Kernel.isWrite : Kernel → Bool
  | .cScanWrite64PtrSimpleLoop => true
  | .ScanWrite64PtrSimpleLoop => true
  | .ScanWrite64PtrUnrollLoop => true
  | .cScanWrite64IndexSimpleLoop => true
  | .ScanWrite64IndexSimpleLoop => true
  | .cScanWrite128PtrSimpleLoop => true
  | .ScanWrite128PtrSimpleLoop => true
  | .ScanWrite128PtrUnrollLoop => true
  | .ScanWrite256PtrSimpleLoop => true
  | .ScanWrite256PtrUnrollLoop => true
  | _ => false

/-- The tuned (assembler) write kernels. -/
def tunedWriteKernels : List Kernel :=
  [.ScanWrite64PtrSimpleLoop, .ScanWrite64PtrUnrollLoop, .ScanWrite64IndexSimpleLoop,
   .ScanWrite128PtrSimpleLoop, .ScanWrite128PtrUnrollLoop,
   .ScanWrite256PtrSimpleLoop, .ScanWrite256PtrUnrollLoop]

/-- The tuned (assembler) read kernels. -/
def tunedReadKernels : List Kernel :=
  [.ScanRead64PtrSimpleLoop, .ScanRead64PtrUnrollLoop, .ScanRead64IndexSimpleLoop,
   .ScanRead128PtrSimpleLoop, .ScanRead128PtrUnrollLoop,
   .ScanRead256PtrSimpleLoop, .ScanRead256PtrUnrollLoop]

/-- The tuned sequential kernels, read or write. -/
def tunedScanKernels : List Kernel := tunedWriteKernels ++ tunedReadKernels

/-- The reference (C) write kernels. -/
def referenceWriteKernels : List Kernel :=
  [.cScanWrite64PtrSimpleLoop, .cScanWrite64IndexSimpleLoop, .cScanWrite128PtrSimpleLoop]

/-- All write kernels, tuned or reference. -/
def writeKernels : List Kernel := tunedWriteKernels ++ referenceWriteKernels

/-- The operations that have both a reference (C) and a tuned implementation:
(reference, tuned). -/
def tunedReferencePairs : List (Kernel × Kernel) :=
  [(.cScanWrite64PtrSimpleLoop, .ScanWrite64PtrSimpleLoop),
   (.cScanWrite64IndexSimpleLoop, .ScanWrite64IndexSimpleLoop),
   (.cScanWrite128PtrSimpleLoop, .ScanWrite128PtrSimpleLoop)]

/-- The operations that have both a Simple and an Unroll(16) variant: (Simple, Unroll). -/
def simpleUnrollPairs : List (Kernel × Kernel) :=
  [(.ScanWrite64PtrSimpleLoop, .ScanWrite64PtrUnrollLoop),
   (.ScanWrite128PtrSimpleLoop, .ScanWrite128PtrUnrollLoop),
   (.ScanWrite256PtrSimpleLoop, .ScanWrite256PtrUnrollLoop),
   (.ScanRead64PtrSimpleLoop, .ScanRead64PtrUnrollLoop),
   (.ScanRead128PtrSimpleLoop, .ScanRead128PtrUnrollLoop),
   (.ScanRead256PtrSimpleLoop, .ScanRead256PtrUnrollLoop)]

/-- The permutation-walking kernels. -/
def permKernels : List Kernel :=
  [.cPermRead64SimpleLoop, .PermRead64SimpleLoop, .PermRead64UnrollLoop]

/-- One active `REGISTER(func, a, b, u)` line of the file. -/
structure Registration where
  kernel : Kernel
  a : Nat
  b : Nat
  u : Nat
deriving DecidableEq, Repr

/-- The active `REGISTER` lines, in file order; the commented-out lines (the C
reference versions) are left out. -/
def registry : List Registration :=
  [⟨.ScanWrite64PtrSimpleLoop, 8, 8, 1⟩,
   ⟨.ScanWrite64PtrUnrollLoop, 8, 8, 16⟩,
   ⟨.ScanRead64PtrSimpleLoop, 8, 8, 1⟩,
   ⟨.ScanRead64PtrUnrollLoop, 8, 8, 16⟩,
   ⟨.ScanWrite64IndexSimpleLoop, 8, 8, 1⟩,
   ⟨.ScanRead64IndexSimpleLoop, 8, 8, 1⟩,
   ⟨.ScanWrite128PtrSimpleLoop, 16, 16, 1⟩,
   ⟨.ScanWrite128PtrUnrollLoop, 16, 16, 16⟩,
   ⟨.ScanRead128PtrSimpleLoop, 16, 16, 1⟩,
   ⟨.ScanRead128PtrUnrollLoop, 16, 16, 16⟩,
   ⟨.ScanWrite256PtrSimpleLoop, 32, 32, 1⟩,
   ⟨.ScanWrite256PtrUnrollLoop, 32, 32, 16⟩,
   ⟨.ScanRead256PtrSimpleLoop, 32, 32, 1⟩,
   ⟨.ScanRead256PtrUnrollLoop, 32, 32, 16⟩]

/-- The active `REGISTER_PERM(func, width)` lines, in file order. -/
def permRegistry : List (Kernel × Nat) :=
  [(.PermRead64SimpleLoop, 8), (.PermRead64UnrollLoop, 8)]

/-- Whether the kernel addresses memory as `[memarea, x16]` (Index) rather than through
the cursor alone. -/
def Kernel.isIndex : Kernel → Bool
  | .cScanWrite64IndexSimpleLoop => true
  | .ScanWrite64IndexSimpleLoop => true
  | .ScanRead64IndexSimpleLoop => true
  | _ => false

/-- Value of the cursor register `x16` when the inner loop is entered: `mov x16, #0` in
the Index kernels, `mov x16, memarea` in all others. -/
def Kernel.innerStart (K : Kernel) (memarea : Nat) : Nat :=
  if K.isIndex then 0 else memarea

/-- Address the kernel accesses when the cursor register holds `x`. -/
def Kernel.effAddr (K : Kernel) (memarea x : Nat) : Nat :=
  if K.isIndex then memarea + x else x

/-- One iteration of the inner loop of a tuned kernel, from label `2:` up to the compare:
the state is the cursor register `x16` and the machine. -/
def Kernel.innerBody (K : Kernel) (memarea : Nat) : Nat × Machine → Nat × Machine :=
  if K ∈ permKernels then chase^[K.unroll]
  else if K.isIndex then idxBody (access K.isWrite 8) memarea
  else ptrBody (access K.isWrite K.width) K.width K.unroll

/-- The test that ends an iteration of the inner loop of a tuned kernel: `true` branches
back to label `2:`. -/
def Kernel.innerTest (K : Kernel) (memarea size : Nat) : Nat × Machine → Bool :=
  if K ∈ permKernels then fun s => decide (s.1 ≠ memarea)
  else if K.isIndex then fun s => decide (s.1 < size)
  else fun s => decide (s.1 < (memarea + size) % 2 ^ 64)

/-- Number of iterations of a test-after loop that advances by `s` bytes per iteration
over `size` bytes: `max 1 (ceil (size / s))`. -/
def blocks (s size : Nat) : Nat := max 1 ((size + s - 1) / s)

/-- Number of passes the repeat loop performs for the counter value `repeats`: the
counter is decremented modulo `2^64` before it is tested, so `0` stands for `2^64`. -/
def passCount (repeats : Nat) : Nat := if repeats = 0 then 2 ^ 64 else repeats

/-- Number of bytes one pass of a scan kernel covers when called with `size`: the
iterations of its inner loop times the bytes per iteration. The C pointer writers compute
`end` from `size / sizeof(element)`; the C indexed writer tests before each store. -/
def Kernel.passBytes (K : Kernel) (size : Nat) : Nat :=
  match K with
  | .cScanWrite64PtrSimpleLoop => blocks 8 (size / 8 * 8) * 8
  | .cScanWrite128PtrSimpleLoop => blocks 16 (size / 16 * 16) * 16
  | .cScanWrite64IndexSimpleLoop => size / 8 * 8
  | _ => blocks (K.unroll * K.width) size * (K.unroll * K.width)

/-- The map `tau` is a bijection of the slot indices `0, ..., N-1`: it maps indices to
indices and is injective on them. -/
def IsPermOn (N : Nat) (tau : Nat → Nat) : Prop :=
  (∀ i, i < N → tau i < N) ∧ (∀ i, i < N → ∀ j, j < N → tau i = tau j → i = j)

instance (N : Nat) (tau : Nat → Nat) : Decidable (IsPermOn N tau) := by
  unfold IsPermOn; infer_instance

/-- The number `c` is the length of the `tau`-cycle through slot 0: the first positive
number of steps after which slot 0 is reached again. -/
def IsCycleLength (tau : Nat → Nat) (c : Nat) : Prop :=
  1 ≤ c ∧ tau^[c] 0 = 0 ∧ ∀ k, k < c → 0 < k → tau^[k] 0 ≠ 0

instance (tau : Nat → Nat) (c : Nat) : Decidable (IsCycleLength tau c) := by
  unfold IsCycleLength; infer_instance

/-! ## Permutations encoded in memory -/

/-- The map `tau` permutes the slot indices `0, ..., N-1` and is one single cycle through
all of them: it maps indices to indices, is injective on them, and every index is reached
from index 0 by iterating `tau`. -/
def IsSingleCycle (N : Nat) (tau : Nat → Nat) : Prop :=
  (∀ i, i < N → tau i < N) ∧
  (∀ i, i < N → ∀ j, j < N → tau i = tau j → i = j) ∧
  (∀ j, j < N → ∃ k, k < N ∧ tau^[k] 0 = j)

instance (N : Nat) (tau : Nat → Nat) : Decidable (IsSingleCycle N tau) := by
  unfold IsSingleCycle; infer_instance

/-- The `N` consecutive 8-byte slots starting at `memarea` lie in the address space and
slot `i` holds the address of slot `tau i`. -/
def Encodes (mem : Nat → Nat) (memarea N : Nat) (tau : Nat → Nat) : Prop :=
  memarea + 8 * N ≤ 2 ^ 64 ∧ ∀ i, i < N → load64 mem (memarea + 8 * i) = memarea + 8 * tau i

instance (mem : Nat → Nat) (memarea N : Nat) (tau : Nat → Nat) :
    Decidable (Encodes mem memarea N tau) := by
  unfold Encodes; infer_instance

/-- The loads of `n` consecutive transitions from the anchor: transition `k` loads from
slot `tau^[k] 0`. -/
def lapTrace (memarea : Nat) (tau : Nat → Nat) (n : Nat) : List Access :=
  (List.range n).map fun k => ⟨false, memarea + 8 * tau^[k] 0, 8⟩

/-- Permutation walker with `u` transitions per inner-loop iteration. -/
def permWalk (u : Nat) (fuel memarea repeats : Nat) (m : Machine) : Option Machine :=
  repeatLoop (fun m =>
    (doWhile (chase^[u]) (fun s => decide (s.1 ≠ memarea)) fuel (memarea, m)).map Prod.snd)
    fuel repeats m

/-- An area of `N` slots at `memarea` holding `tau`, zero elsewhere: slot `i` stores the
little-endian address `memarea + 8 * tau i`. -/
def permArea (memarea N : Nat) (tau : Nat → Nat) : Nat → Nat :=
  fun x =>
    if memarea ≤ x ∧ x < memarea + 8 * N then
      (memarea + 8 * tau ((x - memarea) / 8)) / 256 ^ ((x - memarea) % 8) % 256
    else 0

/-! # Theorems -/

/-! ## Every kernel is an instance of a generic scan -/

theorem str_eq_access (m : Machine) (a : Nat) : str m PATTERN a = access true 8 m a := rfl

theorem strq_eq_access (m : Machine) (a : Nat) :
    strq m (PATTERN, PATTERN) a = access true 16 m a := rfl

theorem stnp_eq_access (m : Machine) (a : Nat) :
    stnp m (PATTERN, PATTERN) (PATTERN, PATTERN) a = access true 32 m a := rfl

theorem ldr_eq_access (m : Machine) (a : Nat) : (ldr m a).2 = access false 8 m a := rfl

theorem ldrq_eq_access (m : Machine) (a : Nat) : (ldrq m a).2 = access false 16 m a := rfl

theorem ldnp_eq_access (m : Machine) (a : Nat) : (ldnp m a).2 = access false 32 m a := rfl

theorem ScanWrite64PtrSimpleLoop_eq : ScanWrite64PtrSimpleLoop = scanPtr true 8 1 := by
  funext fuel memarea size repeats m
  simp only [ScanWrite64PtrSimpleLoop, str_eq_access]
  rfl

theorem ScanWrite64PtrUnrollLoop_eq : ScanWrite64PtrUnrollLoop = scanPtr true 8 16 := by
  funext fuel memarea size repeats m
  simp only [ScanWrite64PtrUnrollLoop, str_eq_access]
  rfl

theorem ScanRead64PtrSimpleLoop_eq : ScanRead64PtrSimpleLoop = scanPtr false 8 1 := by
  funext fuel memarea size repeats m
  simp only [ScanRead64PtrSimpleLoop, ldr_eq_access]
  rfl

theorem ScanRead64PtrUnrollLoop_eq : ScanRead64PtrUnrollLoop = scanPtr false 8 16 := by
  funext fuel memarea size repeats m
  simp only [ScanRead64PtrUnrollLoop, ldr_eq_access]
  rfl

theorem cScanWrite64IndexSimpleLoop_eq : cScanWrite64IndexSimpleLoop = scanFor := by
  funext fuel memarea size repeats m
  simp only [cScanWrite64IndexSimpleLoop, str_eq_access]
  rfl

theorem ScanWrite64IndexSimpleLoop_eq : ScanWrite64IndexSimpleLoop = scanIdx true := by
  funext fuel memarea size repeats m
  simp only [ScanWrite64IndexSimpleLoop, str_eq_access]
  rfl

theorem ScanRead64IndexSimpleLoop_eq : ScanRead64IndexSimpleLoop = scanIdx false := by
  funext fuel memarea size repeats m
  simp only [ScanRead64IndexSimpleLoop, ldr_eq_access]
  rfl

theorem ScanWrite128PtrSimpleLoop_eq : ScanWrite128PtrSimpleLoop = scanPtr true 16 1 := by
  funext fuel memarea size repeats m
  simp only [ScanWrite128PtrSimpleLoop, strq_eq_access]
  rfl

theorem ScanWrite128PtrUnrollLoop_eq : ScanWrite128PtrUnrollLoop = scanPtr true 16 16 := by
  funext fuel memarea size repeats m
  simp only [ScanWrite128PtrUnrollLoop, strq_eq_access]
  rfl

theorem ScanRead128PtrSimpleLoop_eq : ScanRead128PtrSimpleLoop = scanPtr false 16 1 := by
  funext fuel memarea size repeats m
  simp only [ScanRead128PtrSimpleLoop, ldrq_eq_access]
  rfl

theorem ScanRead128PtrUnrollLoop_eq : ScanRead128PtrUnrollLoop = scanPtr false 16 16 := by
  funext fuel memarea size repeats m
  simp only [ScanRead128PtrUnrollLoop, ldrq_eq_access]
  rfl

theorem ScanWrite256PtrSimpleLoop_eq : ScanWrite256PtrSimpleLoop = scanPtr true 32 1 := by
  funext fuel memarea size repeats m
  simp only [ScanWrite256PtrSimpleLoop, stnp_eq_access]
  rfl

theorem ScanWrite256PtrUnrollLoop_eq : ScanWrite256PtrUnrollLoop = scanPtr true 32 16 := by
  funext fuel memarea size repeats m
  simp only [ScanWrite256PtrUnrollLoop, stnp_eq_access]
  rfl

theorem ScanRead256PtrSimpleLoop_eq : ScanRead256PtrSimpleLoop = scanPtr false 32 1 := by
  funext fuel memarea size repeats m
  simp only [ScanRead256PtrSimpleLoop, ldnp_eq_access]
  rfl

theorem ScanRead256PtrUnrollLoop_eq : ScanRead256PtrUnrollLoop = scanPtr false 32 16 := by
  funext fuel memarea size repeats m
  simp only [ScanRead256PtrUnrollLoop, ldnp_eq_access]
  rfl

theorem cScanWrite64PtrSimpleLoop_eq (fuel memarea size : Nat) :
    cScanWrite64PtrSimpleLoop fuel memarea size
      = scanPtr true 8 1 fuel memarea (size / 8 * 8) := by
  funext repeats m
  simp only [cScanWrite64PtrSimpleLoop, str_eq_access]
  rfl

theorem cScanWrite128PtrSimpleLoop_eq (fuel memarea size : Nat) :
    cScanWrite128PtrSimpleLoop fuel memarea size
      = scanPtr true 16 1 fuel memarea (size / 16 * 16) := by
  funext repeats m
  simp only [cScanWrite128PtrSimpleLoop, strq_eq_access]
  rfl

/-! ## Loop combinators -/

theorem doWhile_eq_iterate {σ : Type} (body : σ → σ) (cond : σ → Bool) :
    ∀ (J fuel : Nat) (s : σ), 1 ≤ J → J ≤ fuel →
      (∀ j, 1 ≤ j → j < J → cond (body^[j] s) = true) →
      cond (body^[J] s) = false →
      doWhile body cond fuel s = some (body^[J] s) := by
  intro J
  induction J with
  | zero => intro fuel s h; omega
  | succ k ih =>
    intro fuel s _ hfuel hcont hstop
    obtain ⟨f, rfl⟩ : ∃ f, fuel = f + 1 := ⟨fuel - 1, by omega⟩
    rcases Nat.eq_zero_or_pos k with hk | hk
    · subst hk
      simp only [zero_add, Function.iterate_one] at hstop
      simp [doWhile, hstop]
    · have h1 : cond (body s) = true := by
        have := hcont 1 le_rfl (by omega)
        simpa using this
      have hrec := ih f (body s) hk (by omega)
        (fun j hj1 hjk => by
          have := hcont (j + 1) (by omega) (by omega)
          rwa [Function.iterate_succ_apply] at this)
        (by rwa [Function.iterate_succ_apply] at hstop)
      rw [Function.iterate_succ_apply]
      simp only [doWhile, h1, if_true]
      exact hrec

theorem whileLoop_eq_iterate {σ : Type} (cond : σ → Bool) (body : σ → σ) :
    ∀ (J fuel : Nat) (s : σ), J < fuel →
      (∀ j, j < J → cond (body^[j] s) = true) →
      cond (body^[J] s) = false →
      whileLoop cond body fuel s = some (body^[J] s) := by
  intro J
  induction J with
  | zero =>
    intro fuel s hfuel _ hstop
    obtain ⟨f, rfl⟩ : ∃ f, fuel = f + 1 := ⟨fuel - 1, by omega⟩
    simp only [Function.iterate_zero, id_eq] at hstop
    simp [whileLoop, hstop]
  | succ k ih =>
    intro fuel s hfuel hcont hstop
    obtain ⟨f, rfl⟩ : ∃ f, fuel = f + 1 := ⟨fuel - 1, by omega⟩
    have h0 : cond s = true := by simpa using hcont 0 (by omega)
    have hrec := ih f (body s) (by omega)
      (fun j hjk => by
        have := hcont (j + 1) (by omega)
        rwa [Function.iterate_succ_apply] at this)
      (by rwa [Function.iterate_succ_apply] at hstop)
    rw [Function.iterate_succ_apply]
    simp only [whileLoop, h0, if_true]
    exact hrec

/-- The repeat loop runs `repeats` passes when `1 ≤ repeats < 2^64` and every pass on a
state satisfying the invariant returns. -/
theorem repeatLoop_eq_iterate (pass : Machine → Option Machine) (P : Machine → Machine)
    (Inv : Machine → Prop) (hpass : ∀ m, Inv m → pass m = some (P m))
    (hInv : ∀ m, Inv m → Inv (P m)) :
    ∀ (r fuel : Nat) (m : Machine), 1 ≤ r → r < 2 ^ 64 → r ≤ fuel → Inv m →
      repeatLoop pass fuel r m = some (P^[r] m) := by
  intro r
  induction r with
  | zero => intro fuel m h; omega
  | succ k ih =>
    intro fuel m _ hr hfuel hm
    obtain ⟨f, rfl⟩ : ∃ f, fuel = f + 1 := ⟨fuel - 1, by omega⟩
    have hdec : (k + 1 + 2 ^ 64 - 1) % 2 ^ 64 = k := by omega
    rw [Function.iterate_succ_apply]
    simp only [repeatLoop, hpass m hm, hdec]
    rcases Nat.eq_zero_or_pos k with hk | hk
    · subst hk; simp
    · rw [if_pos (by omega)]
      exact ih f (P m) hk (by omega) (by omega) (hInv m hm)

/-! ## Sweeps: consecutive accesses at a fixed stride -/

theorem sweep_add (op : Machine → Nat → Machine) (base w a : Nat) (m : Machine) :
    ∀ b, sweep op base w (a + b) m = sweep op (base + a * w) w b (sweep op base w a m) := by
  intro b
  induction b with
  | zero => rfl
  | succ n ih =>
    have e : base + (a + n) * w = base + a * w + n * w := by ring
    show op (sweep op base w (a + n) m) (base + (a + n) * w) = _
    rw [ih, e]
    rfl

theorem sweep_mod (op : Machine → Nat → Machine)
    (hop : ∀ m a, op m (a % 2 ^ 64) = op m a) (base w : Nat) (m : Machine) :
    ∀ n, sweep op (base % 2 ^ 64) w n m = sweep op base w n m := by
  intro n
  induction n with
  | zero => rfl
  | succ n ih =>
    show op (sweep op (base % 2 ^ 64) w n m) (base % 2 ^ 64 + n * w) = op _ (base + n * w)
    rw [ih, ← hop _ (base % 2 ^ 64 + n * w), ← hop _ (base + n * w)]
    congr 1
    omega

theorem ptrBody_iterate (op : Machine → Nat → Machine)
    (hop : ∀ m a, op m (a % 2 ^ 64) = op m a) (w u base : Nat) (m : Machine)
    (hbase : base < 2 ^ 64) :
    ∀ j, (ptrBody op w u)^[j] (base, m)
      = ((base + j * (u * w)) % 2 ^ 64, sweep op base w (j * u) m) := by
  intro j
  induction j with
  | zero =>
    simp only [Function.iterate_zero, id_eq, zero_mul, add_zero, sweep, Nat.mod_eq_of_lt hbase]
  | succ j ih =>
    rw [Function.iterate_succ_apply', ih]
    have e1 : ((base + j * (u * w)) % 2 ^ 64 + u * w) % 2 ^ 64
        = (base + (j + 1) * (u * w)) % 2 ^ 64 := by
      have : base + (j + 1) * (u * w) = base + j * (u * w) + u * w := by ring
      rw [this]; omega
    have e2 : (j + 1) * u = j * u + u := by ring
    have e3 : base + j * u * w = base + j * (u * w) := by ring
    simp only [ptrBody, e1, e2, sweep_add, sweep_mod op hop, e3]

/-- The pointer loop runs `J` iterations when `J` is the first positive count at which
the cursor is no longer below `endp`. -/
theorem ptrLoop_eq (op : Machine → Nat → Machine)
    (hop : ∀ m a, op m (a % 2 ^ 64) = op m a) (w u base endp J fuel : Nat) (m : Machine)
    (hbase : base < 2 ^ 64) (hJ : 1 ≤ J) (hfuel : J ≤ fuel)
    (hcont : ∀ j, 1 ≤ j → j < J → (base + j * (u * w)) % 2 ^ 64 < endp)
    (hstop : endp ≤ (base + J * (u * w)) % 2 ^ 64) :
    (doWhile (ptrBody op w u) (fun s => decide (s.1 < endp)) fuel (base, m)).map Prod.snd
      = some (sweep op base w (J * u) m) := by
  rw [doWhile_eq_iterate _ _ J fuel _ hJ hfuel]
  · rw [ptrBody_iterate op hop w u base m hbase]; rfl
  · intro j h1 h2
    rw [ptrBody_iterate op hop w u base m hbase]
    simpa using hcont j h1 h2
  · rw [ptrBody_iterate op hop w u base m hbase]
    simpa using hstop

/-! ## The elementary access -/

theorem writeBytes_mod : ∀ (bs : List Nat) (a : Nat) (mem : Nat → Nat),
    writeBytes bs (a % 2 ^ 64) mem = writeBytes bs a mem := by
  intro bs
  induction bs with
  | nil => intro a mem; rfl
  | cons b bs ih =>
    intro a mem
    simp only [writeBytes, Nat.mod_mod]
    rw [← ih (a % 2 ^ 64 + 1), ← ih (a + 1)]
    have e : (a % 2 ^ 64 + 1) % 2 ^ 64 = (a + 1) % 2 ^ 64 := by omega
    rw [e]

theorem access_mod (wr : Bool) (w : Nat) (m : Machine) (a : Nat) :
    access wr w m (a % 2 ^ 64) = access wr w m a := by
  simp only [access, writeBytes_mod, Nat.mod_mod]

theorem writeBytes_apply : ∀ (bs : List Nat) (a : Nat) (mem : Nat → Nat),
    a + bs.length ≤ 2 ^ 64 → ∀ x, writeBytes bs a mem x
      = if a ≤ x ∧ x < a + bs.length then bs.getD (x - a) 0 else mem x := by
  intro bs
  induction bs with
  | nil =>
    intro a mem _ x
    rw [if_neg (by simp)]
    rfl
  | cons b bs ih =>
    intro a mem h x
    simp only [List.length_cons] at h
    simp only [writeBytes, List.length_cons]
    rw [ih (a + 1) _ (by omega) x]
    have ha : a % 2 ^ 64 = a := Nat.mod_eq_of_lt (by omega)
    rw [ha]
    by_cases h1 : a + 1 ≤ x ∧ x < a + 1 + bs.length
    · rw [if_pos h1, if_pos (by omega)]
      obtain ⟨k, hk⟩ : ∃ k, x - a = k + 1 := ⟨x - a - 1, by omega⟩
      rw [hk, List.getD_cons_succ]
      congr 1
      omega
    · rw [if_neg h1]
      by_cases h2 : x = a
      · subst h2
        simp
      · rw [if_neg h2, if_neg (by omega)]

theorem fillBytes_length (w : Nat) : (fillBytes w).length = w := by
  simp [fillBytes]

theorem fillBytes_getD (w j : Nat) (h : j < w) : (fillBytes w).getD j 0 = patByte (j % 8) := by
  simp [fillBytes, List.getD_eq_getElem?_getD, List.getElem?_map, List.getElem?_range h]

theorem sweep_access_trace (wr : Bool) (w base : Nat) (m : Machine) :
    ∀ n, (sweep (access wr w) base w n m).trace
      = m.trace ++ (List.range n).map fun i => ⟨wr, (base + i * w) % 2 ^ 64, w⟩ := by
  intro n
  induction n with
  | zero => simp [sweep]
  | succ n ih =>
    simp only [sweep, access, ih, List.range_succ, List.map_append, List.map_cons,
      List.map_nil, List.append_assoc]

theorem sweep_access_mem_read (w base : Nat) (m : Machine) :
    ∀ n, (sweep (access false w) base w n m).mem = m.mem := by
  intro n
  induction n with
  | zero => rfl
  | succ n ih => simpa [sweep, access] using ih

theorem sweep_access_mem_write (w base : Nat) (m : Machine) (hw : 8 ∣ w) :
    ∀ n, base + n * w ≤ 2 ^ 64 →
      (sweep (access true w) base w n m).mem = filled m.mem base (n * w) := by
  intro n
  induction n with
  | zero =>
    intro _
    funext x
    simp only [sweep, filled]
    rw [if_neg (by omega)]
  | succ n ih =>
    intro h
    have hle : base + n * w + w ≤ 2 ^ 64 := by
      have : (n + 1) * w = n * w + w := by ring
      omega
    obtain ⟨c, rfl⟩ := hw
    obtain ⟨t, ht⟩ : ∃ t, n * (8 * c) = 8 * t := ⟨n * c, by ring⟩
    have hs : (n + 1) * (8 * c) = 8 * t + 8 * c := by rw [← ht]; ring
    funext x
    simp only [sweep, access, if_true]
    rw [writeBytes_apply _ _ _ (by rw [fillBytes_length]; omega), ih (by omega), fillBytes_length]
    simp only [filled, ht, hs]
    by_cases h1 : base + 8 * t ≤ x ∧ x < base + 8 * t + 8 * c
    · rw [if_pos h1, if_pos (by omega), fillBytes_getD _ _ (by omega)]
      congr 1
      omega
    · rw [if_neg h1]
      by_cases h2 : base ≤ x ∧ x < base + 8 * t
      · rw [if_pos h2, if_pos (by omega)]
      · rw [if_neg h2, if_neg (by omega)]

/-! ## Index and `for` loops -/

theorem idxBody_iterate (op : Machine → Nat → Machine) (memarea : Nat) (m : Machine) :
    ∀ j, j * 8 < 2 ^ 64 →
      (idxBody op memarea)^[j] (0, m) = (j * 8, sweep op memarea 8 j m) := by
  intro j
  induction j with
  | zero => intro _; simp [sweep]
  | succ j ih =>
    intro h
    rw [Function.iterate_succ_apply', ih (by omega)]
    have e : (j * 8 + 8) % 2 ^ 64 = (j + 1) * 8 := by omega
    simp only [idxBody, e, sweep]

theorem idxLoop_eq (op : Machine → Nat → Machine) (memarea size J fuel : Nat) (m : Machine)
    (hJ : 1 ≤ J) (hfuel : J ≤ fuel) (hJN : J * 8 < 2 ^ 64)
    (hcont : ∀ j, 1 ≤ j → j < J → j * 8 < size) (hstop : size ≤ J * 8) :
    (doWhile (idxBody op memarea) (fun s => decide (s.1 < size)) fuel (0, m)).map Prod.snd
      = some (sweep op memarea 8 J m) := by
  rw [doWhile_eq_iterate _ _ J fuel _ hJ hfuel]
  · rw [idxBody_iterate op memarea m J hJN]; rfl
  · intro j h1 h2
    rw [idxBody_iterate op memarea m j (by omega)]
    simpa using hcont j h1 h2
  · rw [idxBody_iterate op memarea m J hJN]
    simpa using hstop

theorem forBody_iterate (op : Machine → Nat → Machine) (memarea : Nat) (m : Machine) :
    ∀ j, j < 2 ^ 64 →
      (forBody op memarea)^[j] (0, m) = (j, sweep op memarea 8 j m) := by
  intro j
  induction j with
  | zero => intro _; simp [sweep]
  | succ j ih =>
    intro h
    rw [Function.iterate_succ_apply', ih (by omega)]
    have e : (j + 1) % 2 ^ 64 = j + 1 := by omega
    simp only [forBody, e, sweep]

theorem forLoop_eq (op : Machine → Nat → Machine) (memarea n fuel : Nat) (m : Machine)
    (hfuel : n < fuel) (hn : n < 2 ^ 64) :
    (whileLoop (fun s : Nat × Machine => decide (s.1 < n)) (forBody op memarea) fuel
      (0, m)).map Prod.snd = some (sweep op memarea 8 n m) := by
  rw [whileLoop_eq_iterate _ _ n fuel _ hfuel]
  · rw [forBody_iterate op memarea m n hn]; rfl
  · intro j h1
    rw [forBody_iterate op memarea m j (by omega)]
    simpa using h1
  · rw [forBody_iterate op memarea m n hn]
    simp

/-! ## Passes -/

theorem sweep_access_eq_afterPass (wr : Bool) (w base n : Nat) (m : Machine) (hw : 8 ∣ w)
    (hw0 : 0 < w) (h : base + n * w ≤ 2 ^ 64) :
    sweep (access wr w) base w n m = afterPass wr w base (n * w) m := by
  have htr : (sweep (access wr w) base w n m).trace
      = m.trace ++ passTrace wr w base (n * w / w) := by
    rw [sweep_access_trace, Nat.mul_div_cancel _ hw0, passTrace]
    congr 1
    apply List.map_congr_left
    intro i hi
    have hi2 : i < n := List.mem_range.mp hi
    have : i * w + w ≤ n * w := by
      have := Nat.mul_le_mul_right w (Nat.succ_le_of_lt hi2)
      rw [Nat.succ_mul] at this
      exact this
    rw [Nat.mod_eq_of_lt (by omega)]
  cases wr with
  | false =>
    have hm := sweep_access_mem_read w base m n
    cases hs : sweep (access false w) base w n m with
    | mk mem tr =>
      rw [hs] at htr hm
      simp only at htr hm
      simp [afterPass, htr, hm]
  | true =>
    have hm := sweep_access_mem_write w base m hw n h
    cases hs : sweep (access true w) base w n m with
    | mk mem tr =>
      rw [hs] at htr hm
      simp only at htr hm
      simp [afterPass, htr, hm]

theorem filled_filled (mem : Nat → Nat) (base len : Nat) :
    filled (filled mem base len) base len = filled mem base len := by
  funext x
  simp only [filled]
  split <;> rfl

theorem afterPass_iterate (wr : Bool) (w base size : Nat) (m : Machine) :
    ∀ r, 1 ≤ r → (afterPass wr w base size)^[r] m = afterPasses wr w base size r m := by
  intro r
  induction r with
  | zero => intro h; omega
  | succ k ih =>
    intro _
    rcases Nat.eq_zero_or_pos k with hk | hk
    · subst hk
      simp [afterPass, afterPasses]
    · rw [Function.iterate_succ_apply', ih hk]
      cases wr <;>
        simp [afterPass, afterPasses, filled_filled, List.replicate_succ', List.flatten_append]

/-! ## Aligned sizes in a valid area -/

theorem scanPtr_aligned (wr : Bool) (w u n fuel memarea r : Nat) (m : Machine) (hw : 8 ∣ w)
    (hw0 : 0 < w) (hu : 0 < u) (hn : 1 ≤ n) (hnw : memarea + n * (u * w) < 2 ^ 64)
    (hr1 : 1 ≤ r) (hr : r < 2 ^ 64) (hfn : n ≤ fuel) (hfr : r ≤ fuel) :
    scanPtr wr w u fuel memarea (n * (u * w)) r m
      = some (afterPasses wr w memarea (n * (u * w)) r m) := by
  have hs : 0 < u * w := Nat.mul_pos hu hw0
  have hpass : ∀ m : Machine, True →
      (doWhile (ptrBody (access wr w) w u)
        (fun s => decide (s.1 < (memarea + n * (u * w)) % 2 ^ 64)) fuel (memarea, m)).map
          Prod.snd = some (afterPass wr w memarea (n * (u * w)) m) := by
    intro m _
    rw [ptrLoop_eq (access wr w) (access_mod wr w) w u memarea _ n fuel m (by omega) hn hfn]
    · have e : n * u * w = n * (u * w) := by ring
      rw [sweep_access_eq_afterPass wr w memarea (n * u) m hw hw0 (by rw [e]; omega), e]
    · intro j _ hj
      have : j * (u * w) + u * w ≤ n * (u * w) := by
        have := Nat.mul_le_mul_right (u * w) (Nat.succ_le_of_lt hj)
        rw [Nat.succ_mul] at this
        exact this
      rw [Nat.mod_eq_of_lt (by omega), Nat.mod_eq_of_lt hnw]
      omega
    · exact le_rfl
  unfold scanPtr
  rw [repeatLoop_eq_iterate _ _ (fun _ => True) hpass (fun _ _ => trivial) r fuel m hr1 hr hfr
    trivial, afterPass_iterate _ _ _ _ _ r hr1]

theorem scanIdx_aligned (wr : Bool) (n fuel memarea r : Nat) (m : Machine)
    (hn : 1 ≤ n) (hnw : memarea + n * 8 < 2 ^ 64)
    (hr1 : 1 ≤ r) (hr : r < 2 ^ 64) (hfn : n ≤ fuel) (hfr : r ≤ fuel) :
    scanIdx wr fuel memarea (n * 8) r m = some (afterPasses wr 8 memarea (n * 8) r m) := by
  have hpass : ∀ m : Machine, True →
      (doWhile (idxBody (access wr 8) memarea) (fun s => decide (s.1 < n * 8)) fuel
        (0, m)).map Prod.snd = some (afterPass wr 8 memarea (n * 8) m) := by
    intro m _
    rw [idxLoop_eq (access wr 8) memarea (n * 8) n fuel m hn hfn (by omega)
      (fun j _ hj => by omega) le_rfl]
    rw [sweep_access_eq_afterPass wr 8 memarea n m (dvd_refl 8) (by norm_num) (by omega)]
  unfold scanIdx
  rw [repeatLoop_eq_iterate _ _ (fun _ => True) hpass (fun _ _ => trivial) r fuel m hr1 hr hfr
    trivial, afterPass_iterate _ _ _ _ _ r hr1]

theorem scanFor_aligned (n fuel memarea r : Nat) (m : Machine)
    (_hn : 1 ≤ n) (hnw : memarea + n * 8 < 2 ^ 64)
    (hr1 : 1 ≤ r) (hr : r < 2 ^ 64) (hfn : n < fuel) (hfr : r ≤ fuel) :
    scanFor fuel memarea (n * 8) r m = some (afterPasses true 8 memarea (n * 8) r m) := by
  have hdiv : n * 8 / 8 = n := by omega
  have hpass : ∀ m : Machine, True →
      (whileLoop (fun s : Nat × Machine => decide (s.1 < n * 8 / 8))
        (forBody (access true 8) memarea) fuel (0, m)).map Prod.snd
        = some (afterPass true 8 memarea (n * 8) m) := by
    intro m _
    rw [hdiv, forLoop_eq (access true 8) memarea n fuel m hfn (by omega)]
    rw [sweep_access_eq_afterPass true 8 memarea n m (dvd_refl 8) (by norm_num) (by omega)]
  unfold scanFor
  rw [repeatLoop_eq_iterate _ _ (fun _ => True) hpass (fun _ _ => trivial) r fuel m hr1 hr hfr
    trivial, afterPass_iterate _ _ _ _ _ r hr1]

/-! ## The aligned result for every scan kernel -/

theorem run_aligned (K : Kernel) (hK : K ∈ tunedScanKernels ++ referenceWriteKernels)
    (n fuel memarea r : Nat) (m : Machine) (hn : 1 ≤ n)
    (hnw : memarea + n * (K.unroll * K.width) < 2 ^ 64) (hr1 : 1 ≤ r) (hr : r < 2 ^ 64)
    (hfn : n < fuel) (hfr : r ≤ fuel) :
    K.run fuel memarea (n * (K.unroll * K.width)) r m
      = some (afterPasses K.isWrite K.width memarea (n * (K.unroll * K.width)) r m) := by
  have h8 : (8 : Nat) ∣ 8 := dvd_refl 8
  have h16 : (8 : Nat) ∣ 16 := ⟨2, rfl⟩
  have h32 : (8 : Nat) ∣ 32 := ⟨4, rfl⟩
  have e8 : n * (1 * 8) / 8 * 8 = n * (1 * 8) := by omega
  have e16 : n * (1 * 16) / 16 * 16 = n * (1 * 16) := by omega
  have hfn1 : n ≤ fuel := Nat.le_of_lt hfn
  simp only [tunedScanKernels, tunedWriteKernels, tunedReadKernels, referenceWriteKernels,
    List.cons_append, List.nil_append, List.mem_cons, List.mem_singleton, List.not_mem_nil,
    or_false] at hK
  rcases hK with rfl | rfl | rfl | rfl | rfl | rfl | rfl | rfl | rfl | rfl | rfl | rfl | rfl
    | rfl | rfl | rfl | rfl
  · simp only [Kernel.run, Kernel.width, Kernel.unroll, Kernel.isWrite,
      ScanWrite64PtrSimpleLoop_eq] at hnw ⊢
    exact scanPtr_aligned true 8 1 n fuel memarea r m h8 (by norm_num) (by norm_num) hn hnw
      hr1 hr hfn1 hfr
  · simp only [Kernel.run, Kernel.width, Kernel.unroll, Kernel.isWrite,
      ScanWrite64PtrUnrollLoop_eq] at hnw ⊢
    exact scanPtr_aligned true 8 16 n fuel memarea r m h8 (by norm_num) (by norm_num) hn hnw
      hr1 hr hfn1 hfr
  · simp only [Kernel.run, Kernel.width, Kernel.unroll, Kernel.isWrite,
      ScanWrite64IndexSimpleLoop_eq,
      Nat.one_mul] at hnw ⊢
    exact scanIdx_aligned true n fuel memarea r m hn hnw hr1 hr hfn1 hfr
  · simp only [Kernel.run, Kernel.width, Kernel.unroll, Kernel.isWrite,
      ScanWrite128PtrSimpleLoop_eq] at hnw ⊢
    exact scanPtr_aligned true 16 1 n fuel memarea r m h16 (by norm_num) (by norm_num) hn hnw
      hr1 hr hfn1 hfr
  · simp only [Kernel.run, Kernel.width, Kernel.unroll, Kernel.isWrite,
      ScanWrite128PtrUnrollLoop_eq] at hnw ⊢
    exact scanPtr_aligned true 16 16 n fuel memarea r m h16 (by norm_num) (by norm_num) hn hnw
      hr1 hr hfn1 hfr
  · simp only [Kernel.run, Kernel.width, Kernel.unroll, Kernel.isWrite,
      ScanWrite256PtrSimpleLoop_eq] at hnw ⊢
    exact scanPtr_aligned true 32 1 n fuel memarea r m h32 (by norm_num) (by norm_num) hn hnw
      hr1 hr hfn1 hfr
  · simp only [Kernel.run, Kernel.width, Kernel.unroll, Kernel.isWrite,
      ScanWrite256PtrUnrollLoop_eq] at hnw ⊢
    exact scanPtr_aligned true 32 16 n fuel memarea r m h32 (by norm_num) (by norm_num) hn hnw
      hr1 hr hfn1 hfr
  · simp only [Kernel.run, Kernel.width, Kernel.unroll, Kernel.isWrite,
      ScanRead64PtrSimpleLoop_eq] at hnw ⊢
    exact scanPtr_aligned false 8 1 n fuel memarea r m h8 (by norm_num) (by norm_num) hn hnw
      hr1 hr hfn1 hfr
  · simp only [Kernel.run, Kernel.width, Kernel.unroll, Kernel.isWrite,
      ScanRead64PtrUnrollLoop_eq] at hnw ⊢
    exact scanPtr_aligned false 8 16 n fuel memarea r m h8 (by norm_num) (by norm_num) hn hnw
      hr1 hr hfn1 hfr
  · simp only [Kernel.run, Kernel.width, Kernel.unroll, Kernel.isWrite,
      ScanRead64IndexSimpleLoop_eq,
      Nat.one_mul] at hnw ⊢
    exact scanIdx_aligned false n fuel memarea r m hn hnw hr1 hr hfn1 hfr
  · simp only [Kernel.run, Kernel.width, Kernel.unroll, Kernel.isWrite,
      ScanRead128PtrSimpleLoop_eq] at hnw ⊢
    exact scanPtr_aligned false 16 1 n fuel memarea r m h16 (by norm_num) (by norm_num) hn hnw
      hr1 hr hfn1 hfr
  · simp only [Kernel.run, Kernel.width, Kernel.unroll, Kernel.isWrite,
      ScanRead128PtrUnrollLoop_eq] at hnw ⊢
    exact scanPtr_aligned false 16 16 n fuel memarea r m h16 (by norm_num) (by norm_num) hn hnw
      hr1 hr hfn1 hfr
  · simp only [Kernel.run, Kernel.width, Kernel.unroll, Kernel.isWrite,
      ScanRead256PtrSimpleLoop_eq] at hnw ⊢
    exact scanPtr_aligned false 32 1 n fuel memarea r m h32 (by norm_num) (by norm_num) hn hnw
      hr1 hr hfn1 hfr
  · simp only [Kernel.run, Kernel.width, Kernel.unroll, Kernel.isWrite,
      ScanRead256PtrUnrollLoop_eq] at hnw ⊢
    exact scanPtr_aligned false 32 16 n fuel memarea r m h32 (by norm_num) (by norm_num) hn hnw
      hr1 hr hfn1 hfr
  · simp only [Kernel.run, Kernel.width, Kernel.unroll, Kernel.isWrite,
      cScanWrite64PtrSimpleLoop_eq, e8] at hnw ⊢
    exact scanPtr_aligned true 8 1 n fuel memarea r m h8 (by norm_num) (by norm_num) hn hnw
      hr1 hr hfn1 hfr
  · simp only [Kernel.run, Kernel.width, Kernel.unroll, Kernel.isWrite,
      cScanWrite64IndexSimpleLoop_eq,
      Nat.one_mul] at hnw ⊢
    exact scanFor_aligned n fuel memarea r m hn hnw hr1 hr hfn hfr
  · simp only [Kernel.run, Kernel.width, Kernel.unroll, Kernel.isWrite,
      cScanWrite128PtrSimpleLoop_eq, e16] at hnw ⊢
    exact scanPtr_aligned true 16 1 n fuel memarea r m h16 (by norm_num) (by norm_num) hn hnw
      hr1 hr hfn1 hfr

theorem filled_apply_in (mem : Nat → Nat) (base len x : Nat) (h1 : base ≤ x)
    (h2 : x < base + len) : filled mem base len x = patByte ((x - base) % 8) := by
  simp only [filled]
  rw [if_pos ⟨h1, h2⟩]

theorem filled_apply_out (mem : Nat → Nat) (base len x : Nat)
    (h : ¬ (base ≤ x ∧ x < base + len)) : filled mem base len x = mem x := by
  simp only [filled]
  rw [if_neg h]

theorem load64_filled (mem : Nat → Nat) (base len k : Nat) (hlen : base + len ≤ 2 ^ 64)
    (hk : 8 * k + 8 ≤ len) : load64 (filled mem base len) (base + 8 * k) = PATTERN := by
  have hb : ∀ i, i < 8 →
      filled mem base len ((base + 8 * k + i) % 2 ^ 64) = patByte i := by
    intro i hi
    rw [Nat.mod_eq_of_lt (by omega), filled_apply_in _ _ _ _ (by omega) (by omega)]
    congr 1
    omega
  have hr : readBytes (filled mem base len) (base + 8 * k) 8
      = [patByte 0, patByte 1, patByte 2, patByte 3, patByte 4, patByte 5, patByte 6,
          patByte 7] := by
    simp only [readBytes, List.range, List.range.loop, List.map_cons, List.map_nil]
    rw [hb 0 (by omega), hb 1 (by omega), hb 2 (by omega), hb 3 (by omega), hb 4 (by omega),
      hb 5 (by omega), hb 6 (by omega), hb 7 (by omega)]
  rw [load64, hr]
  decide

theorem tunedWrite_isWrite (K : Kernel) (hK : K ∈ tunedWriteKernels) : K.isWrite = true := by
  revert K; decide

/-! ## Facts about filled memory and pass traces -/

theorem passTrace_addr (wr : Bool) (w base n : Nat) :
    (passTrace wr w base n).map Access.addr = (List.range n).map fun i => base + i * w := by
  simp [passTrace, Function.comp_def]

theorem passTrace_length (wr : Bool) (w base n : Nat) : (passTrace wr w base n).length = n := by
  simp [passTrace]

theorem passTrace_increasing (wr : Bool) (w base n : Nat) (hw : 0 < w) :
    List.Pairwise (· < ·) ((passTrace wr w base n).map Access.addr) := by
  rw [passTrace_addr, List.pairwise_map]
  refine List.Pairwise.imp ?_ (List.pairwise_lt_range n)
  intro a b hab
  have := Nat.mul_lt_mul_of_pos_right hab hw
  omega

theorem flatten_replicate_length {α : Type} (l : List α) :
    ∀ r, (List.replicate r l).flatten.length = l.length * r := by
  intro r
  induction r with
  | zero => simp
  | succ r ih => simp [List.replicate_succ, ih, Nat.mul_succ, Nat.add_comm]

theorem width_pos (K : Kernel) : 0 < K.width := by
  cases K <;> decide

theorem aligned_split (s size : Nat) (hpos : 0 < size) (hal : s ∣ size) :
    ∃ n, size = n * s ∧ 1 ≤ n ∧ n ≤ size := by
  obtain ⟨n, hn⟩ := hal
  have hn0 : 0 < n := by
    rcases Nat.eq_zero_or_pos n with h | h
    · subst h; omega
    · exact h
  have hs0 : 0 < s := by
    rcases Nat.eq_zero_or_pos s with h | h
    · subst h; simp at hn; omega
    · exact h
  refine ⟨n, by rw [hn, Nat.mul_comm], hn0, ?_⟩
  rw [hn]
  exact Nat.le_mul_of_pos_left n hs0

/-! ## Walking a single cycle -/

theorem PermRead64SimpleLoop_eq (fuel memarea size : Nat) :
    PermRead64SimpleLoop fuel memarea size = permWalk 1 fuel memarea := rfl

theorem PermRead64UnrollLoop_eq (fuel memarea size : Nat) :
    PermRead64UnrollLoop fuel memarea size = permWalk 16 fuel memarea := rfl

/-! ## Single cycles -/

theorem cycle_iterate_lt {N : Nat} {tau : Nat → Nat} (hN : 1 ≤ N) (h : IsSingleCycle N tau) :
    ∀ k, tau^[k] 0 < N := by
  intro k
  induction k with
  | zero => simpa using hN
  | succ k ih =>
    rw [Function.iterate_succ_apply']
    exact h.1 _ ih

theorem cycle_iterate_injOn {N : Nat} {tau : Nat → Nat} (hN : 1 ≤ N)
    (h : IsSingleCycle N tau) :
    ∀ a, a < N → ∀ b, b < N → tau^[a] 0 = tau^[b] 0 → a = b := by
  let f : Fin N → Fin N := fun k => ⟨tau^[k.1] 0, cycle_iterate_lt hN h k.1⟩
  have hsurj : Function.Surjective f := by
    intro j
    obtain ⟨k, hk, hkj⟩ := h.2.2 j.1 j.2
    exact ⟨⟨k, hk⟩, Fin.ext hkj⟩
  have hinj : Function.Injective f := Finite.injective_iff_surjective.mpr hsurj
  intro a ha b hb hab
  have : (⟨a, ha⟩ : Fin N) = ⟨b, hb⟩ := hinj (Fin.ext hab)
  exact Fin.mk.inj this

theorem cycle_iterate_ne_zero {N : Nat} {tau : Nat → Nat} (hN : 1 ≤ N)
    (h : IsSingleCycle N tau) (k : Nat) (h0 : 0 < k) (hk : k < N) : tau^[k] 0 ≠ 0 := by
  intro hk0
  have := cycle_iterate_injOn hN h k hk 0 (by omega) (by simpa using hk0)
  omega

theorem cycle_iterate_period {N : Nat} {tau : Nat → Nat} (hN : 1 ≤ N)
    (h : IsSingleCycle N tau) : tau^[N] 0 = 0 := by
  by_contra hne
  obtain ⟨k, hk, hkj⟩ := h.2.2 (tau^[N] 0) (cycle_iterate_lt hN h N)
  rcases Nat.eq_zero_or_pos k with h0 | h0
  · subst h0
    exact hne (by simpa using hkj.symm)
  · obtain ⟨k1, rfl⟩ : ∃ k1, k = k1 + 1 := ⟨k - 1, by omega⟩
    obtain ⟨N1, rfl⟩ : ∃ N1, N = N1 + 1 := ⟨N - 1, by omega⟩
    rw [Function.iterate_succ_apply', Function.iterate_succ_apply'] at hkj
    have e := h.2.1 _ (cycle_iterate_lt hN h k1) _ (cycle_iterate_lt hN h N1) hkj
    have := cycle_iterate_injOn hN h k1 (by omega) N1 (by omega) e
    omega

theorem cycle_iterate_mod {N : Nat} {tau : Nat → Nat} (hN : 1 ≤ N)
    (h : IsSingleCycle N tau) (k : Nat) : tau^[k] 0 = tau^[k % N] 0 := by
  induction k using Nat.strong_induction_on with
  | _ k ih =>
    rcases Nat.lt_or_ge k N with hlt | hge
    · rw [Nat.mod_eq_of_lt hlt]
    · obtain ⟨d, rfl⟩ : ∃ d, k = d + N := ⟨k - N, by omega⟩
      rw [Function.iterate_add_apply, cycle_iterate_period hN h, ih d (by omega),
        Nat.add_mod_right]

theorem cycle_iterate_eq_zero_iff {N : Nat} {tau : Nat → Nat} (hN : 1 ≤ N)
    (h : IsSingleCycle N tau) (k : Nat) : tau^[k] 0 = 0 ↔ N ∣ k := by
  rw [cycle_iterate_mod hN h k, Nat.dvd_iff_mod_eq_zero]
  constructor
  · intro hk
    by_contra hne
    exact cycle_iterate_ne_zero hN h (k % N) (Nat.pos_of_ne_zero hne)
      (Nat.mod_lt _ (by omega)) hk
  · intro hk
    rw [hk]; rfl

theorem lapTrace_succ (memarea : Nat) (tau : Nat → Nat) (n : Nat) :
    lapTrace memarea tau (n + 1)
      = lapTrace memarea tau n ++ [⟨false, memarea + 8 * tau^[n] 0, 8⟩] := by
  simp [lapTrace, List.range_succ]

theorem lapTrace_length (memarea : Nat) (tau : Nat → Nat) (n : Nat) :
    (lapTrace memarea tau n).length = n := by
  simp [lapTrace]

theorem chase_iterate {N : Nat} {tau : Nat → Nat} (memarea : Nat) (m : Machine) (hN : 1 ≤ N)
    (hcyc : IsSingleCycle N tau) (henc : Encodes m.mem memarea N tau) :
    ∀ k, chase^[k] (memarea, m)
      = (memarea + 8 * tau^[k] 0, ⟨m.mem, m.trace ++ lapTrace memarea tau k⟩) := by
  intro k
  induction k with
  | zero => simp [lapTrace]
  | succ k ih =>
    have hlt := cycle_iterate_lt hN hcyc k
    have hmod : (memarea + 8 * tau^[k] 0) % 2 ^ 64 = memarea + 8 * tau^[k] 0 :=
      Nat.mod_eq_of_lt (by have := henc.1; omega)
    rw [Function.iterate_succ_apply', ih, lapTrace_succ]
    simp only [chase, ldr, henc.2 _ hlt, hmod, Function.iterate_succ_apply', List.append_assoc]

theorem lcm_blocks (N u : Nat) (hN : 1 ≤ N) (hu : 1 ≤ u) :
    u * (Nat.lcm N u / u) = Nat.lcm N u ∧ 1 ≤ Nat.lcm N u / u := by
  have hd : u ∣ Nat.lcm N u := Nat.dvd_lcm_right N u
  have hpos : 0 < Nat.lcm N u := Nat.lcm_pos (by omega) (by omega)
  have h1 : u * (Nat.lcm N u / u) = Nat.lcm N u := Nat.mul_div_cancel' hd
  refine ⟨h1, ?_⟩
  rcases Nat.eq_zero_or_pos (Nat.lcm N u / u) with h0 | h0
  · rw [h0] at h1; omega
  · exact h0

/-- One lap of the walker with `u` transitions per test performs `lcm N u` transitions. -/
theorem permLap_eq {N : Nat} {tau : Nat → Nat} (u memarea fuel : Nat) (m : Machine)
    (hN : 1 ≤ N) (hu : 1 ≤ u) (hcyc : IsSingleCycle N tau)
    (henc : Encodes m.mem memarea N tau) (hfuel : Nat.lcm N u / u ≤ fuel) :
    (doWhile (chase^[u]) (fun s => decide (s.1 ≠ memarea)) fuel (memarea, m)).map Prod.snd
      = some ⟨m.mem, m.trace ++ lapTrace memarea tau (Nat.lcm N u)⟩ := by
  obtain ⟨hJ, hJ1⟩ := lcm_blocks N u hN hu
  have hit : ∀ b, (chase^[u])^[b] (memarea, m)
      = (memarea + 8 * tau^[u * b] 0, ⟨m.mem, m.trace ++ lapTrace memarea tau (u * b)⟩) := by
    intro b
    rw [← Function.iterate_mul, chase_iterate memarea m hN hcyc henc]
  rw [doWhile_eq_iterate _ _ (Nat.lcm N u / u) fuel _ hJ1 hfuel]
  · rw [hit, hJ]; rfl
  · intro b hb1 hb2
    rw [hit]
    have hne : tau^[u * b] 0 ≠ 0 := by
      rw [Ne, cycle_iterate_eq_zero_iff hN hcyc]
      intro hdvd
      have h2 : Nat.lcm N u ∣ u * b := Nat.lcm_dvd hdvd (Dvd.intro b rfl)
      rw [← hJ] at h2
      have h3 := (Nat.mul_dvd_mul_iff_left (by omega : 0 < u)).mp h2
      have := Nat.le_of_dvd (by omega) h3
      omega
    simp only [decide_eq_true_eq]
    omega
  · rw [hit, hJ]
    have hz : tau^[Nat.lcm N u] 0 = 0 :=
      (cycle_iterate_eq_zero_iff hN hcyc _).mpr (Nat.dvd_lcm_left N u)
    simp [hz]

theorem lapPass_iterate (lap : List Access) (m : Machine) :
    ∀ r, (fun m : Machine => (⟨m.mem, m.trace ++ lap⟩ : Machine))^[r] m
      = ⟨m.mem, m.trace ++ (List.replicate r lap).flatten⟩ := by
  intro r
  induction r with
  | zero => simp
  | succ r ih =>
    rw [Function.iterate_succ_apply', ih]
    simp [List.replicate_succ', List.flatten_append]

/-- The walker with `u` transitions per test, on a single `N`-cycle, returns after
`repeats` laps of `lcm N u` transitions each; memory is untouched. -/
theorem permWalk_eq {N : Nat} {tau : Nat → Nat} (u memarea fuel repeats : Nat) (m : Machine)
    (hN : 1 ≤ N) (hu : 1 ≤ u) (hcyc : IsSingleCycle N tau)
    (henc : Encodes m.mem memarea N tau) (hrep : 1 ≤ repeats) (hrep64 : repeats < 2 ^ 64)
    (hfuel : Nat.lcm N u / u ≤ fuel) (hfr : repeats ≤ fuel) :
    permWalk u fuel memarea repeats m
      = some ⟨m.mem, m.trace ++
          (List.replicate repeats (lapTrace memarea tau (Nat.lcm N u))).flatten⟩ := by
  unfold permWalk
  rw [repeatLoop_eq_iterate _
    (fun m => (⟨m.mem, m.trace ++ lapTrace memarea tau (Nat.lcm N u)⟩ : Machine))
    (fun m => Encodes m.mem memarea N tau)
    (fun m hm => permLap_eq u memarea fuel m hN hu hcyc hm hfuel)
    (fun m hm => hm) repeats fuel m hrep hrep64 hfr henc, lapPass_iterate]

theorem lapTrace_addr (memarea : Nat) (tau : Nat → Nat) (n : Nat) :
    (lapTrace memarea tau n).map Access.addr
      = (List.range n).map fun k => memarea + 8 * tau^[k] 0 := by
  simp [lapTrace, Function.comp_def]

theorem lcm_of_dvd (N u : Nat) (h : u ∣ N) : Nat.lcm N u = N :=
  Nat.dvd_antisymm (Nat.lcm_dvd (dvd_refl N) h) (Nat.dvd_lcm_left N u)

theorem lt_lcm_of_not_dvd (N u : Nat) (hN : 1 ≤ N) (hu : 1 ≤ u) (h : ¬ u ∣ N) :
    N < Nat.lcm N u := by
  have hle : N ≤ Nat.lcm N u :=
    Nat.le_of_dvd (Nat.lcm_pos (by omega) (by omega)) (Nat.dvd_lcm_left N u)
  rcases Nat.lt_or_ge N (Nat.lcm N u) with hlt | hge
  · exact hlt
  · exfalso
    have e : Nat.lcm N u = N := Nat.le_antisymm hge hle
    exact h (e ▸ Nat.dvd_lcm_right N u)

/-! ## Frame: loads do not change memory -/

theorem doWhile_invariant {σ : Type} (body : σ → σ) (cond : σ → Bool) (Q : σ → Prop)
    (hbody : ∀ s, Q s → Q (body s)) :
    ∀ (fuel : Nat) (s s1 : σ), Q s → doWhile body cond fuel s = some s1 → Q s1 := by
  intro fuel
  induction fuel with
  | zero => intro s s1 _ h; simp [doWhile] at h
  | succ f ih =>
    intro s s1 hs h
    simp only [doWhile] at h
    split at h
    · exact ih (body s) s1 (hbody s hs) h
    · cases h
      exact hbody s hs

theorem repeatLoop_invariant (pass : Machine → Option Machine) (Q : Machine → Prop)
    (hpass : ∀ m m1, Q m → pass m = some m1 → Q m1) :
    ∀ (fuel r : Nat) (m m1 : Machine), Q m → repeatLoop pass fuel r m = some m1 → Q m1 := by
  intro fuel
  induction fuel with
  | zero => intro r m m1 _ h; simp [repeatLoop] at h
  | succ f ih =>
    intro r m m1 hm h
    simp only [repeatLoop] at h
    cases hp : pass m with
    | none => rw [hp] at h; simp at h
    | some m2 =>
      rw [hp] at h
      simp only at h
      have hq := hpass m m2 hm hp
      split at h
      · exact ih _ m2 m1 hq h
      · cases h
        exact hq

theorem chase_iterate_mem (u : Nat) (s : Nat × Machine) : (chase^[u] s).2.mem = s.2.mem := by
  induction u with
  | zero => rfl
  | succ u ih =>
    rw [Function.iterate_succ_apply', ← ih]
    rfl

theorem scanPtr_frame (w u fuel memarea size repeats : Nat) (m m1 : Machine)
    (h : scanPtr false w u fuel memarea size repeats m = some m1) : m1.mem = m.mem := by
  refine repeatLoop_invariant _ (fun x => x.mem = m.mem) ?_ fuel repeats m m1 rfl h
  intro a b ha hab
  cases hd : doWhile (ptrBody (access false w) w u)
      (fun s => decide (s.1 < (memarea + size) % 2 ^ 64)) fuel (memarea, a) with
  | none => rw [hd] at hab; simp at hab
  | some s =>
    rw [hd] at hab
    simp only [Option.map_some', Option.some.injEq] at hab
    subst hab
    exact doWhile_invariant _ _ (fun s : Nat × Machine => s.2.mem = m.mem)
      (fun s hs => by
        show (sweep (access false w) s.1 w u s.2).mem = m.mem
        rw [sweep_access_mem_read]; exact hs) fuel _ _ ha hd

theorem scanIdx_frame (fuel memarea size repeats : Nat) (m m1 : Machine)
    (h : scanIdx false fuel memarea size repeats m = some m1) : m1.mem = m.mem := by
  refine repeatLoop_invariant _ (fun x => x.mem = m.mem) ?_ fuel repeats m m1 rfl h
  intro a b ha hab
  cases hd : doWhile (idxBody (access false 8) memarea)
      (fun s => decide (s.1 < size)) fuel (0, a) with
  | none => rw [hd] at hab; simp at hab
  | some s =>
    rw [hd] at hab
    simp only [Option.map_some', Option.some.injEq] at hab
    subst hab
    exact doWhile_invariant (idxBody (access false 8) memarea) _
      (fun s : Nat × Machine => s.2.mem = m.mem) (fun s hs => hs) fuel (0, a) _ ha hd

theorem permWalk_frame (u fuel memarea repeats : Nat) (m m1 : Machine)
    (h : permWalk u fuel memarea repeats m = some m1) : m1.mem = m.mem := by
  refine repeatLoop_invariant _ (fun x => x.mem = m.mem) ?_ fuel repeats m m1 rfl h
  intro a b ha hab
  cases hd : doWhile (chase^[u]) (fun s => decide (s.1 ≠ memarea)) fuel (memarea, a) with
  | none => rw [hd] at hab; simp at hab
  | some s =>
    rw [hd] at hab
    simp only [Option.map_some', Option.some.injEq] at hab
    subst hab
    exact doWhile_invariant _ _ (fun s : Nat × Machine => s.2.mem = m.mem)
      (fun s hs => by
        show (chase^[u] s).2.mem = m.mem
        rw [chase_iterate_mem]; exact hs) fuel _ _ ha hd

/-! ## Aligned sizes at any address: the loops return -/

theorem ptr_stop_exists (base stride endp n : Nat) (hn : 1 ≤ n)
    (h : endp ≤ (base + n * stride) % 2 ^ 64) :
    ∃ J, 1 ≤ J ∧ J ≤ n ∧ (∀ j, 1 ≤ j → j < J → (base + j * stride) % 2 ^ 64 < endp) ∧
      endp ≤ (base + J * stride) % 2 ^ 64 := by
  have hex : ∃ j, 1 ≤ j ∧ endp ≤ (base + j * stride) % 2 ^ 64 := ⟨n, hn, h⟩
  refine ⟨Nat.find hex, (Nat.find_spec hex).1, Nat.find_min' hex ⟨hn, h⟩, ?_,
    (Nat.find_spec hex).2⟩
  intro j hj1 hj2
  have := Nat.find_min hex hj2
  by_contra hc
  exact this ⟨hj1, by omega⟩

/-- A pointer-addressed kernel called with a size that is a positive multiple of its
stride returns, at any area address: every pass is the same sweep of `J * u` accesses. -/
theorem scanPtr_returns (wr : Bool) (w u n memarea : Nat) (hn : 1 ≤ n)
    (hbase : memarea < 2 ^ 64) :
    ∃ J, 1 ≤ J ∧ J ≤ n ∧ ∀ (fuel r : Nat) (m : Machine), n ≤ fuel → r ≤ fuel → 1 ≤ r →
      r < 2 ^ 64 →
      scanPtr wr w u fuel memarea (n * (u * w)) r m
        = some ((sweep (access wr w) memarea w (J * u))^[r] m) := by
  obtain ⟨J, hJ1, hJn, hcont, hstop⟩ :=
    ptr_stop_exists memarea (u * w) ((memarea + n * (u * w)) % 2 ^ 64) n hn le_rfl
  refine ⟨J, hJ1, hJn, ?_⟩
  intro fuel r m hfn hfr hr1 hr
  unfold scanPtr
  exact repeatLoop_eq_iterate _ _ (fun _ => True)
    (fun m _ => ptrLoop_eq (access wr w) (access_mod wr w) w u memarea _ J fuel m hbase hJ1
      (by omega) hcont hstop)
    (fun _ _ => trivial) r fuel m hr1 hr hfr trivial

theorem scanIdx_returns (wr : Bool) (n fuel memarea r : Nat) (m : Machine) (hn : 1 ≤ n)
    (hsize : n * 8 < 2 ^ 64) (hr1 : 1 ≤ r) (hr : r < 2 ^ 64) (hfn : n ≤ fuel)
    (hfr : r ≤ fuel) :
    scanIdx wr fuel memarea (n * 8) r m
      = some ((sweep (access wr 8) memarea 8 n)^[r] m) := by
  unfold scanIdx
  exact repeatLoop_eq_iterate _ _ (fun _ => True)
    (fun m _ => idxLoop_eq (access wr 8) memarea (n * 8) n fuel m hn hfn hsize
      (fun j _ hj => by omega) le_rfl)
    (fun _ _ => trivial) r fuel m hr1 hr hfr trivial

theorem scanFor_returns (n fuel memarea r : Nat) (m : Machine)
    (hsize : n * 8 < 2 ^ 64) (hr1 : 1 ≤ r) (hr : r < 2 ^ 64) (hfn : n < fuel)
    (hfr : r ≤ fuel) :
    scanFor fuel memarea (n * 8) r m
      = some ((sweep (access true 8) memarea 8 n)^[r] m) := by
  have hdiv : n * 8 / 8 = n := by omega
  unfold scanFor
  rw [hdiv]
  exact repeatLoop_eq_iterate _ _ (fun _ => True)
    (fun m _ => forLoop_eq (access true 8) memarea n fuel m hfn (by omega))
    (fun _ _ => trivial) r fuel m hr1 hr hfr trivial

/-- The aligned result with the size as given. -/
theorem run_of_aligned (K : Kernel) (hK : K ∈ tunedScanKernels ++ referenceWriteKernels)
    (memarea size repeats fuel : Nat) (m : Machine) (hpos : 0 < size)
    (hal : K.unroll * K.width ∣ size) (hrep : 1 ≤ repeats) (hrep64 : repeats < 2 ^ 64)
    (hwrap : memarea + size < 2 ^ 64) (hfuel : size + repeats < fuel) :
    K.run fuel memarea size repeats m
      = some (afterPasses K.isWrite K.width memarea size repeats m) := by
  obtain ⟨n, hsz, hn1, hnle⟩ := aligned_split _ size hpos hal
  subst hsz
  exact run_aligned K hK n fuel memarea repeats m hn1 hwrap hrep hrep64 (by omega) (by omega)

theorem simpleUnrollPairs_spec (p : Kernel × Kernel) (hp : p ∈ simpleUnrollPairs) :
    p.1 ∈ tunedScanKernels ∧ p.2 ∈ tunedScanKernels ∧ p.1.unroll = 1 ∧ p.2.unroll = 16 ∧
      p.2.width = p.1.width ∧ p.2.isWrite = p.1.isWrite := by
  revert p; decide

/-! ## Stores overwrite: idempotence at any address -/

theorem isOverwrite_id : IsOverwrite (fun mem => mem) :=
  ⟨fun _ => False, fun _ _ => ⟨fun h => h.elim, fun _ => rfl⟩⟩

theorem isOverwrite_comp (G1 G2 : (Nat → Nat) → Nat → Nat) (h1 : IsOverwrite G1)
    (h2 : IsOverwrite G2) : IsOverwrite (fun mem => G2 (G1 mem)) := by
  obtain ⟨S1, hS1⟩ := h1
  obtain ⟨S2, hS2⟩ := h2
  refine ⟨fun x => S1 x ∨ S2 x, fun mem x => ⟨?_, ?_⟩⟩
  · intro hx mem2
    by_cases hx2 : S2 x
    · exact (hS2 (G1 mem) x).1 hx2 (G1 mem2)
    · have hx1 : S1 x := hx.resolve_right hx2
      show G2 (G1 mem) x = G2 (G1 mem2) x
      rw [(hS2 (G1 mem) x).2 hx2, (hS2 (G1 mem2) x).2 hx2]
      exact (hS1 mem x).1 hx1 mem2
  · intro hx
    have hx1 : ¬ S1 x := fun h => hx (Or.inl h)
    have hx2 : ¬ S2 x := fun h => hx (Or.inr h)
    show G2 (G1 mem) x = mem x
    rw [(hS2 (G1 mem) x).2 hx2, (hS1 mem x).2 hx1]

theorem isOverwrite_writeBytes : ∀ (bs : List Nat) (a : Nat),
    IsOverwrite (fun mem => writeBytes bs a mem) := by
  intro bs
  induction bs with
  | nil => intro a; exact isOverwrite_id
  | cons b bs ih =>
    intro a
    have hupd : IsOverwrite (fun mem x => if x = a % 2 ^ 64 then b else mem x) := by
      refine ⟨fun x => x = a % 2 ^ 64, fun mem x => ⟨?_, ?_⟩⟩
      · intro hx mem2
        simp only [if_pos hx]
      · intro hx
        simp only [if_neg hx]
    have h := isOverwrite_comp _ _ hupd (ih (a + 1))
    exact h

theorem isOverwrite_sweepMem (w base : Nat) : ∀ n, IsOverwrite (sweepMem w base n) := by
  intro n
  induction n with
  | zero => exact isOverwrite_id
  | succ n ih =>
    have h := isOverwrite_comp _ _ ih (isOverwrite_writeBytes (fillBytes w) (base + n * w))
    exact h

theorem IsOverwrite.idem {G : (Nat → Nat) → Nat → Nat} (h : IsOverwrite G) (mem : Nat → Nat) :
    G (G mem) = G mem := by
  obtain ⟨S, hS⟩ := h
  funext x
  by_cases hx : S x
  · exact (hS (G mem) x).1 hx mem
  · exact (hS (G mem) x).2 hx

theorem IsOverwrite.iterate {G : (Nat → Nat) → Nat → Nat} (h : IsOverwrite G)
    (mem : Nat → Nat) : ∀ r, 1 ≤ r → G^[r] mem = G mem := by
  intro r
  induction r with
  | zero => intro h0; omega
  | succ k ih =>
    intro _
    rcases Nat.eq_zero_or_pos k with hk | hk
    · subst hk; rfl
    · rw [Function.iterate_succ_apply', ih hk, h.idem]

theorem sweep_write_mem (w base : Nat) (m : Machine) :
    ∀ n, (sweep (access true w) base w n m).mem = sweepMem w base n m.mem := by
  intro n
  induction n with
  | zero => rfl
  | succ n ih =>
    show (access true w (sweep (access true w) base w n m) (base + n * w)).mem = _
    simp only [access, if_true, ih, sweepMem]

theorem sweep_write_iterate_mem (w base n : Nat) (m : Machine) :
    ∀ r, ((sweep (access true w) base w n)^[r] m).mem = (sweepMem w base n)^[r] m.mem := by
  intro r
  induction r with
  | zero => rfl
  | succ r ih =>
    rw [Function.iterate_succ_apply', Function.iterate_succ_apply', sweep_write_mem, ih]

/-- After `r >= 1` sweeps of stores the memory is the memory after one sweep. -/
theorem sweep_write_passes_mem (w base n r : Nat) (m : Machine) (hr : 1 ≤ r) :
    ((sweep (access true w) base w n)^[r] m).mem = sweepMem w base n m.mem := by
  rw [sweep_write_iterate_mem, (isOverwrite_sweepMem w base n).iterate _ r hr]

/-- Every write kernel called with a size that is a positive multiple of its stride
returns, at any area address, and each of its passes is one and the same sweep. -/
theorem write_run_returns (K : Kernel) (hK : K ∈ writeKernels) (memarea size : Nat)
    (hmem : memarea < 2 ^ 64) (hsize : size < 2 ^ 64) (hpos : 0 < size)
    (hal : K.unroll * K.width ∣ size) :
    ∃ M, ∀ (fuel r : Nat) (m : Machine), size + r < fuel → 1 ≤ r → r < 2 ^ 64 →
      K.run fuel memarea size r m
        = some ((sweep (access true K.width) memarea K.width M)^[r] m) := by
  obtain ⟨n, hsz, hn1, hnle⟩ := aligned_split _ size hpos hal
  subst hsz
  have e8 : n * (1 * 8) / 8 * 8 = n * (1 * 8) := by omega
  have e16 : n * (1 * 16) / 16 * 16 = n * (1 * 16) := by omega
  simp only [writeKernels, tunedWriteKernels, referenceWriteKernels, List.cons_append,
    List.nil_append, List.mem_cons, List.mem_singleton, List.not_mem_nil, or_false] at hK
  rcases hK with rfl | rfl | rfl | rfl | rfl | rfl | rfl | rfl | rfl | rfl
  · obtain ⟨J, -, -, h⟩ := scanPtr_returns true 8 1 n memarea hn1 hmem
    refine ⟨J * 1, fun fuel r m hf h1 h2 => ?_⟩
    simp only [Kernel.run, Kernel.width, Kernel.unroll, ScanWrite64PtrSimpleLoop_eq]
    exact h fuel r m (by omega) (by omega) h1 h2
  · obtain ⟨J, -, -, h⟩ := scanPtr_returns true 8 16 n memarea hn1 hmem
    refine ⟨J * 16, fun fuel r m hf h1 h2 => ?_⟩
    simp only [Kernel.run, Kernel.width, Kernel.unroll, ScanWrite64PtrUnrollLoop_eq]
    exact h fuel r m (by omega) (by omega) h1 h2
  · refine ⟨n, fun fuel r m hf h1 h2 => ?_⟩
    simp only [Kernel.run, Kernel.width, Kernel.unroll, ScanWrite64IndexSimpleLoop_eq,
      Nat.one_mul] at hsize ⊢
    exact scanIdx_returns true n fuel memarea r m hn1 hsize h1 h2 (by omega) (by omega)
  · obtain ⟨J, -, -, h⟩ := scanPtr_returns true 16 1 n memarea hn1 hmem
    refine ⟨J * 1, fun fuel r m hf h1 h2 => ?_⟩
    simp only [Kernel.run, Kernel.width, Kernel.unroll, ScanWrite128PtrSimpleLoop_eq]
    exact h fuel r m (by omega) (by omega) h1 h2
  · obtain ⟨J, -, -, h⟩ := scanPtr_returns true 16 16 n memarea hn1 hmem
    refine ⟨J * 16, fun fuel r m hf h1 h2 => ?_⟩
    simp only [Kernel.run, Kernel.width, Kernel.unroll, ScanWrite128PtrUnrollLoop_eq]
    exact h fuel r m (by omega) (by omega) h1 h2
  · obtain ⟨J, -, -, h⟩ := scanPtr_returns true 32 1 n memarea hn1 hmem
    refine ⟨J * 1, fun fuel r m hf h1 h2 => ?_⟩
    simp only [Kernel.run, Kernel.width, Kernel.unroll, ScanWrite256PtrSimpleLoop_eq]
    exact h fuel r m (by omega) (by omega) h1 h2
  · obtain ⟨J, -, -, h⟩ := scanPtr_returns true 32 16 n memarea hn1 hmem
    refine ⟨J * 16, fun fuel r m hf h1 h2 => ?_⟩
    simp only [Kernel.run, Kernel.width, Kernel.unroll, ScanWrite256PtrUnrollLoop_eq]
    exact h fuel r m (by omega) (by omega) h1 h2
  · obtain ⟨J, -, -, h⟩ := scanPtr_returns true 8 1 n memarea hn1 hmem
    refine ⟨J * 1, fun fuel r m hf h1 h2 => ?_⟩
    simp only [Kernel.run, Kernel.width, Kernel.unroll, cScanWrite64PtrSimpleLoop_eq,
      e8]
    exact h fuel r m (by omega) (by omega) h1 h2
  · refine ⟨n, fun fuel r m hf h1 h2 => ?_⟩
    simp only [Kernel.run, Kernel.width, Kernel.unroll, cScanWrite64IndexSimpleLoop_eq,
      Nat.one_mul] at hsize ⊢
    exact scanFor_returns n fuel memarea r m hsize h1 h2 (by omega) (by omega)
  · obtain ⟨J, -, -, h⟩ := scanPtr_returns true 16 1 n memarea hn1 hmem
    refine ⟨J * 1, fun fuel r m hf h1 h2 => ?_⟩
    simp only [Kernel.run, Kernel.width, Kernel.unroll, cScanWrite128PtrSimpleLoop_eq,
      e16]
    exact h fuel r m (by omega) (by omega) h1 h2

/-- A reference (C) writer and its tuned counterpart, called with the same arguments and a
size that is a positive multiple of the access width, return the same machine state. -/
theorem reference_tuned_same_machine (p : Kernel × Kernel)
    (hp : p ∈ tunedReferencePairs) (memarea size repeats : Nat) (m : Machine)
    (hmem : memarea < 2 ^ 64) (hsize : size < 2 ^ 64) (hpos : 0 < size)
    (hal : p.2.width ∣ size) (hrep : 1 ≤ repeats) (hrep64 : repeats < 2 ^ 64) :
    ∃ m1, ∀ fuel, size + repeats < fuel →
      p.1.run fuel memarea size repeats m = some m1 ∧
      p.2.run fuel memarea size repeats m = some m1 := by
  obtain ⟨n, hsz, hn1, hnle⟩ := aligned_split _ size hpos hal
  simp only [tunedReferencePairs, List.mem_cons, List.mem_singleton, List.not_mem_nil,
    or_false] at hp
  rcases hp with rfl | rfl | rfl
  · simp only [Kernel.width] at hsz
    subst hsz
    obtain ⟨J, -, -, hret⟩ := scanPtr_returns true 8 1 n memarea hn1 hmem
    have e : n * 8 / 8 * 8 = n * (1 * 8) := by omega
    have e2 : n * 8 = n * (1 * 8) := by omega
    refine ⟨(sweep (access true 8) memarea 8 (J * 1))^[repeats] m, fun fuel hf => ⟨?_, ?_⟩⟩
    · simp only [Kernel.run, cScanWrite64PtrSimpleLoop_eq, e]
      exact hret fuel repeats m (by omega) (by omega) hrep hrep64
    · simp only [Kernel.run, ScanWrite64PtrSimpleLoop_eq, e2]
      exact hret fuel repeats m (by omega) (by omega) hrep hrep64
  · simp only [Kernel.width] at hsz
    subst hsz
    refine ⟨(sweep (access true 8) memarea 8 n)^[repeats] m, fun fuel hf => ⟨?_, ?_⟩⟩
    · simp only [Kernel.run, cScanWrite64IndexSimpleLoop_eq]
      exact scanFor_returns n fuel memarea repeats m hsize hrep hrep64 (by omega) (by omega)
    · simp only [Kernel.run, ScanWrite64IndexSimpleLoop_eq]
      exact scanIdx_returns true n fuel memarea repeats m hn1 hsize hrep hrep64 (by omega)
        (by omega)
  · simp only [Kernel.width] at hsz
    subst hsz
    obtain ⟨J, -, -, hret⟩ := scanPtr_returns true 16 1 n memarea hn1 hmem
    have e : n * 16 / 16 * 16 = n * (1 * 16) := by omega
    have e2 : n * 16 = n * (1 * 16) := by omega
    refine ⟨(sweep (access true 16) memarea 16 (J * 1))^[repeats] m, fun fuel hf => ⟨?_, ?_⟩⟩
    · simp only [Kernel.run, cScanWrite128PtrSimpleLoop_eq, e]
      exact hret fuel repeats m (by omega) (by omega) hrep hrep64
    · simp only [Kernel.run, ScanWrite128PtrSimpleLoop_eq, e2]
      exact hret fuel repeats m (by omega) (by omega) hrep hrep64

/-! ## Any size: the number of inner-loop iterations -/

theorem blocks_pos (s size : Nat) : 1 ≤ blocks s size := by
  unfold blocks; omega

theorem blocks_cover (s size : Nat) (hs : 0 < s) : size ≤ blocks s size * s := by
  unfold blocks
  have h1 := Nat.div_add_mod (size + s - 1) s
  have h2 := Nat.mod_lt (size + s - 1) hs
  rcases Nat.eq_zero_or_pos ((size + s - 1) / s) with h0 | h0
  · rw [h0] at h1 ⊢
    simp only [Nat.mul_zero, Nat.zero_add] at h1
    have : max 1 0 = 1 := rfl
    rw [this]; omega
  · have : max 1 ((size + s - 1) / s) = (size + s - 1) / s := by omega
    rw [this, Nat.mul_comm]; omega

theorem blocks_min (s size j : Nat) (hs : 0 < s) (hj1 : 1 ≤ j) (hj : j < blocks s size) :
    j * s < size := by
  unfold blocks at hj
  have h1 := Nat.div_add_mod (size + s - 1) s
  have h2 := Nat.mod_lt (size + s - 1) hs
  have hq : j + 1 ≤ (size + s - 1) / s := by omega
  have h3 := Nat.mul_le_mul_left s hq
  rw [Nat.mul_add, Nat.mul_one, Nat.mul_comm s j] at h3
  omega

theorem blocks_le (s size : Nat) (hs : 0 < s) : blocks s size ≤ size + 1 := by
  unfold blocks
  have h : (size + s - 1) / s ≤ size := by
    rw [Nat.div_le_iff_le_mul_add_pred hs]
    have := Nat.le_mul_of_pos_left size hs
    omega
  omega

theorem passCount_pos (r : Nat) : 1 ≤ passCount r := by
  unfold passCount; split <;> omega

theorem passCount_of_pos (r : Nat) (hr : 1 ≤ r) : passCount r = r := by
  unfold passCount; rw [if_neg (by omega)]

/-- The repeat loop runs `passCount repeats` passes for every 64-bit counter value:
`repeats` passes when it is positive, `2^64` passes when it is 0. -/
theorem repeatLoop_eq_iterate_wrap (pass : Machine → Option Machine) (P : Machine → Machine)
    (Inv : Machine → Prop) (hpass : ∀ m, Inv m → pass m = some (P m))
    (hInv : ∀ m, Inv m → Inv (P m)) (r fuel : Nat) (m : Machine) (hr : r < 2 ^ 64)
    (hfuel : passCount r ≤ fuel) (hm : Inv m) :
    repeatLoop pass fuel r m = some (P^[passCount r] m) := by
  rcases Nat.eq_zero_or_pos r with h0 | h0
  · subst h0
    have hc : passCount 0 = (2 ^ 64 - 1) + 1 := by unfold passCount; rw [if_pos rfl]; norm_num
    rw [hc] at hfuel ⊢
    obtain ⟨f, rfl⟩ : ∃ f, fuel = f + 1 := ⟨fuel - 1, by omega⟩
    have hdec : (0 + 2 ^ 64 - 1) % 2 ^ 64 = 2 ^ 64 - 1 := by norm_num
    rw [Function.iterate_succ_apply]
    simp only [repeatLoop, hpass m hm, hdec]
    rw [if_pos (by norm_num)]
    exact repeatLoop_eq_iterate pass P Inv hpass hInv (2 ^ 64 - 1) f (P m) (by norm_num)
      (by norm_num) (by omega) (hInv m hm)
  · rw [passCount_of_pos r h0] at hfuel ⊢
    exact repeatLoop_eq_iterate pass P Inv hpass hInv r fuel m h0 hr hfuel hm

/-! ## One pass, any size -/

theorem ptrPass_general (wr : Bool) (w u fuel memarea size : Nat) (m : Machine) (hw : 8 ∣ w)
    (hw0 : 0 < w) (hu : 0 < u)
    (hnw : memarea + blocks (u * w) size * (u * w) < 2 ^ 64)
    (hf : blocks (u * w) size ≤ fuel) :
    (doWhile (ptrBody (access wr w) w u)
      (fun s => decide (s.1 < (memarea + size) % 2 ^ 64)) fuel (memarea, m)).map Prod.snd
      = some (afterPass wr w memarea (blocks (u * w) size * (u * w)) m) := by
  have hs : 0 < u * w := Nat.mul_pos hu hw0
  have hcov := blocks_cover (u * w) size hs
  rw [ptrLoop_eq (access wr w) (access_mod wr w) w u memarea _ (blocks (u * w) size) fuel m
    (by omega) (blocks_pos _ _) hf]
  · have e : blocks (u * w) size * u * w = blocks (u * w) size * (u * w) := by ring
    rw [sweep_access_eq_afterPass wr w memarea _ m hw hw0 (by rw [e]; omega), e]
  · intro j hj1 hj
    have h1 := blocks_min (u * w) size j hs hj1 hj
    rw [Nat.mod_eq_of_lt (by omega), Nat.mod_eq_of_lt (by omega)]
    omega
  · rw [Nat.mod_eq_of_lt hnw, Nat.mod_eq_of_lt (by omega)]
    omega

theorem idxPass_general (wr : Bool) (fuel memarea size : Nat) (m : Machine)
    (hnw : memarea + blocks 8 size * 8 < 2 ^ 64) (hf : blocks 8 size ≤ fuel) :
    (doWhile (idxBody (access wr 8) memarea) (fun s => decide (s.1 < size)) fuel
      (0, m)).map Prod.snd = some (afterPass wr 8 memarea (blocks 8 size * 8) m) := by
  rw [idxLoop_eq (access wr 8) memarea size (blocks 8 size) fuel m (blocks_pos _ _) hf
    (by omega) (fun j h1 hj => blocks_min 8 size j (by norm_num) h1 hj)
    (blocks_cover 8 size (by norm_num))]
  rw [sweep_access_eq_afterPass wr 8 memarea _ m (dvd_refl 8) (by norm_num) (by omega)]

theorem forPass_general (fuel memarea size : Nat) (m : Machine)
    (hnw : memarea + size / 8 * 8 < 2 ^ 64) (hf : size / 8 < fuel) :
    (whileLoop (fun s : Nat × Machine => decide (s.1 < size / 8))
      (forBody (access true 8) memarea) fuel (0, m)).map Prod.snd
      = some (afterPass true 8 memarea (size / 8 * 8) m) := by
  rw [forLoop_eq (access true 8) memarea (size / 8) fuel m hf (by omega)]
  rw [sweep_access_eq_afterPass true 8 memarea _ m (dvd_refl 8) (by norm_num) (by omega)]

/-! ## Kernels, any size and any counter value -/

theorem scanPtr_general (wr : Bool) (w u fuel memarea size r : Nat) (m : Machine)
    (hw : 8 ∣ w) (hw0 : 0 < w) (hu : 0 < u)
    (hnw : memarea + blocks (u * w) size * (u * w) < 2 ^ 64) (hr : r < 2 ^ 64)
    (hf : blocks (u * w) size ≤ fuel) (hfr : passCount r ≤ fuel) :
    scanPtr wr w u fuel memarea size r m
      = some (afterPasses wr w memarea (blocks (u * w) size * (u * w)) (passCount r) m) := by
  unfold scanPtr
  rw [repeatLoop_eq_iterate_wrap _ _ (fun _ => True)
    (fun m _ => ptrPass_general wr w u fuel memarea size m hw hw0 hu hnw hf)
    (fun _ _ => trivial) r fuel m hr hfr trivial,
    afterPass_iterate _ _ _ _ _ _ (passCount_pos r)]

theorem scanIdx_general (wr : Bool) (fuel memarea size r : Nat) (m : Machine)
    (hnw : memarea + blocks 8 size * 8 < 2 ^ 64) (hr : r < 2 ^ 64)
    (hf : blocks 8 size ≤ fuel) (hfr : passCount r ≤ fuel) :
    scanIdx wr fuel memarea size r m
      = some (afterPasses wr 8 memarea (blocks 8 size * 8) (passCount r) m) := by
  unfold scanIdx
  rw [repeatLoop_eq_iterate_wrap _ _ (fun _ => True)
    (fun m _ => idxPass_general wr fuel memarea size m hnw hf)
    (fun _ _ => trivial) r fuel m hr hfr trivial,
    afterPass_iterate _ _ _ _ _ _ (passCount_pos r)]

theorem scanFor_general (fuel memarea size r : Nat) (m : Machine)
    (hnw : memarea + size / 8 * 8 < 2 ^ 64) (hr : r < 2 ^ 64)
    (hf : size / 8 < fuel) (hfr : passCount r ≤ fuel) :
    scanFor fuel memarea size r m
      = some (afterPasses true 8 memarea (size / 8 * 8) (passCount r) m) := by
  unfold scanFor
  rw [repeatLoop_eq_iterate_wrap _ _ (fun _ => True)
    (fun m _ => forPass_general fuel memarea size m hnw hf)
    (fun _ _ => trivial) r fuel m hr hfr trivial,
    afterPass_iterate _ _ _ _ _ _ (passCount_pos r)]

/-- Every scan kernel, for any size and any 64-bit counter value, when no address it
computes wraps: it returns after `passCount repeats` passes, each covering
`K.passBytes size` bytes from `memarea`. -/
theorem run_general (K : Kernel) (hK : K ∈ tunedScanKernels ++ referenceWriteKernels)
    (fuel memarea size r : Nat) (m : Machine)
    (hnw : memarea + K.passBytes size < 2 ^ 64) (hr : r < 2 ^ 64)
    (hf : size + passCount r < fuel) :
    K.run fuel memarea size r m
      = some (afterPasses K.isWrite K.width memarea (K.passBytes size) (passCount r) m) := by
  have h8 : (8 : Nat) ∣ 8 := dvd_refl 8
  have h16 : (8 : Nat) ∣ 16 := ⟨2, rfl⟩
  have h32 : (8 : Nat) ∣ 32 := ⟨4, rfl⟩
  have hp := passCount_pos r
  have hfr : passCount r ≤ fuel := by omega
  simp only [tunedScanKernels, tunedWriteKernels, tunedReadKernels, referenceWriteKernels,
    List.cons_append, List.nil_append, List.mem_cons, List.mem_singleton, List.not_mem_nil,
    or_false] at hK
  rcases hK with rfl | rfl | rfl | rfl | rfl | rfl | rfl | rfl | rfl | rfl | rfl | rfl | rfl
    | rfl | rfl | rfl | rfl
  · simp only [Kernel.run, Kernel.width, Kernel.unroll, Kernel.isWrite, Kernel.passBytes,
      ScanWrite64PtrSimpleLoop_eq] at hnw ⊢
    have hb := blocks_le (1 * 8) size (by norm_num)
    exact scanPtr_general true 8 1 fuel memarea size r m h8 (by norm_num) (by norm_num) hnw
      hr (by omega) hfr
  · simp only [Kernel.run, Kernel.width, Kernel.unroll, Kernel.isWrite, Kernel.passBytes,
      ScanWrite64PtrUnrollLoop_eq] at hnw ⊢
    have hb := blocks_le (16 * 8) size (by norm_num)
    exact scanPtr_general true 8 16 fuel memarea size r m h8 (by norm_num) (by norm_num) hnw
      hr (by omega) hfr
  · simp only [Kernel.run, Kernel.width, Kernel.unroll, Kernel.isWrite, Kernel.passBytes,
      ScanWrite64IndexSimpleLoop_eq, Nat.one_mul] at hnw ⊢
    have hb := blocks_le 8 size (by norm_num)
    exact scanIdx_general true fuel memarea size r m hnw hr (by omega) hfr
  · simp only [Kernel.run, Kernel.width, Kernel.unroll, Kernel.isWrite, Kernel.passBytes,
      ScanWrite128PtrSimpleLoop_eq] at hnw ⊢
    have hb := blocks_le (1 * 16) size (by norm_num)
    exact scanPtr_general true 16 1 fuel memarea size r m h16 (by norm_num) (by norm_num) hnw
      hr (by omega) hfr
  · simp only [Kernel.run, Kernel.width, Kernel.unroll, Kernel.isWrite, Kernel.passBytes,
      ScanWrite128PtrUnrollLoop_eq] at hnw ⊢
    have hb := blocks_le (16 * 16) size (by norm_num)
    exact scanPtr_general true 16 16 fuel memarea size r m h16 (by norm_num) (by norm_num) hnw
      hr (by omega) hfr
  · simp only [Kernel.run, Kernel.width, Kernel.unroll, Kernel.isWrite, Kernel.passBytes,
      ScanWrite256PtrSimpleLoop_eq] at hnw ⊢
    have hb := blocks_le (1 * 32) size (by norm_num)
    exact scanPtr_general true 32 1 fuel memarea size r m h32 (by norm_num) (by norm_num) hnw
      hr (by omega) hfr
  · simp only [Kernel.run, Kernel.width, Kernel.unroll, Kernel.isWrite, Kernel.passBytes,
      ScanWrite256PtrUnrollLoop_eq] at hnw ⊢
    have hb := blocks_le (16 * 32) size (by norm_num)
    exact scanPtr_general true 32 16 fuel memarea size r m h32 (by norm_num) (by norm_num) hnw
      hr (by omega) hfr
  · simp only [Kernel.run, Kernel.width, Kernel.unroll, Kernel.isWrite, Kernel.passBytes,
      ScanRead64PtrSimpleLoop_eq] at hnw ⊢
    have hb := blocks_le (1 * 8) size (by norm_num)
    exact scanPtr_general false 8 1 fuel memarea size r m h8 (by norm_num) (by norm_num) hnw
      hr (by omega) hfr
  · simp only [Kernel.run, Kernel.width, Kernel.unroll, Kernel.isWrite, Kernel.passBytes,
      ScanRead64PtrUnrollLoop_eq] at hnw ⊢
    have hb := blocks_le (16 * 8) size (by norm_num)
    exact scanPtr_general false 8 16 fuel memarea size r m h8 (by norm_num) (by norm_num) hnw
      hr (by omega) hfr
  · simp only [Kernel.run, Kernel.width, Kernel.unroll, Kernel.isWrite, Kernel.passBytes,
      ScanRead64IndexSimpleLoop_eq, Nat.one_mul] at hnw ⊢
    have hb := blocks_le 8 size (by norm_num)
    exact scanIdx_general false fuel memarea size r m hnw hr (by omega) hfr
  · simp only [Kernel.run, Kernel.width, Kernel.unroll, Kernel.isWrite, Kernel.passBytes,
      ScanRead128PtrSimpleLoop_eq] at hnw ⊢
    have hb := blocks_le (1 * 16) size (by norm_num)
    exact scanPtr_general false 16 1 fuel memarea size r m h16 (by norm_num) (by norm_num) hnw
      hr (by omega) hfr
  · simp only [Kernel.run, Kernel.width, Kernel.unroll, Kernel.isWrite, Kernel.passBytes,
      ScanRead128PtrUnrollLoop_eq] at hnw ⊢
    have hb := blocks_le (16 * 16) size (by norm_num)
    exact scanPtr_general false 16 16 fuel memarea size r m h16 (by norm_num) (by norm_num) hnw
      hr (by omega) hfr
  · simp only [Kernel.run, Kernel.width, Kernel.unroll, Kernel.isWrite, Kernel.passBytes,
      ScanRead256PtrSimpleLoop_eq] at hnw ⊢
    have hb := blocks_le (1 * 32) size (by norm_num)
    exact scanPtr_general false 32 1 fuel memarea size r m h32 (by norm_num) (by norm_num) hnw
      hr (by omega) hfr
  · simp only [Kernel.run, Kernel.width, Kernel.unroll, Kernel.isWrite, Kernel.passBytes,
      ScanRead256PtrUnrollLoop_eq] at hnw ⊢
    have hb := blocks_le (16 * 32) size (by norm_num)
    exact scanPtr_general false 32 16 fuel memarea size r m h32 (by norm_num) (by norm_num) hnw
      hr (by omega) hfr
  · simp only [Kernel.run, Kernel.width, Kernel.unroll, Kernel.isWrite, Kernel.passBytes,
      cScanWrite64PtrSimpleLoop_eq] at hnw ⊢
    have hb := blocks_le (1 * 8) (size / 8 * 8) (by norm_num)
    exact scanPtr_general true 8 1 fuel memarea (size / 8 * 8) r m h8 (by norm_num)
      (by norm_num) hnw hr (by omega) hfr
  · simp only [Kernel.run, Kernel.width, Kernel.unroll, Kernel.isWrite, Kernel.passBytes,
      cScanWrite64IndexSimpleLoop_eq] at hnw ⊢
    exact scanFor_general fuel memarea size r m hnw hr (by omega) hfr
  · simp only [Kernel.run, Kernel.width, Kernel.unroll, Kernel.isWrite, Kernel.passBytes,
      cScanWrite128PtrSimpleLoop_eq] at hnw ⊢
    have hb := blocks_le (1 * 16) (size / 16 * 16) (by norm_num)
    exact scanPtr_general true 16 1 fuel memarea (size / 16 * 16) r m h16 (by norm_num)
      (by norm_num) hnw hr (by omega) hfr

/-! ## One iteration of an inner loop -/

theorem ptrBody_step (wr : Bool) (w u x : Nat) (m : Machine) :
    (ptrBody (access wr w) w u (x, m)).1 = (x + w * u) % 2 ^ 64 ∧
    (ptrBody (access wr w) w u (x, m)).2.trace
      = m.trace ++ (List.range u).map fun i => ⟨wr, (x + i * w) % 2 ^ 64, w⟩ := by
  refine ⟨?_, ?_⟩
  · show (x + u * w) % 2 ^ 64 = _
    rw [Nat.mul_comm]
  · exact sweep_access_trace wr w x m u

theorem idxBody_step (wr : Bool) (memarea x : Nat) (m : Machine) :
    (idxBody (access wr 8) memarea (x, m)).1 = (x + 8 * 1) % 2 ^ 64 ∧
    (idxBody (access wr 8) memarea (x, m)).2.trace
      = m.trace ++ (List.range 1).map fun i => ⟨wr, (memarea + x + i * 8) % 2 ^ 64, 8⟩ := by
  refine ⟨rfl, ?_⟩
  simp [idxBody, access, List.range_succ]

theorem chase_iterate_trace_length (u : Nat) (s : Nat × Machine) :
    (chase^[u] s).2.trace.length = s.2.trace.length + u := by
  induction u with
  | zero => rfl
  | succ u ih =>
    rw [Function.iterate_succ_apply']
    simp only [chase, ldr, List.length_append, List.length_singleton, ih]
    omega

/-- Every registered kernel is the repeat loop around the test-after loop whose body is
`K.innerBody` and whose test is `K.innerTest`. -/
theorem registered_run_eq_loops (K : Kernel)
    (hK : K ∈ registry.map Registration.kernel ++ permRegistry.map Prod.fst)
    (fuel memarea size repeats : Nat) (m : Machine) :
    K.run fuel memarea size repeats m
      = repeatLoop (fun m =>
          (doWhile (K.innerBody memarea) (K.innerTest memarea size) fuel
            (K.innerStart memarea, m)).map Prod.snd) fuel repeats m := by
  simp only [registry, permRegistry, List.map_cons, List.map_nil, List.cons_append,
    List.nil_append, List.mem_cons, List.mem_singleton, List.not_mem_nil, or_false] at hK
  rcases hK with rfl | rfl | rfl | rfl | rfl | rfl | rfl | rfl | rfl | rfl | rfl | rfl | rfl
    | rfl | rfl | rfl
  · rw [Kernel.run, ScanWrite64PtrSimpleLoop_eq]; rfl
  · rw [Kernel.run, ScanWrite64PtrUnrollLoop_eq]; rfl
  · rw [Kernel.run, ScanRead64PtrSimpleLoop_eq]; rfl
  · rw [Kernel.run, ScanRead64PtrUnrollLoop_eq]; rfl
  · rw [Kernel.run, ScanWrite64IndexSimpleLoop_eq]; rfl
  · rw [Kernel.run, ScanRead64IndexSimpleLoop_eq]; rfl
  · rw [Kernel.run, ScanWrite128PtrSimpleLoop_eq]; rfl
  · rw [Kernel.run, ScanWrite128PtrUnrollLoop_eq]; rfl
  · rw [Kernel.run, ScanRead128PtrSimpleLoop_eq]; rfl
  · rw [Kernel.run, ScanRead128PtrUnrollLoop_eq]; rfl
  · rw [Kernel.run, ScanWrite256PtrSimpleLoop_eq]; rfl
  · rw [Kernel.run, ScanWrite256PtrUnrollLoop_eq]; rfl
  · rw [Kernel.run, ScanRead256PtrSimpleLoop_eq]; rfl
  · rw [Kernel.run, ScanRead256PtrUnrollLoop_eq]; rfl
  · rw [Kernel.run, PermRead64SimpleLoop_eq]; rfl
  · rw [Kernel.run, PermRead64UnrollLoop_eq]; rfl

theorem registered_body_step (e : Registration) (he : e ∈ registry) (memarea x : Nat)
    (m : Machine) :
    (e.kernel.innerBody memarea (x, m)).1 = (x + e.a * e.u) % 2 ^ 64 ∧
    (e.kernel.innerBody memarea (x, m)).2.trace
      = m.trace ++ (List.range e.u).map fun i =>
          ⟨e.kernel.isWrite, (e.kernel.effAddr memarea x + i * e.a) % 2 ^ 64, e.a⟩ := by
  simp only [registry, List.mem_cons, List.mem_singleton, List.not_mem_nil, or_false] at he
  rcases he with rfl | rfl | rfl | rfl | rfl | rfl | rfl | rfl | rfl | rfl | rfl | rfl | rfl
    | rfl
  · exact ptrBody_step true 8 1 x m
  · exact ptrBody_step true 8 16 x m
  · exact ptrBody_step false 8 1 x m
  · exact ptrBody_step false 8 16 x m
  · exact idxBody_step true memarea x m
  · exact idxBody_step false memarea x m
  · exact ptrBody_step true 16 1 x m
  · exact ptrBody_step true 16 16 x m
  · exact ptrBody_step false 16 1 x m
  · exact ptrBody_step false 16 16 x m
  · exact ptrBody_step true 32 1 x m
  · exact ptrBody_step true 32 16 x m
  · exact ptrBody_step false 32 1 x m
  · exact ptrBody_step false 32 16 x m

/-! ## Walking an arbitrary bijection -/

theorem perm_iterate_lt {N : Nat} {tau : Nat → Nat} (h : IsPermOn N tau) (x : Nat)
    (hx : x < N) : ∀ k, tau^[k] x < N := by
  intro k
  induction k with
  | zero => simpa using hx
  | succ k ih =>
    rw [Function.iterate_succ_apply']
    exact h.1 _ ih

theorem perm_iterate_cancel {N : Nat} {tau : Nat → Nat} (h : IsPermOn N tau) (x y : Nat)
    (hx : x < N) (hy : y < N) : ∀ a, tau^[a] x = tau^[a] y → x = y := by
  intro a
  induction a with
  | zero => intro e; simpa using e
  | succ a ih =>
    intro e
    rw [Function.iterate_succ_apply', Function.iterate_succ_apply'] at e
    exact ih (h.2 _ (perm_iterate_lt h x hx a) _ (perm_iterate_lt h y hy a) e)

theorem perm_return_of_eq {N : Nat} {tau : Nat → Nat} (hN : 1 ≤ N) (h : IsPermOn N tau)
    (a b : Nat) (hab : a < b) (e : tau^[a] 0 = tau^[b] 0) : tau^[b - a] 0 = 0 := by
  have hb : b = a + (b - a) := by omega
  rw [hb, Function.iterate_add_apply] at e
  exact (perm_iterate_cancel h 0 (tau^[b - a] 0) (by omega)
    (perm_iterate_lt h 0 (by omega) _) a e).symm

theorem perm_return_exists {N : Nat} {tau : Nat → Nat} (hN : 1 ≤ N) (h : IsPermOn N tau) :
    ∃ k, 1 ≤ k ∧ k ≤ N ∧ tau^[k] 0 = 0 := by
  let f : Fin (N + 1) → Fin N := fun k => ⟨tau^[k.1] 0, perm_iterate_lt h 0 (by omega) k.1⟩
  obtain ⟨a, b, hne, hab⟩ := Fintype.exists_ne_map_eq_of_card_lt f (by simp)
  have hval : tau^[a.1] 0 = tau^[b.1] 0 := congrArg Fin.val hab
  have hne2 : a.1 ≠ b.1 := fun e => hne (Fin.ext e)
  rcases Nat.lt_or_gt_of_ne hne2 with hlt | hgt
  · exact ⟨b.1 - a.1, by omega, by have := b.2; omega, perm_return_of_eq hN h _ _ hlt hval⟩
  · exact ⟨a.1 - b.1, by omega, by have := a.2; omega,
      perm_return_of_eq hN h _ _ hgt hval.symm⟩

/-- The cycle through slot 0 of a bijection of `N` slots has a length, at most `N`. -/
theorem cycleLength_exists {N : Nat} {tau : Nat → Nat} (hN : 1 ≤ N) (h : IsPermOn N tau) :
    ∃ c, IsCycleLength tau c ∧ c ≤ N := by
  have hex : ∃ k, 1 ≤ k ∧ tau^[k] 0 = 0 := by
    obtain ⟨k, h1, _, h3⟩ := perm_return_exists hN h
    exact ⟨k, h1, h3⟩
  obtain ⟨k, h1, h2, h3⟩ := perm_return_exists hN h
  refine ⟨Nat.find hex, ⟨(Nat.find_spec hex).1, (Nat.find_spec hex).2, ?_⟩,
    Nat.le_trans (Nat.find_min' hex ⟨h1, h3⟩) h2⟩
  intro j hj h0 e
  exact Nat.find_min hex hj ⟨h0, e⟩

theorem cycle_slots_injOn {N : Nat} {tau : Nat → Nat} {c : Nat} (hN : 1 ≤ N)
    (h : IsPermOn N tau) (hc : IsCycleLength tau c) :
    ∀ a, a < c → ∀ b, b < c → tau^[a] 0 = tau^[b] 0 → a = b := by
  intro a ha b hb e
  by_contra hne
  rcases Nat.lt_or_gt_of_ne hne with hlt | hgt
  · exact hc.2.2 (b - a) (by omega) (by omega) (perm_return_of_eq hN h a b hlt e)
  · exact hc.2.2 (a - b) (by omega) (by omega) (perm_return_of_eq hN h b a hgt e.symm)

theorem cycle_slots_mod {tau : Nat → Nat} {c : Nat} (hc : IsCycleLength tau c) (k : Nat) :
    tau^[k] 0 = tau^[k % c] 0 := by
  induction k using Nat.strong_induction_on with
  | _ k ih =>
    rcases Nat.lt_or_ge k c with hlt | hge
    · rw [Nat.mod_eq_of_lt hlt]
    · obtain ⟨d, rfl⟩ : ∃ d, k = d + c := ⟨k - c, by omega⟩
      have h1 := hc.1
      rw [Function.iterate_add_apply, hc.2.1, ih d (by omega), Nat.add_mod_right]

/-- When some slot is not on the cycle through slot 0, that cycle is shorter than `N`. -/
theorem cycleLength_lt {N : Nat} {tau : Nat → Nat} {c : Nat} (hN : 1 ≤ N)
    (h : IsPermOn N tau) (hc : IsCycleLength tau c) (hcN : c ≤ N)
    (hout : ∃ j, j < N ∧ ∀ k, tau^[k] 0 ≠ j) : c < N := by
  rcases Nat.lt_or_ge c N with hlt | hge
  · exact hlt
  · exfalso
    have hcN2 : c = N := Nat.le_antisymm hcN hge
    subst hcN2
    let f : Fin c → Fin c := fun k => ⟨tau^[k.1] 0, perm_iterate_lt h 0 (by omega) k.1⟩
    have hinj : Function.Injective f := by
      intro a b hab
      exact Fin.ext (cycle_slots_injOn hN h hc a.1 a.2 b.1 b.2 (congrArg Fin.val hab))
    have hsurj : Function.Surjective f := Finite.injective_iff_surjective.mp hinj
    obtain ⟨j, hj, hjn⟩ := hout
    obtain ⟨k, hk⟩ := hsurj ⟨j, hj⟩
    exact hjn k.1 (congrArg Fin.val hk)

theorem chase_iterate_closed {tau : Nat → Nat} (memarea N : Nat) (m : Machine)
    (hlt : ∀ k, tau^[k] 0 < N) (henc : Encodes m.mem memarea N tau) :
    ∀ k, chase^[k] (memarea, m)
      = (memarea + 8 * tau^[k] 0, ⟨m.mem, m.trace ++ lapTrace memarea tau k⟩) := by
  intro k
  induction k with
  | zero => simp [lapTrace]
  | succ k ih =>
    have hmod : (memarea + 8 * tau^[k] 0) % 2 ^ 64 = memarea + 8 * tau^[k] 0 :=
      Nat.mod_eq_of_lt (by have := henc.1; have := hlt k; omega)
    rw [Function.iterate_succ_apply', ih, lapTrace_succ]
    simp only [chase, ldr, henc.2 _ (hlt k), hmod, Function.iterate_succ_apply',
      List.append_assoc]

/-- One lap of the simple walker on an arbitrary bijection: `c` transitions, `c` the
length of the cycle through slot 0. -/
theorem permLap_cycle {N : Nat} {tau : Nat → Nat} {c : Nat} (memarea fuel : Nat)
    (m : Machine) (hN : 1 ≤ N) (h : IsPermOn N tau) (hc : IsCycleLength tau c)
    (henc : Encodes m.mem memarea N tau) (hfuel : c ≤ fuel) :
    (doWhile (chase^[1]) (fun s => decide (s.1 ≠ memarea)) fuel (memarea, m)).map Prod.snd
      = some ⟨m.mem, m.trace ++ lapTrace memarea tau c⟩ := by
  have hlt := perm_iterate_lt h 0 (by omega)
  have hit : ∀ b, (chase^[1])^[b] (memarea, m)
      = (memarea + 8 * tau^[b] 0, ⟨m.mem, m.trace ++ lapTrace memarea tau b⟩) := by
    intro b
    rw [Function.iterate_one, chase_iterate_closed memarea N m hlt henc]
  rw [doWhile_eq_iterate _ _ c fuel _ hc.1 hfuel]
  · rw [hit]; rfl
  · intro b hb1 hb2
    rw [hit]
    have hne := hc.2.2 b hb2 hb1
    simp only [decide_eq_true_eq]
    omega
  · rw [hit, hc.2.1]
    simp

theorem permSimple_cycle {N : Nat} {tau : Nat → Nat} {c : Nat} (memarea fuel repeats : Nat)
    (m : Machine) (hN : 1 ≤ N) (h : IsPermOn N tau) (hc : IsCycleLength tau c)
    (henc : Encodes m.mem memarea N tau) (hrep : 1 ≤ repeats) (hrep64 : repeats < 2 ^ 64)
    (hfuel : c ≤ fuel) (hfr : repeats ≤ fuel) :
    permWalk 1 fuel memarea repeats m
      = some ⟨m.mem, m.trace ++ (List.replicate repeats (lapTrace memarea tau c)).flatten⟩ := by
  unfold permWalk
  rw [repeatLoop_eq_iterate _
    (fun m => (⟨m.mem, m.trace ++ lapTrace memarea tau c⟩ : Machine))
    (fun m => Encodes m.mem memarea N tau)
    (fun m hm => permLap_cycle memarea fuel m hN h hc hm hfuel)
    (fun m hm => hm) repeats fuel m hrep hrep64 hfr henc, lapPass_iterate]

/-! ## Tuned scan kernels at any size -/

theorem passBytes_tuned (K : Kernel) (hK : K ∈ tunedScanKernels) (size : Nat) :
    K.passBytes size = blocks (K.unroll * K.width) size * (K.unroll * K.width) := by
  simp only [tunedScanKernels, tunedWriteKernels, tunedReadKernels, List.cons_append,
    List.nil_append, List.mem_cons, List.mem_singleton, List.not_mem_nil, or_false] at hK
  rcases hK with rfl | rfl | rfl | rfl | rfl | rfl | rfl | rfl | rfl | rfl | rfl | rfl | rfl
    | rfl <;> rfl

theorem unroll_pos (K : Kernel) : 0 < K.unroll := by
  cases K <;> decide

/-- A tuned scan kernel called with any size and `repeats >= 1`, when no address it
computes wraps: `repeats` passes of `blocks * unroll` accesses each. -/
theorem run_tuned_any_size (K : Kernel) (hK : K ∈ tunedScanKernels)
    (fuel memarea size repeats : Nat) (m : Machine)
    (hnw : memarea + blocks (K.unroll * K.width) size * (K.unroll * K.width) < 2 ^ 64)
    (hrep : 1 ≤ repeats) (hrep64 : repeats < 2 ^ 64) (hf : size + repeats < fuel) :
    K.run fuel memarea size repeats m
      = some ⟨if K.isWrite then
            filled m.mem memarea (blocks (K.unroll * K.width) size * (K.unroll * K.width))
          else m.mem,
          m.trace ++ (List.replicate repeats (passTrace K.isWrite K.width memarea
            (blocks (K.unroll * K.width) size * K.unroll))).flatten⟩ := by
  have h := run_general K (List.mem_append_left _ hK) fuel memarea size repeats m
    (by rw [passBytes_tuned K hK]; exact hnw) hrep64
    (by rw [passCount_of_pos repeats hrep]; exact hf)
  rw [h, passBytes_tuned K hK, passCount_of_pos repeats hrep]
  have e : blocks (K.unroll * K.width) size * (K.unroll * K.width) / K.width
      = blocks (K.unroll * K.width) size * K.unroll := by
    rw [← Nat.mul_assoc, Nat.mul_div_cancel _ (width_pos K)]
  simp only [afterPasses, e]

/-! ## Index addressing and the reference writers at any size -/

theorem idx_counter_values (wr : Bool) (memarea : Nat) (m : Machine) (j : Nat)
    (hj : j * 8 < 2 ^ 64) :
    ((idxBody (access wr 8) memarea)^[j] (0, m)).1 = j * 8 := by
  rw [idxBody_iterate (access wr 8) memarea m j hj]

theorem idx_exit_at_size (wr : Bool) (memarea n fuel : Nat) (m : Machine) (hn : 1 ≤ n)
    (hsize : n * 8 < 2 ^ 64) (hf : n ≤ fuel) :
    ∃ s, doWhile (idxBody (access wr 8) memarea) (fun s => decide (s.1 < n * 8)) fuel (0, m)
      = some s ∧ s.1 = n * 8 := by
  refine ⟨(idxBody (access wr 8) memarea)^[n] (0, m), ?_, idx_counter_values wr memarea m n
    hsize⟩
  apply doWhile_eq_iterate _ _ n fuel _ hn hf
  · intro j h1 h2
    rw [idx_counter_values wr memarea m j (by omega)]
    simp only [decide_eq_true_eq]
    omega
  · rw [idx_counter_values wr memarea m n hsize]
    simp

theorem blocks8_floor (size : Nat) : blocks 8 (size / 8 * 8) = max 1 (size / 8) := by
  unfold blocks
  have : (size / 8 * 8 + 8 - 1) / 8 = size / 8 := by omega
  rw [this]

theorem blocks8_ceil (size : Nat) : blocks 8 size = max 1 ((size + 7) / 8) := by
  unfold blocks
  have : (size + 8 - 1) / 8 = (size + 7) / 8 := by omega
  rw [this]

theorem passTrace_addr_mem (wr : Bool) (w base n a : Nat) :
    a ∈ (passTrace wr w base n).map Access.addr ↔ ∃ i, i < n ∧ a = base + i * w := by
  rw [passTrace_addr]
  simp only [List.mem_map, List.mem_range]
  constructor
  · rintro ⟨i, hi, rfl⟩; exact ⟨i, hi, rfl⟩
  · rintro ⟨i, hi, rfl⟩; exact ⟨i, hi, rfl⟩

theorem max_floor_eq_ceil_iff (size : Nat) :
    max 1 (size / 8) = max 1 ((size + 7) / 8) ↔ (8 ∣ size ∨ size < 8) := by
  rw [Nat.max_def, Nat.max_def]
  constructor
  · intro h
    split at h <;> split at h <;> omega
  · intro h
    split <;> split <;> omega

/-! ## A store read back, at any address -/

theorem writeBytes_apply_not : ∀ (bs : List Nat) (a : Nat) (mem : Nat → Nat) (x : Nat),
    (∀ j, j < bs.length → x ≠ (a + j) % 2 ^ 64) → writeBytes bs a mem x = mem x := by
  intro bs
  induction bs with
  | nil => intro a mem x _; rfl
  | cons b bs ih =>
    intro a mem x h
    simp only [writeBytes]
    rw [ih (a + 1) _ x (fun j hj => by
      have := h (j + 1) (by simp only [List.length_cons]; omega)
      have e : a + (j + 1) = a + 1 + j := by omega
      rwa [e] at this)]
    have h0 := h 0 (by simp)
    rw [if_neg (by simpa using h0)]

theorem writeBytes_apply_mod : ∀ (bs : List Nat) (a : Nat) (mem : Nat → Nat),
    bs.length ≤ 2 ^ 64 → ∀ i, i < bs.length →
      writeBytes bs a mem ((a + i) % 2 ^ 64) = bs.getD i 0 := by
  intro bs
  induction bs with
  | nil => intro a mem _ i hi; simp at hi
  | cons b bs ih =>
    intro a mem hlen i hi
    simp only [List.length_cons] at hlen hi
    simp only [writeBytes]
    rcases Nat.eq_zero_or_pos i with h0 | h0
    · subst h0
      rw [writeBytes_apply_not bs (a + 1) _ _ (fun j hj => by omega)]
      simp
    · obtain ⟨k, rfl⟩ : ∃ k, i = k + 1 := ⟨i - 1, by omega⟩
      have e : a + (k + 1) = a + 1 + k := by omega
      rw [e, ih (a + 1) _ (by omega) k (by omega), List.getD_cons_succ]

theorem load64_store (mem : Nat → Nat) (a : Nat) :
    load64 (writeBytes (fillBytes 8) a mem) a = PATTERN := by
  have hb : ∀ i, i < 8 →
      writeBytes (fillBytes 8) a mem ((a + i) % 2 ^ 64) = patByte i := by
    intro i hi
    rw [writeBytes_apply_mod _ _ _ (by rw [fillBytes_length]; norm_num) i
      (by rw [fillBytes_length]; exact hi), fillBytes_getD 8 i hi, Nat.mod_eq_of_lt hi]
  have hr : readBytes (writeBytes (fillBytes 8) a mem) a 8
      = [patByte 0, patByte 1, patByte 2, patByte 3, patByte 4, patByte 5, patByte 6,
          patByte 7] := by
    simp only [readBytes, List.range, List.range.loop, List.map_cons, List.map_nil]
    rw [hb 0 (by omega), hb 1 (by omega), hb 2 (by omega), hb 3 (by omega), hb 4 (by omega),
      hb 5 (by omega), hb 6 (by omega), hb 7 (by omega)]
  rw [load64, hr]
  decide

theorem iterate_self (m : Machine) : ∀ r, (fun x : Machine => x)^[r] m = m := by
  intro r
  induction r with
  | zero => rfl
  | succ r ih => rw [Function.iterate_succ_apply', ih]

/-- The indexed C writer called with `size < 8` performs no store at all. -/
theorem scanFor_small (fuel memarea size r : Nat) (m : Machine) (hsz : size < 8)
    (hr1 : 1 ≤ r) (hr : r < 2 ^ 64) (hfr : r ≤ fuel) :
    scanFor fuel memarea size r m = some m := by
  have h0 : size / 8 = 0 := by omega
  unfold scanFor
  rw [h0, repeatLoop_eq_iterate _ (fun x : Machine => x) (fun _ => True)
    (fun m _ => forLoop_eq (access true 8) memarea 0 fuel m (by omega) (by norm_num))
    (fun _ _ => trivial) r fuel m hr1 hr hfr trivial, iterate_self]

/-- The indexed tuned writer called with `size <= 8` performs one store per pass, at
`memarea`, whatever the address. -/
theorem scanIdx_small (wr : Bool) (fuel memarea size r : Nat) (m : Machine) (hsz : size ≤ 8)
    (hr1 : 1 ≤ r) (hr : r < 2 ^ 64) (hfr : r ≤ fuel) :
    scanIdx wr fuel memarea size r m = some ((sweep (access wr 8) memarea 8 1)^[r] m) := by
  unfold scanIdx
  exact repeatLoop_eq_iterate _ _ (fun _ => True)
    (fun m _ => idxLoop_eq (access wr 8) memarea size 1 fuel m le_rfl (by omega)
      (by norm_num) (fun j h1 h2 => by omega) (by omega))
    (fun _ _ => trivial) r fuel m hr1 hr hfr trivial

/-! ## Every counter value, every kernel -/

/-- Whenever the C walker returns, it returns the machine it received. -/
theorem cPermRead64SimpleLoop_frame (fuel memarea size repeats : Nat) (m m1 : Machine)
    (h : cPermRead64SimpleLoop fuel memarea size repeats m = some m1) : m1 = m := by
  refine repeatLoop_invariant _ (fun x => x = m) ?_ fuel repeats m m1 rfl h
  intro a b ha hab
  cases hd : doWhile (fun p : Nat => load64 a.mem p) (fun p => decide (p ≠ memarea)) fuel
      memarea with
  | none => rw [hd] at hab; simp at hab
  | some s =>
    rw [hd] at hab
    simp only [Option.map_some', Option.some.injEq] at hab
    rw [← hab]
    exact ha

/-! # Claims -/

/-- C1: every tuned write kernel, called on a valid area whose size is a positive multiple
of (access width x unroll factor) with any repeats >= 1, returns; afterwards every 8-byte
word at `memarea + 8 * k`, `k < size / 8`, equals `0xFAEE00C0FFEEEEEE` and every byte
outside `[memarea, memarea + size)` is unchanged. -/
theorem C1_tuned_write_fills_area (K : Kernel) (hK : K ∈ tunedWriteKernels)
    (memarea size repeats : Nat) (m : Machine) (hpos : 0 < size)
    (hal : K.unroll * K.width ∣ size) (hrep : 1 ≤ repeats) (hrep64 : repeats < 2 ^ 64)
    (hwrap : memarea + size < 2 ^ 64) :
    ∃ m1, (∀ fuel, size + repeats < fuel → K.run fuel memarea size repeats m = some m1) ∧
      (∀ k, k < size / 8 → load64 m1.mem (memarea + 8 * k) = 0xFAEE00C0FFEEEEEE) ∧
      (∀ x, ¬ (memarea ≤ x ∧ x < memarea + size) → m1.mem x = m.mem x) := by
  obtain ⟨n, hsz, hn1, hnle⟩ := aligned_split _ size hpos hal
  subst hsz
  refine ⟨_, fun fuel hf => run_aligned K (List.mem_append_left _ (List.mem_append_left _ hK))
    n fuel memarea repeats m hn1 hwrap hrep hrep64 (by omega) (by omega), ?_, ?_⟩
  · intro k hk
    simp only [afterPasses, tunedWrite_isWrite K hK, if_true]
    exact load64_filled _ _ _ k (by omega) (by omega)
  · intro x hx
    simp only [afterPasses, tunedWrite_isWrite K hK, if_true]
    exact filled_apply_out _ _ _ _ hx

theorem C1_tuned_write_fills_area_witness :
    Kernel.ScanWrite256PtrUnrollLoop ∈ tunedWriteKernels ∧ 0 < 1024 ∧
    Kernel.ScanWrite256PtrUnrollLoop.unroll * Kernel.ScanWrite256PtrUnrollLoop.width ∣ 1024 ∧
    ∃ m1, (∀ fuel, 1024 + 3 < fuel →
        Kernel.ScanWrite256PtrUnrollLoop.run fuel 4096 1024 3 ⟨fun _ => 0, []⟩ = some m1) ∧
      (∀ k, k < 1024 / 8 → load64 m1.mem (4096 + 8 * k) = 0xFAEE00C0FFEEEEEE) ∧
      (∀ x, ¬ (4096 ≤ x ∧ x < 4096 + 1024) → m1.mem x = 0) :=
  ⟨by decide, by decide, by decide,
    C1_tuned_write_fills_area Kernel.ScanWrite256PtrUnrollLoop (by decide) 4096 1024 3
      ⟨fun _ => 0, []⟩ (by decide) (by decide) (by decide) (by norm_num) (by norm_num)⟩

/-- C2: every tuned sequential kernel, called on a valid area whose size is a positive
multiple of (width x unroll) with `repeats >= 1`, returns, and the accesses it performs
are exactly `repeats` concatenated copies of one pass; a pass accesses the addresses
`memarea, memarea + w, ..., memarea + size - w` in this (strictly increasing) order, each
once, so `(size / w) * repeats` accesses are performed in all. -/
theorem C2_tuned_scan_access_sequence (K : Kernel) (hK : K ∈ tunedScanKernels)
    (memarea size repeats : Nat) (m : Machine) (hpos : 0 < size)
    (hal : K.unroll * K.width ∣ size) (hrep : 1 ≤ repeats) (hrep64 : repeats < 2 ^ 64)
    (hwrap : memarea + size < 2 ^ 64) :
    ∃ m1 pass,
      (∀ fuel, size + repeats < fuel → K.run fuel memarea size repeats m = some m1) ∧
      m1.trace = m.trace ++ (List.replicate repeats pass).flatten ∧
      pass.map Access.addr = (List.range (size / K.width)).map (fun i => memarea + i * K.width) ∧
      (∀ a ∈ pass, a.write = K.isWrite ∧ a.width = K.width) ∧
      List.Pairwise (· < ·) (pass.map Access.addr) ∧
      (List.replicate repeats pass).flatten.length = size / K.width * repeats := by
  obtain ⟨n, hsz, hn1, hnle⟩ := aligned_split _ size hpos hal
  subst hsz
  refine ⟨_, passTrace K.isWrite K.width memarea (n * (K.unroll * K.width) / K.width),
    fun fuel hf => run_aligned K (List.mem_append_left _ hK) n fuel memarea repeats m hn1
      hwrap hrep hrep64 (by omega) (by omega),
    rfl, passTrace_addr _ _ _ _, ?_, passTrace_increasing _ _ _ _ (width_pos K), ?_⟩
  · intro a ha
    simp only [passTrace, List.mem_map, List.mem_range] at ha
    obtain ⟨i, _, rfl⟩ := ha
    exact ⟨rfl, rfl⟩
  · rw [flatten_replicate_length, passTrace_length]

theorem C2_tuned_scan_access_sequence_witness :
    Kernel.ScanRead128PtrUnrollLoop ∈ tunedScanKernels ∧ 0 < 512 ∧
    Kernel.ScanRead128PtrUnrollLoop.unroll * Kernel.ScanRead128PtrUnrollLoop.width ∣ 512 ∧
    ∃ m1 pass,
      (∀ fuel, 512 + 2 < fuel →
        Kernel.ScanRead128PtrUnrollLoop.run fuel 4096 512 2 ⟨fun _ => 0, []⟩ = some m1) ∧
      m1.trace = [] ++ (List.replicate 2 pass).flatten ∧
      pass.map Access.addr = (List.range (512 / 16)).map (fun i => 4096 + i * 16) ∧
      (∀ a ∈ pass, a.write = false ∧ a.width = 16) ∧
      List.Pairwise (· < ·) (pass.map Access.addr) ∧
      (List.replicate 2 pass).flatten.length = 512 / 16 * 2 :=
  ⟨by decide, by decide, by decide,
    C2_tuned_scan_access_sequence Kernel.ScanRead128PtrUnrollLoop (by decide) 4096 512 2
      ⟨fun _ => 0, []⟩ (by decide) (by decide) (by decide) (by norm_num) (by norm_num)⟩

/-- C4: on an area encoding a single `N`-cycle, every lap of `PermRead64SimpleLoop`
starts at `memarea` and consists of exactly `N` loads, from pairwise distinct addresses,
and the addresses loaded from are exactly the `N` slot addresses `memarea + 8 * i`,
`i < N`. -/
theorem C4_simple_perm_lap_visits_each_slot_once (N memarea size repeats : Nat)
    (tau : Nat → Nat) (m : Machine) (hN : 1 ≤ N) (hcyc : IsSingleCycle N tau)
    (henc : Encodes m.mem memarea N tau) (hrep : 1 ≤ repeats) (hrep64 : repeats < 2 ^ 64) :
    ∃ m1 lap,
      (∀ fuel, N + repeats ≤ fuel →
        PermRead64SimpleLoop fuel memarea size repeats m = some m1) ∧
      m1.trace = m.trace ++ (List.replicate repeats lap).flatten ∧
      lap.length = N ∧
      (lap.map Access.addr).Nodup ∧
      (∀ a, a ∈ lap.map Access.addr ↔ ∃ i, i < N ∧ a = memarea + 8 * i) ∧
      (lap.map Access.addr).head? = some memarea := by
  refine ⟨⟨m.mem, m.trace ++ (List.replicate repeats (lapTrace memarea tau N)).flatten⟩,
    lapTrace memarea tau N, fun fuel hf => ?_, rfl, lapTrace_length _ _ _, ?_, ?_, ?_⟩
  · have h := permWalk_eq 1 memarea fuel repeats m hN le_rfl hcyc henc hrep hrep64
      (by rw [Nat.lcm_one_right, Nat.div_one]; omega) (by omega)
    rw [Nat.lcm_one_right] at h
    rw [PermRead64SimpleLoop_eq]; exact h
  · rw [lapTrace_addr]
    refine List.Nodup.map_on ?_ (List.nodup_range N)
    intro a ha b hb hab
    exact cycle_iterate_injOn hN hcyc a (List.mem_range.mp ha) b (List.mem_range.mp hb)
      (by omega)
  · intro a
    rw [lapTrace_addr]
    simp only [List.mem_map, List.mem_range]
    constructor
    · rintro ⟨k, _, rfl⟩
      exact ⟨tau^[k] 0, cycle_iterate_lt hN hcyc k, rfl⟩
    · rintro ⟨i, hi, rfl⟩
      obtain ⟨k, hk, hki⟩ := hcyc.2.2 i hi
      exact ⟨k, hk, by rw [hki]⟩
  · obtain ⟨N1, rfl⟩ : ∃ N1, N = N1 + 1 := ⟨N - 1, by omega⟩
    simp [lapTrace, List.range_succ_eq_map]

theorem C4_simple_perm_lap_visits_each_slot_once_witness :
    1 ≤ 5 ∧ IsSingleCycle 5 (fun i => (i + 2) % 5) ∧
    Encodes (permArea 4096 5 (fun i => (i + 2) % 5)) 4096 5 (fun i => (i + 2) % 5) ∧
    ∃ m1 lap,
      (∀ fuel, 5 + 1 ≤ fuel →
        PermRead64SimpleLoop fuel 4096 40 1 ⟨permArea 4096 5 (fun i => (i + 2) % 5), []⟩
          = some m1) ∧
      m1.trace = [] ++ (List.replicate 1 lap).flatten ∧
      lap.length = 5 ∧
      (lap.map Access.addr).Nodup ∧
      (∀ a, a ∈ lap.map Access.addr ↔ ∃ i, i < 5 ∧ a = 4096 + 8 * i) ∧
      (lap.map Access.addr).head? = some 4096 :=
  ⟨by decide, by decide, by decide,
    C4_simple_perm_lap_visits_each_slot_once 5 4096 40 1 (fun i => (i + 2) % 5)
      ⟨permArea 4096 5 (fun i => (i + 2) % 5), []⟩ (by decide) (by decide) (by decide)
      (by decide) (by norm_num)⟩

/-- C5: when `N` is a positive multiple of 16, `PermRead64UnrollLoop` on an area encoding
a single `N`-cycle returns after exactly `N * repeats` transitions: `repeats` laps of `N`
transitions each (`N / 16` blocks of 16). -/
theorem C5_unroll_perm_transition_count (N memarea size repeats : Nat) (tau : Nat → Nat)
    (m : Machine) (hN : 16 ≤ N) (h16 : 16 ∣ N) (hcyc : IsSingleCycle N tau)
    (henc : Encodes m.mem memarea N tau) (hrep : 1 ≤ repeats) (hrep64 : repeats < 2 ^ 64) :
    ∃ m1,
      (∀ fuel, N / 16 + repeats ≤ fuel →
        PermRead64UnrollLoop fuel memarea size repeats m = some m1) ∧
      m1.trace = m.trace ++ (List.replicate repeats (lapTrace memarea tau N)).flatten ∧
      (List.replicate repeats (lapTrace memarea tau N)).flatten.length = N * repeats := by
  have hl := lcm_of_dvd N 16 h16
  refine ⟨⟨m.mem, m.trace ++ (List.replicate repeats (lapTrace memarea tau N)).flatten⟩,
    fun fuel hf => ?_, rfl, ?_⟩
  · have h := permWalk_eq 16 memarea fuel repeats m (by omega) (by norm_num) hcyc henc
      hrep hrep64 (by rw [hl]; omega) (by omega)
    rw [hl] at h
    rw [PermRead64UnrollLoop_eq]; exact h
  · rw [flatten_replicate_length, lapTrace_length]

theorem C5_unroll_perm_transition_count_witness :
    16 ≤ 16 ∧ 16 ∣ 16 ∧ IsSingleCycle 16 (fun i => (i + 3) % 16) ∧
    Encodes (permArea 4096 16 (fun i => (i + 3) % 16)) 4096 16 (fun i => (i + 3) % 16) ∧
    ∃ m1,
      (∀ fuel, 16 / 16 + 2 ≤ fuel →
        PermRead64UnrollLoop fuel 4096 128 2 ⟨permArea 4096 16 (fun i => (i + 3) % 16), []⟩
          = some m1) ∧
      m1.trace = [] ++ (List.replicate 2 (lapTrace 4096 (fun i => (i + 3) % 16) 16)).flatten ∧
      (List.replicate 2 (lapTrace 4096 (fun i => (i + 3) % 16) 16)).flatten.length = 16 * 2 :=
  ⟨by decide, by decide, by decide, by decide,
    C5_unroll_perm_transition_count 16 4096 128 2 (fun i => (i + 3) % 16)
      ⟨permArea 4096 16 (fun i => (i + 3) % 16), []⟩ (by decide) (by decide) (by decide)
      (by decide) (by decide) (by norm_num)⟩

/-- C6 (as stated, refuted): there is no `N` that is not a multiple of 16 with an area
encoding a single `N`-cycle on which `PermRead64UnrollLoop` fails to return for every
amount of fuel. -/
theorem C6_unroll_perm_nontermination_refuted :
    ¬ ∃ (N memarea size repeats : Nat) (tau : Nat → Nat) (m : Machine),
      1 ≤ N ∧ ¬ 16 ∣ N ∧ IsSingleCycle N tau ∧ Encodes m.mem memarea N tau ∧
      1 ≤ repeats ∧ repeats < 2 ^ 64 ∧
      ∀ fuel, PermRead64UnrollLoop fuel memarea size repeats m = none := by
  rintro ⟨N, memarea, size, repeats, tau, m, hN, -, hcyc, henc, hrep, hrep64, hnone⟩
  have h := permWalk_eq 16 memarea (Nat.lcm N 16 / 16 + repeats) repeats m hN (by norm_num)
    hcyc henc hrep hrep64 (by omega) (by omega)
  rw [← PermRead64UnrollLoop_eq _ _ size, hnone] at h
  exact Option.noConfusion h

/-- C6 (amended): when `N` is not a multiple of 16, `PermRead64UnrollLoop` on an area
encoding a single `N`-cycle still returns: the loop test succeeds at the end of block
`lcm N 16 / 16`, so every lap overshoots the anchor and performs `lcm N 16 > N`
transitions. -/
theorem C6_unroll_perm_overshoots_and_returns (N memarea size repeats : Nat)
    (tau : Nat → Nat) (m : Machine) (hN : 1 ≤ N) (h16 : ¬ 16 ∣ N)
    (hcyc : IsSingleCycle N tau) (henc : Encodes m.mem memarea N tau) (hrep : 1 ≤ repeats)
    (hrep64 : repeats < 2 ^ 64) :
    ∃ m1,
      (∀ fuel, Nat.lcm N 16 / 16 + repeats ≤ fuel →
        PermRead64UnrollLoop fuel memarea size repeats m = some m1) ∧
      m1.trace
        = m.trace ++ (List.replicate repeats (lapTrace memarea tau (Nat.lcm N 16))).flatten ∧
      (lapTrace memarea tau (Nat.lcm N 16)).length = Nat.lcm N 16 ∧
      N < Nat.lcm N 16 := by
  refine ⟨⟨m.mem, m.trace ++
      (List.replicate repeats (lapTrace memarea tau (Nat.lcm N 16))).flatten⟩,
    fun fuel hf => ?_, rfl, lapTrace_length _ _ _, lt_lcm_of_not_dvd N 16 hN (by norm_num) h16⟩
  rw [PermRead64UnrollLoop_eq]
  exact permWalk_eq 16 memarea fuel repeats m hN (by norm_num) hcyc henc hrep hrep64
    (by omega) (by omega)

theorem C6_unroll_perm_overshoots_and_returns_witness :
    1 ≤ 3 ∧ ¬ 16 ∣ 3 ∧ IsSingleCycle 3 (fun i => (i + 1) % 3) ∧
    Encodes (permArea 4096 3 (fun i => (i + 1) % 3)) 4096 3 (fun i => (i + 1) % 3) ∧
    ∃ m1,
      (∀ fuel, Nat.lcm 3 16 / 16 + 1 ≤ fuel →
        PermRead64UnrollLoop fuel 4096 24 1 ⟨permArea 4096 3 (fun i => (i + 1) % 3), []⟩
          = some m1) ∧
      m1.trace
        = [] ++ (List.replicate 1 (lapTrace 4096 (fun i => (i + 1) % 3) (Nat.lcm 3 16))).flatten ∧
      (lapTrace 4096 (fun i => (i + 1) % 3) (Nat.lcm 3 16)).length = Nat.lcm 3 16 ∧
      3 < Nat.lcm 3 16 :=
  ⟨by decide, by decide, by decide, by decide,
    C6_unroll_perm_overshoots_and_returns 3 4096 24 1 (fun i => (i + 1) % 3)
      ⟨permArea 4096 3 (fun i => (i + 1) % 3), []⟩ (by decide) (by decide) (by decide)
      (by decide) (by decide) (by norm_num)⟩

/-- C7: every read kernel and every permutation kernel leaves memory unchanged: whenever
the call returns (for any memory, area address, size and repeats), the memory afterwards
equals the memory before at every address. -/
theorem C7_read_and_perm_kernels_preserve_memory (K : Kernel)
    (hK : K ∈ tunedReadKernels ++ permKernels) (fuel memarea size repeats : Nat)
    (m m1 : Machine) (h : K.run fuel memarea size repeats m = some m1) :
    ∀ x, m1.mem x = m.mem x := by
  intro x
  apply congrFun
  simp only [tunedReadKernels, permKernels, List.cons_append, List.nil_append, List.mem_cons,
    List.mem_singleton, List.not_mem_nil, or_false] at hK
  rcases hK with rfl | rfl | rfl | rfl | rfl | rfl | rfl | rfl | rfl | rfl
  · rw [Kernel.run, ScanRead64PtrSimpleLoop_eq] at h; exact scanPtr_frame _ _ _ _ _ _ _ _ h
  · rw [Kernel.run, ScanRead64PtrUnrollLoop_eq] at h; exact scanPtr_frame _ _ _ _ _ _ _ _ h
  · rw [Kernel.run, ScanRead64IndexSimpleLoop_eq] at h; exact scanIdx_frame _ _ _ _ _ _ h
  · rw [Kernel.run, ScanRead128PtrSimpleLoop_eq] at h; exact scanPtr_frame _ _ _ _ _ _ _ _ h
  · rw [Kernel.run, ScanRead128PtrUnrollLoop_eq] at h; exact scanPtr_frame _ _ _ _ _ _ _ _ h
  · rw [Kernel.run, ScanRead256PtrSimpleLoop_eq] at h; exact scanPtr_frame _ _ _ _ _ _ _ _ h
  · rw [Kernel.run, ScanRead256PtrUnrollLoop_eq] at h; exact scanPtr_frame _ _ _ _ _ _ _ _ h
  · rw [Kernel.run] at h; rw [cPermRead64SimpleLoop_frame _ _ _ _ _ _ h]
  · rw [Kernel.run, PermRead64SimpleLoop_eq] at h; exact permWalk_frame _ _ _ _ _ _ h
  · rw [Kernel.run, PermRead64UnrollLoop_eq] at h; exact permWalk_frame _ _ _ _ _ _ h

theorem C7_read_and_perm_kernels_preserve_memory_witness :
    Kernel.ScanRead256PtrSimpleLoop ∈ tunedReadKernels ++ permKernels ∧
    Kernel.ScanRead256PtrSimpleLoop.run 5 4096 64 2 ⟨fun x => x % 7, []⟩
      = some ⟨fun x => x % 7,
          [⟨false, 4096, 32⟩, ⟨false, 4128, 32⟩, ⟨false, 4096, 32⟩, ⟨false, 4128, 32⟩]⟩ ∧
    ∀ x, (⟨fun x => x % 7,
          [⟨false, 4096, 32⟩, ⟨false, 4128, 32⟩, ⟨false, 4096, 32⟩, ⟨false, 4128, 32⟩]⟩
            : Machine).mem x = (⟨fun x => x % 7, []⟩ : Machine).mem x :=
  ⟨by decide, rfl,
    C7_read_and_perm_kernels_preserve_memory Kernel.ScanRead256PtrSimpleLoop (by decide) 5 4096
      64 2 ⟨fun x => x % 7, []⟩ _ rfl⟩

/-- C8: each reference (C) writer and its tuned counterpart, called with the same
arguments, a size that is a positive multiple of the access width and `repeats >= 1`,
both return, and the memory after the reference call equals the memory after the tuned
call at every address. -/
theorem C8_reference_and_tuned_writers_agree (p : Kernel × Kernel)
    (hp : p ∈ tunedReferencePairs) (memarea size repeats : Nat) (m : Machine)
    (hmem : memarea < 2 ^ 64) (hsize : size < 2 ^ 64) (hpos : 0 < size)
    (hal : p.2.width ∣ size) (hrep : 1 ≤ repeats) (hrep64 : repeats < 2 ^ 64) :
    ∃ m1 m2, (∀ fuel, size + repeats < fuel →
        p.1.run fuel memarea size repeats m = some m1 ∧
        p.2.run fuel memarea size repeats m = some m2) ∧
      ∀ x, m1.mem x = m2.mem x := by
  obtain ⟨m1, h⟩ := reference_tuned_same_machine p hp memarea size repeats m hmem hsize hpos
    hal hrep hrep64
  exact ⟨m1, m1, h, fun _ => rfl⟩

theorem C8_reference_and_tuned_writers_agree_witness :
    (Kernel.cScanWrite128PtrSimpleLoop, Kernel.ScanWrite128PtrSimpleLoop)
      ∈ tunedReferencePairs ∧
    0 < 1024 ∧ Kernel.ScanWrite128PtrSimpleLoop.width ∣ 1024 ∧
    ∃ m1 m2, (∀ fuel, 1024 + 3 < fuel →
        Kernel.cScanWrite128PtrSimpleLoop.run fuel 4096 1024 3 ⟨fun x => x % 251, []⟩
          = some m1 ∧
        Kernel.ScanWrite128PtrSimpleLoop.run fuel 4096 1024 3 ⟨fun x => x % 251, []⟩
          = some m2) ∧
      ∀ x, m1.mem x = m2.mem x :=
  ⟨by decide, by decide, by decide,
    C8_reference_and_tuned_writers_agree
      (Kernel.cScanWrite128PtrSimpleLoop, Kernel.ScanWrite128PtrSimpleLoop) (by decide)
      4096 1024 3 ⟨fun x => x % 251, []⟩ (by norm_num) (by norm_num) (by decide) (by decide)
      (by decide) (by norm_num)⟩

/-- C9: a Simple kernel and its Unroll(16) variant, called on the same valid area with a
size that is a positive multiple of `width * 16` and the same `repeats >= 1`, both return
and produce the same machine state: identical memory and identical sequence of accesses. -/
theorem C9_simple_and_unroll_agree (p : Kernel × Kernel) (hp : p ∈ simpleUnrollPairs)
    (memarea size repeats : Nat) (m : Machine) (hpos : 0 < size)
    (hal : p.1.width * 16 ∣ size) (hrep : 1 ≤ repeats) (hrep64 : repeats < 2 ^ 64)
    (hwrap : memarea + size < 2 ^ 64) :
    ∃ m1 m2, (∀ fuel, size + repeats < fuel →
        p.1.run fuel memarea size repeats m = some m1 ∧
        p.2.run fuel memarea size repeats m = some m2) ∧
      (∀ x, m1.mem x = m2.mem x) ∧ m1.trace = m2.trace := by
  obtain ⟨h1, h2, hu1, hu2, hw, hwr⟩ := simpleUnrollPairs_spec p hp
  have hal1 : p.1.unroll * p.1.width ∣ size := by
    rw [hu1, Nat.one_mul]
    exact Dvd.dvd.trans (Dvd.intro _ rfl) hal
  have hal2 : p.2.unroll * p.2.width ∣ size := by
    rw [hu2, hw, Nat.mul_comm]
    exact hal
  refine ⟨afterPasses p.1.isWrite p.1.width memarea size repeats m,
    afterPasses p.2.isWrite p.2.width memarea size repeats m, fun fuel hf => ⟨?_, ?_⟩, ?_, ?_⟩
  · exact run_of_aligned p.1 (List.mem_append_left _ h1) memarea size repeats fuel m hpos hal1
      hrep hrep64 hwrap hf
  · exact run_of_aligned p.2 (List.mem_append_left _ h2) memarea size repeats fuel m hpos hal2
      hrep hrep64 hwrap hf
  · intro x; rw [hw, hwr]
  · rw [hw, hwr]

theorem C9_simple_and_unroll_agree_witness :
    (Kernel.ScanWrite128PtrSimpleLoop, Kernel.ScanWrite128PtrUnrollLoop) ∈ simpleUnrollPairs ∧
    0 < 512 ∧ Kernel.ScanWrite128PtrSimpleLoop.width * 16 ∣ 512 ∧
    ∃ m1 m2, (∀ fuel, 512 + 3 < fuel →
        Kernel.ScanWrite128PtrSimpleLoop.run fuel 4096 512 3 ⟨fun x => x % 251, []⟩ = some m1 ∧
        Kernel.ScanWrite128PtrUnrollLoop.run fuel 4096 512 3 ⟨fun x => x % 251, []⟩ = some m2) ∧
      (∀ x, m1.mem x = m2.mem x) ∧ m1.trace = m2.trace :=
  ⟨by decide, by decide, by decide,
    C9_simple_and_unroll_agree
      (Kernel.ScanWrite128PtrSimpleLoop, Kernel.ScanWrite128PtrUnrollLoop) (by decide)
      4096 512 3 ⟨fun x => x % 251, []⟩ (by decide) (by decide) (by decide) (by norm_num)
      (by norm_num)⟩

/-- C10: write kernels are idempotent and repeat-independent in content. For every write
kernel (tuned or reference), every memory, every size that is a positive multiple of
(width x unroll) and all `r, r2 >= 1`: the calls return, running the kernel again on its
own output leaves the memory as it is, and the memory after `r` repeats is the memory
after one repeat. -/
theorem C10_write_kernels_idempotent (K : Kernel) (hK : K ∈ writeKernels)
    (memarea size r r2 : Nat) (m : Machine) (hmem : memarea < 2 ^ 64) (hsize : size < 2 ^ 64)
    (hpos : 0 < size) (hal : K.unroll * K.width ∣ size) (hr : 1 ≤ r) (hr64 : r < 2 ^ 64)
    (hr2 : 1 ≤ r2) (hr264 : r2 < 2 ^ 64) :
    ∃ m1 m2 m3,
      (∀ fuel, size + r + r2 < fuel →
        K.run fuel memarea size r m = some m1 ∧
        K.run fuel memarea size r2 m1 = some m2 ∧
        K.run fuel memarea size 1 m = some m3) ∧
      (∀ x, m2.mem x = m1.mem x) ∧ (∀ x, m1.mem x = m3.mem x) := by
  obtain ⟨M, hM⟩ := write_run_returns K hK memarea size hmem hsize hpos hal
  refine ⟨_, _, _, fun fuel hf =>
    ⟨hM fuel r m (by omega) hr hr64, hM fuel r2 _ (by omega) hr2 hr264,
      hM fuel 1 m (by omega) le_rfl (by norm_num)⟩, ?_, ?_⟩
  · intro x
    rw [sweep_write_passes_mem _ _ _ r2 _ hr2, sweep_write_passes_mem _ _ _ r _ hr,
      (isOverwrite_sweepMem _ _ _).idem]
  · intro x
    rw [sweep_write_passes_mem _ _ _ r _ hr, sweep_write_passes_mem _ _ _ 1 _ le_rfl]

theorem C10_write_kernels_idempotent_witness :
    Kernel.cScanWrite64IndexSimpleLoop ∈ writeKernels ∧ 0 < 64 ∧
    Kernel.cScanWrite64IndexSimpleLoop.unroll * Kernel.cScanWrite64IndexSimpleLoop.width ∣ 64 ∧
    ∃ m1 m2 m3,
      (∀ fuel, 64 + 3 + 2 < fuel →
        Kernel.cScanWrite64IndexSimpleLoop.run fuel 4096 64 3 ⟨fun x => x % 251, []⟩
          = some m1 ∧
        Kernel.cScanWrite64IndexSimpleLoop.run fuel 4096 64 2 m1 = some m2 ∧
        Kernel.cScanWrite64IndexSimpleLoop.run fuel 4096 64 1 ⟨fun x => x % 251, []⟩
          = some m3) ∧
      (∀ x, m2.mem x = m1.mem x) ∧ (∀ x, m1.mem x = m3.mem x) :=
  ⟨by decide, by decide, by decide,
    C10_write_kernels_idempotent Kernel.cScanWrite64IndexSimpleLoop (by decide) 4096 64 3 2
      ⟨fun x => x % 251, []⟩ (by norm_num) (by norm_num) (by decide) (by decide) (by decide)
      (by norm_num) (by decide) (by norm_num)⟩

/-- C11: registry invariant. For every active `REGISTER(name, a, b, u)` line, `a <= b` and
both `a` and `b` are positive multiples of the kernel's declared access width in bytes;
every active `REGISTER_PERM` line declares width 8. -/
theorem C11_registry_invariant :
    (∀ e ∈ registry, e.a ≤ e.b ∧ 0 < e.a ∧ e.kernel.width ∣ e.a ∧ 0 < e.b ∧
      e.kernel.width ∣ e.b) ∧
    (∀ e ∈ permRegistry, e.2 = 8) := by
  decide

/-- C12: index addressing refines pointer addressing. For every memory, every size
(aligned or not) and `repeats >= 1`, when no address wraps, the Index writer returns with
the same trace and the same memory as the Ptr writer, and the Index reader with the same
trace as the Ptr reader. Both Index kernels are the repeat loop around a test-after loop
whose counter starts at 0 and is `8 * j` after `j` iterations; when the size is a positive
multiple of 8 that loop exits with the counter equal to the size. -/
theorem C12_index_refines_pointer (memarea size repeats : Nat) (m : Machine)
    (hnw : memarea + blocks 8 size * 8 < 2 ^ 64) (hrep : 1 ≤ repeats)
    (hrep64 : repeats < 2 ^ 64) :
    (∃ wi wp ri rp,
      (∀ fuel, size + repeats < fuel →
        ScanWrite64IndexSimpleLoop fuel memarea size repeats m = some wi ∧
        ScanWrite64PtrSimpleLoop fuel memarea size repeats m = some wp ∧
        ScanRead64IndexSimpleLoop fuel memarea size repeats m = some ri ∧
        ScanRead64PtrSimpleLoop fuel memarea size repeats m = some rp) ∧
      wi.trace = wp.trace ∧ (∀ x, wi.mem x = wp.mem x) ∧ ri.trace = rp.trace) ∧
    (∀ K ∈ [Kernel.ScanWrite64IndexSimpleLoop, Kernel.ScanRead64IndexSimpleLoop],
      (∀ fuel memarea size repeats m, K.run fuel memarea size repeats m
        = repeatLoop (fun m =>
            (doWhile (K.innerBody memarea) (K.innerTest memarea size) fuel
              (K.innerStart memarea, m)).map Prod.snd) fuel repeats m) ∧
      K.innerStart memarea = 0 ∧
      (∀ j, j ≤ blocks 8 size → ((K.innerBody memarea)^[j] (0, m)).1 = 8 * j) ∧
      (0 < size → 8 ∣ size → ∀ fuel, size < fuel →
        ∃ s, doWhile (K.innerBody memarea) (K.innerTest memarea size) fuel (0, m) = some s ∧
          s.1 = size)) := by
  have hW := fun fuel hf => run_tuned_any_size Kernel.ScanWrite64IndexSimpleLoop (by decide)
    fuel memarea size repeats m hnw hrep hrep64 hf
  have hP := fun fuel hf => run_tuned_any_size Kernel.ScanWrite64PtrSimpleLoop (by decide)
    fuel memarea size repeats m hnw hrep hrep64 hf
  have hR := fun fuel hf => run_tuned_any_size Kernel.ScanRead64IndexSimpleLoop (by decide)
    fuel memarea size repeats m hnw hrep hrep64 hf
  have hQ := fun fuel hf => run_tuned_any_size Kernel.ScanRead64PtrSimpleLoop (by decide)
    fuel memarea size repeats m hnw hrep hrep64 hf
  refine ⟨⟨_, _, _, _, fun fuel hf => ⟨hW fuel hf, hP fuel hf, hR fuel hf, hQ fuel hf⟩,
    rfl, fun _ => rfl, rfl⟩, ?_⟩
  intro K hK
  simp only [List.mem_cons, List.mem_singleton, List.not_mem_nil, or_false] at hK
  have hcount : ∀ (wr : Bool) j, j ≤ blocks 8 size →
      ((idxBody (access wr 8) memarea)^[j] (0, m)).1 = 8 * j := by
    intro wr j hj
    have h8 : j * 8 ≤ blocks 8 size * 8 := Nat.mul_le_mul_right 8 hj
    rw [idx_counter_values wr memarea m j (by omega), Nat.mul_comm]
  have hexit : ∀ (wr : Bool), 0 < size → 8 ∣ size → ∀ fuel, size < fuel →
      ∃ s, doWhile (idxBody (access wr 8) memarea) (fun s => decide (s.1 < size)) fuel (0, m)
        = some s ∧ s.1 = size := by
    intro wr hpos hdvd fuel hf
    obtain ⟨n, hsz, hn1, hnle⟩ := aligned_split 8 size hpos hdvd
    subst hsz
    have hcov := blocks_cover 8 (n * 8) (by norm_num)
    exact idx_exit_at_size wr memarea n fuel m hn1 (by omega) (by omega)
  rcases hK with rfl | rfl
  · exact ⟨fun fuel memarea size repeats m =>
        registered_run_eq_loops Kernel.ScanWrite64IndexSimpleLoop (by decide) fuel memarea
          size repeats m,
      rfl, hcount true, hexit true⟩
  · exact ⟨fun fuel memarea size repeats m =>
        registered_run_eq_loops Kernel.ScanRead64IndexSimpleLoop (by decide) fuel memarea
          size repeats m,
      rfl, hcount false, hexit false⟩

theorem C12_index_refines_pointer_witness :
    4096 + blocks 8 27 * 8 < 2 ^ 64 ∧
    (∃ wi wp ri rp,
      (∀ fuel, 27 + 2 < fuel →
        ScanWrite64IndexSimpleLoop fuel 4096 27 2 ⟨fun x => x % 251, []⟩ = some wi ∧
        ScanWrite64PtrSimpleLoop fuel 4096 27 2 ⟨fun x => x % 251, []⟩ = some wp ∧
        ScanRead64IndexSimpleLoop fuel 4096 27 2 ⟨fun x => x % 251, []⟩ = some ri ∧
        ScanRead64PtrSimpleLoop fuel 4096 27 2 ⟨fun x => x % 251, []⟩ = some rp) ∧
      wi.trace = wp.trace ∧ (∀ x, wi.mem x = wp.mem x) ∧ ri.trace = rp.trace) ∧
    (∀ K ∈ [Kernel.ScanWrite64IndexSimpleLoop, Kernel.ScanRead64IndexSimpleLoop],
      (∀ fuel memarea size repeats m, K.run fuel memarea size repeats m
        = repeatLoop (fun m =>
            (doWhile (K.innerBody memarea) (K.innerTest memarea size) fuel
              (K.innerStart memarea, m)).map Prod.snd) fuel repeats m) ∧
      K.innerStart 4096 = 0 ∧
      (∀ j, j ≤ blocks 8 27 →
        ((K.innerBody 4096)^[j] (0, (⟨fun x => x % 251, []⟩ : Machine))).1 = 8 * j) ∧
      (0 < 27 → 8 ∣ 27 → ∀ fuel, 27 < fuel →
        ∃ s, doWhile (K.innerBody 4096) (K.innerTest 4096 27) fuel
            (0, (⟨fun x => x % 251, []⟩ : Machine)) = some s ∧
          s.1 = 27)) :=
  ⟨by decide,
    C12_index_refines_pointer 4096 27 2 ⟨fun x => x % 251, []⟩ (by decide) (by decide)
      (by norm_num)⟩

/-- C13: misaligned sizes cause out-of-bounds access in the tuned scan kernels. When the
size is positive and not a multiple of `w * u` (and no address the kernel computes wraps),
the call returns normally, and every pass contains an access that touches a byte at an
address `>= memarea + size`. -/
theorem C13_misaligned_size_overruns (K : Kernel) (hK : K ∈ tunedScanKernels)
    (memarea size repeats : Nat) (m : Machine) (hpos : 0 < size)
    (hmis : ¬ K.unroll * K.width ∣ size)
    (hnw : memarea + blocks (K.unroll * K.width) size * (K.unroll * K.width) < 2 ^ 64)
    (hrep : 1 ≤ repeats) (hrep64 : repeats < 2 ^ 64) :
    ∃ m1 pass,
      (∀ fuel, size + repeats < fuel → K.run fuel memarea size repeats m = some m1) ∧
      m1.trace = m.trace ++ (List.replicate repeats pass).flatten ∧
      ∃ a x, a ∈ pass ∧ a ∈ m1.trace ∧ a.addr ≤ x ∧ x < a.addr + a.width ∧
        memarea + size ≤ x := by
  have hu := unroll_pos K
  have hw := width_pos K
  have hs : 0 < K.unroll * K.width := Nat.mul_pos hu hw
  have hb1 := blocks_pos (K.unroll * K.width) size
  have hcov := blocks_cover (K.unroll * K.width) size hs
  have hne : blocks (K.unroll * K.width) size * (K.unroll * K.width) ≠ size := by
    intro e
    exact hmis ⟨blocks (K.unroll * K.width) size, by rw [Nat.mul_comm]; exact e.symm⟩
  have hn1 : 1 ≤ blocks (K.unroll * K.width) size * K.unroll := Nat.mul_pos hb1 hu
  obtain ⟨n, hn⟩ : ∃ n, blocks (K.unroll * K.width) size * K.unroll = n + 1 :=
    ⟨blocks (K.unroll * K.width) size * K.unroll - 1, by omega⟩
  have hnw2 : (n + 1) * K.width = blocks (K.unroll * K.width) size * (K.unroll * K.width) := by
    rw [← hn, Nat.mul_assoc]
  have hmem : (⟨K.isWrite, memarea + n * K.width, K.width⟩ : Access)
      ∈ passTrace K.isWrite K.width memarea
          (blocks (K.unroll * K.width) size * K.unroll) := by
    simp only [passTrace, List.mem_map, List.mem_range]
    exact ⟨n, by omega, rfl⟩
  obtain ⟨r1, hr1⟩ : ∃ r1, repeats = r1 + 1 := ⟨repeats - 1, by omega⟩
  refine ⟨_, passTrace K.isWrite K.width memarea
      (blocks (K.unroll * K.width) size * K.unroll),
    fun fuel hf => run_tuned_any_size K hK fuel memarea size repeats m hnw hrep hrep64 hf,
    rfl, ⟨K.isWrite, memarea + n * K.width, K.width⟩, memarea + n * K.width + K.width - 1,
    hmem, ?_, ?_, ?_, ?_⟩
  · show _ ∈ m.trace ++ _
    rw [hr1, List.replicate_succ, List.flatten_cons]
    exact List.mem_append_right _ (List.mem_append_left _ hmem)
  · show memarea + n * K.width ≤ memarea + n * K.width + K.width - 1
    omega
  · show memarea + n * K.width + K.width - 1 < memarea + n * K.width + K.width
    omega
  · rw [Nat.add_mul, Nat.one_mul] at hnw2
    omega

theorem C13_misaligned_size_overruns_witness :
    Kernel.ScanRead128PtrUnrollLoop ∈ tunedScanKernels ∧ 0 < 300 ∧
    ¬ Kernel.ScanRead128PtrUnrollLoop.unroll * Kernel.ScanRead128PtrUnrollLoop.width ∣ 300 ∧
    ∃ m1 pass,
      (∀ fuel, 300 + 1 < fuel →
        Kernel.ScanRead128PtrUnrollLoop.run fuel 4096 300 1 ⟨fun _ => 0, []⟩ = some m1) ∧
      m1.trace = [] ++ (List.replicate 1 pass).flatten ∧
      ∃ a x, a ∈ pass ∧ a ∈ m1.trace ∧ a.addr ≤ x ∧ x < a.addr + a.width ∧ 4096 + 300 ≤ x :=
  ⟨by decide, by decide, by decide,
    C13_misaligned_size_overruns Kernel.ScanRead128PtrUnrollLoop (by decide) 4096 300 1
      ⟨fun _ => 0, []⟩ (by decide) (by decide) (by decide) (by decide) (by norm_num)⟩

/-- C14: early termination on a multi-cycle permutation. On an area whose `N` slots encode
an arbitrary bijection `tau`, `PermRead64SimpleLoop` returns after exactly `c * repeats`
transitions, `c` being the length of the `tau`-cycle through slot 0: every lap loads from
`c` pairwise distinct slots, exactly the slots of that cycle. When some slot is not on that
cycle, `c < N` and fewer than `N * repeats` transitions are performed. -/
theorem C14_simple_perm_walks_anchor_cycle_only (N memarea size repeats : Nat)
    (tau : Nat → Nat) (m : Machine) (hN : 1 ≤ N) (hperm : IsPermOn N tau)
    (henc : Encodes m.mem memarea N tau) (hrep : 1 ≤ repeats) (hrep64 : repeats < 2 ^ 64) :
    ∃ c m1 lap, IsCycleLength tau c ∧ c ≤ N ∧
      (∀ fuel, c + repeats ≤ fuel →
        PermRead64SimpleLoop fuel memarea size repeats m = some m1) ∧
      m1.trace = m.trace ++ (List.replicate repeats lap).flatten ∧
      lap.length = c ∧
      (List.replicate repeats lap).flatten.length = c * repeats ∧
      (lap.map Access.addr).Nodup ∧
      (∀ a, a ∈ lap.map Access.addr ↔ ∃ k, a = memarea + 8 * tau^[k] 0) ∧
      ((∃ j, j < N ∧ ∀ k, tau^[k] 0 ≠ j) → c < N ∧ c * repeats < N * repeats) := by
  obtain ⟨c, hc, hcN⟩ := cycleLength_exists hN hperm
  refine ⟨c, ⟨m.mem, m.trace ++ (List.replicate repeats (lapTrace memarea tau c)).flatten⟩,
    lapTrace memarea tau c, hc, hcN, fun fuel hf => ?_, rfl, lapTrace_length _ _ _, ?_, ?_,
    ?_, ?_⟩
  · rw [PermRead64SimpleLoop_eq]
    exact permSimple_cycle memarea fuel repeats m hN hperm hc henc hrep hrep64 (by omega)
      (by omega)
  · rw [flatten_replicate_length, lapTrace_length]
  · rw [lapTrace_addr]
    refine List.Nodup.map_on ?_ (List.nodup_range c)
    intro a ha b hb hab
    exact cycle_slots_injOn hN hperm hc a (List.mem_range.mp ha) b (List.mem_range.mp hb)
      (by omega)
  · intro a
    rw [lapTrace_addr]
    simp only [List.mem_map, List.mem_range]
    constructor
    · rintro ⟨k, _, rfl⟩
      exact ⟨k, rfl⟩
    · rintro ⟨k, rfl⟩
      exact ⟨k % c, Nat.mod_lt _ hc.1, by rw [← cycle_slots_mod hc k]⟩
  · intro hout
    have hlt := cycleLength_lt hN hperm hc hcN hout
    exact ⟨hlt, Nat.mul_lt_mul_of_pos_right hlt hrep⟩

theorem C14_simple_perm_walks_anchor_cycle_only_witness :
    1 ≤ 4 ∧ IsPermOn 4 (fun i => if i % 2 = 0 then i + 1 else i - 1) ∧
    Encodes (permArea 4096 4 (fun i => if i % 2 = 0 then i + 1 else i - 1)) 4096 4
      (fun i => if i % 2 = 0 then i + 1 else i - 1) ∧
    ∃ c m1 lap, IsCycleLength (fun i => if i % 2 = 0 then i + 1 else i - 1) c ∧ c ≤ 4 ∧
      (∀ fuel, c + 3 ≤ fuel →
        PermRead64SimpleLoop fuel 4096 32 3
          ⟨permArea 4096 4 (fun i => if i % 2 = 0 then i + 1 else i - 1), []⟩ = some m1) ∧
      m1.trace = [] ++ (List.replicate 3 lap).flatten ∧
      lap.length = c ∧
      (List.replicate 3 lap).flatten.length = c * 3 ∧
      (lap.map Access.addr).Nodup ∧
      (∀ a, a ∈ lap.map Access.addr ↔
        ∃ k, a = 4096 + 8 * (fun i => if i % 2 = 0 then i + 1 else i - 1)^[k] 0) ∧
      ((∃ j, j < 4 ∧ ∀ k, (fun i => if i % 2 = 0 then i + 1 else i - 1)^[k] 0 ≠ j) →
        c < 4 ∧ c * 3 < 4 * 3) :=
  ⟨by decide, by decide, by decide,
    C14_simple_perm_walks_anchor_cycle_only 4 4096 32 3
      (fun i => if i % 2 = 0 then i + 1 else i - 1)
      ⟨permArea 4096 4 (fun i => if i % 2 = 0 then i + 1 else i - 1), []⟩ (by decide)
      (by decide) (by decide) (by decide) (by norm_num)⟩

/-- C15: registered metadata matches the kernel bodies. Every kernel with an active
`REGISTER(name, a, b, u)` line is the repeat loop around a test-after inner loop, and one
iteration of that inner loop performs exactly `u` accesses, each of `a` bytes, at offsets
`0, a, ..., (u-1) * a` from the cursor, and advances the cursor by `a * u` bytes. Every
kernel with a `REGISTER_PERM` line is the repeat loop around a test-after loop whose
iteration is `unroll` transitions: 1 for the Simple and 16 for the Unroll kernel. -/
theorem C15_registered_metadata_matches_bodies :
    (∀ e ∈ registry,
      (∀ fuel memarea size repeats m, e.kernel.run fuel memarea size repeats m
        = repeatLoop (fun m =>
            (doWhile (e.kernel.innerBody memarea) (e.kernel.innerTest memarea size) fuel
              (e.kernel.innerStart memarea, m)).map Prod.snd) fuel repeats m) ∧
      ∀ memarea x m,
        (e.kernel.innerBody memarea (x, m)).1 = (x + e.a * e.u) % 2 ^ 64 ∧
        (e.kernel.innerBody memarea (x, m)).2.trace
          = m.trace ++ (List.range e.u).map fun i =>
              ⟨e.kernel.isWrite, (e.kernel.effAddr memarea x + i * e.a) % 2 ^ 64, e.a⟩) ∧
    (∀ e ∈ permRegistry,
      (∀ fuel memarea size repeats m, e.1.run fuel memarea size repeats m
        = repeatLoop (fun m =>
            (doWhile (e.1.innerBody memarea) (e.1.innerTest memarea size) fuel
              (e.1.innerStart memarea, m)).map Prod.snd) fuel repeats m) ∧
      ∀ memarea s,
        e.1.innerBody memarea s = chase^[e.1.unroll] s ∧
        (e.1.innerBody memarea s).2.trace.length = s.2.trace.length + e.1.unroll) ∧
    Kernel.PermRead64SimpleLoop.unroll = 1 ∧ Kernel.PermRead64UnrollLoop.unroll = 16 := by
  refine ⟨fun e he => ⟨fun fuel memarea size repeats m => ?_, fun memarea x m => ?_⟩,
    fun e he => ⟨fun fuel memarea size repeats m => ?_, fun memarea s => ?_⟩, rfl, rfl⟩
  · exact registered_run_eq_loops e.kernel
      (List.mem_append_left _ (List.mem_map_of_mem _ he)) fuel memarea size repeats m
  · exact registered_body_step e he memarea x m
  · exact registered_run_eq_loops e.1
      (List.mem_append_right _ (List.mem_map_of_mem _ he)) fuel memarea size repeats m
  · simp only [permRegistry, List.mem_cons, List.mem_singleton, List.not_mem_nil,
      or_false] at he
    rcases he with rfl | rfl
    · exact ⟨rfl, chase_iterate_trace_length 1 s⟩
    · exact ⟨rfl, chase_iterate_trace_length 16 s⟩

/-- C16: on an area encoding a single `N`-cycle, `PermRead64UnrollLoop` always returns,
after exactly `lcm N 16 * repeats` transitions: `repeats` laps of `lcm N 16` transitions
each. It performs exactly `N * repeats` transitions if and only if 16 divides `N`. -/
theorem C16_unroll_perm_exact_overshoot (N memarea size repeats : Nat) (tau : Nat → Nat)
    (m : Machine) (hN : 1 ≤ N) (hcyc : IsSingleCycle N tau)
    (henc : Encodes m.mem memarea N tau) (hrep : 1 ≤ repeats) (hrep64 : repeats < 2 ^ 64) :
    ∃ m1 transitions,
      (∀ fuel, N + repeats ≤ fuel →
        PermRead64UnrollLoop fuel memarea size repeats m = some m1) ∧
      m1.trace = m.trace ++ transitions ∧
      transitions = (List.replicate repeats (lapTrace memarea tau (Nat.lcm N 16))).flatten ∧
      transitions.length = Nat.lcm N 16 * repeats ∧
      (transitions.length = N * repeats ↔ 16 ∣ N) := by
  have hlen : (List.replicate repeats (lapTrace memarea tau (Nat.lcm N 16))).flatten.length
      = Nat.lcm N 16 * repeats := by
    rw [flatten_replicate_length, lapTrace_length]
  have hblocks : Nat.lcm N 16 / 16 ≤ N := by
    have h1 : Nat.lcm N 16 ∣ N * 16 := Nat.lcm_dvd (Dvd.intro _ rfl) (Dvd.intro_left _ rfl)
    have h2 := Nat.le_of_dvd (by omega) h1
    omega
  refine ⟨⟨m.mem, m.trace ++
      (List.replicate repeats (lapTrace memarea tau (Nat.lcm N 16))).flatten⟩, _,
    fun fuel hf => ?_, rfl, rfl, hlen, ?_⟩
  · rw [PermRead64UnrollLoop_eq]
    exact permWalk_eq 16 memarea fuel repeats m hN (by norm_num) hcyc henc hrep hrep64
      (by omega) (by omega)
  · rw [hlen]
    constructor
    · intro h
      have e : Nat.lcm N 16 = N := Nat.eq_of_mul_eq_mul_right (by omega) h
      exact e ▸ Nat.dvd_lcm_right N 16
    · intro h
      rw [lcm_of_dvd N 16 h]

theorem C16_unroll_perm_exact_overshoot_witness :
    1 ≤ 6 ∧ IsSingleCycle 6 (fun i => (i + 1) % 6) ∧
    Encodes (permArea 4096 6 (fun i => (i + 1) % 6)) 4096 6 (fun i => (i + 1) % 6) ∧
    ∃ m1 transitions,
      (∀ fuel, 6 + 2 ≤ fuel →
        PermRead64UnrollLoop fuel 4096 48 2 ⟨permArea 4096 6 (fun i => (i + 1) % 6), []⟩
          = some m1) ∧
      m1.trace = [] ++ transitions ∧
      transitions
        = (List.replicate 2 (lapTrace 4096 (fun i => (i + 1) % 6) (Nat.lcm 6 16))).flatten ∧
      transitions.length = Nat.lcm 6 16 * 2 ∧
      (transitions.length = 6 * 2 ↔ 16 ∣ 6) :=
  ⟨by decide, by decide, by decide,
    C16_unroll_perm_exact_overshoot 6 4096 48 2 (fun i => (i + 1) % 6)
      ⟨permArea 4096 6 (fun i => (i + 1) % 6), []⟩ (by decide) (by decide) (by decide)
      (by decide) (by norm_num)⟩

/-- C17: exact access count of the tuned scan kernels for arbitrary size. When no address
the kernel computes wraps, a call with any size (aligned or not, 0 included) and
`repeats >= 1` returns, and every pass performs exactly
`u * max 1 (ceil (size / (w * u)))` accesses of `w` bytes, at the addresses
`memarea, memarea + w, memarea + 2 * w, ...`; with `size = 0` every pass still performs
`u` accesses. -/
theorem C17_tuned_scan_access_count_any_size (K : Kernel) (hK : K ∈ tunedScanKernels)
    (memarea size repeats : Nat) (m : Machine)
    (hnw : memarea + blocks (K.unroll * K.width) size * (K.unroll * K.width) < 2 ^ 64)
    (hrep : 1 ≤ repeats) (hrep64 : repeats < 2 ^ 64) :
    ∃ m1 pass,
      (∀ fuel, size + repeats < fuel → K.run fuel memarea size repeats m = some m1) ∧
      m1.trace = m.trace ++ (List.replicate repeats pass).flatten ∧
      pass.length
        = K.unroll * max 1 ((size + K.unroll * K.width - 1) / (K.unroll * K.width)) ∧
      pass.map Access.addr = (List.range pass.length).map (fun i => memarea + i * K.width) ∧
      (∀ a ∈ pass, a.write = K.isWrite ∧ a.width = K.width) ∧
      (size = 0 → pass.length = K.unroll) := by
  have hlen : (passTrace K.isWrite K.width memarea
      (blocks (K.unroll * K.width) size * K.unroll)).length
        = K.unroll * max 1 ((size + K.unroll * K.width - 1) / (K.unroll * K.width)) := by
    rw [passTrace_length, Nat.mul_comm]; rfl
  refine ⟨_, passTrace K.isWrite K.width memarea
      (blocks (K.unroll * K.width) size * K.unroll),
    fun fuel hf => run_tuned_any_size K hK fuel memarea size repeats m hnw hrep hrep64 hf,
    rfl, hlen, ?_, ?_, ?_⟩
  · rw [passTrace_addr, passTrace_length]
  · intro a ha
    simp only [passTrace, List.mem_map, List.mem_range] at ha
    obtain ⟨i, _, rfl⟩ := ha
    exact ⟨rfl, rfl⟩
  · intro h0
    subst h0
    rw [hlen]
    have hs : 0 < K.unroll * K.width := Nat.mul_pos (unroll_pos K) (width_pos K)
    have : (0 + K.unroll * K.width - 1) / (K.unroll * K.width) = 0 :=
      Nat.div_eq_of_lt (by omega)
    rw [this]
    simp

theorem C17_tuned_scan_access_count_any_size_witness :
    Kernel.ScanWrite256PtrUnrollLoop ∈ tunedScanKernels ∧
    4096 + blocks (Kernel.ScanWrite256PtrUnrollLoop.unroll
        * Kernel.ScanWrite256PtrUnrollLoop.width) 700
      * (Kernel.ScanWrite256PtrUnrollLoop.unroll * Kernel.ScanWrite256PtrUnrollLoop.width)
      < 2 ^ 64 ∧
    ∃ m1 pass,
      (∀ fuel, 700 + 2 < fuel →
        Kernel.ScanWrite256PtrUnrollLoop.run fuel 4096 700 2 ⟨fun _ => 0, []⟩ = some m1) ∧
      m1.trace = [] ++ (List.replicate 2 pass).flatten ∧
      pass.length = 16 * max 1 ((700 + 16 * 32 - 1) / (16 * 32)) ∧
      pass.map Access.addr = (List.range pass.length).map (fun i => 4096 + i * 32) ∧
      (∀ a ∈ pass, a.write = true ∧ a.width = 32) ∧
      (700 = 0 → pass.length = 16) :=
  ⟨by decide, by decide,
    C17_tuned_scan_access_count_any_size Kernel.ScanWrite256PtrUnrollLoop (by decide) 4096 700
      2 ⟨fun _ => 0, []⟩ (by decide) (by decide) (by norm_num)⟩

/-- C19: exact domain of agreement of the 64-bit pointer writers. For every size and
`repeats >= 1` (no address wrapping), the reference writer stores, in every pass, exactly
the words at `memarea + 8 * k` for `k < max 1 (size / 8)`, the tuned writer exactly those
for `k < max 1 (ceil (size / 8))`; the two write the same set of addresses if and only if
the size is a multiple of 8 or below 8. -/
theorem C19_pointer_writers_domain_of_agreement (memarea size repeats : Nat) (m : Machine)
    (hnw : memarea + blocks 8 size * 8 < 2 ^ 64) (hrep : 1 ≤ repeats)
    (hrep64 : repeats < 2 ^ 64) :
    ∃ mc mt passC passT,
      (∀ fuel, size + repeats < fuel →
        cScanWrite64PtrSimpleLoop fuel memarea size repeats m = some mc ∧
        ScanWrite64PtrSimpleLoop fuel memarea size repeats m = some mt) ∧
      mc.trace = m.trace ++ (List.replicate repeats passC).flatten ∧
      mt.trace = m.trace ++ (List.replicate repeats passT).flatten ∧
      passC = (List.range (max 1 (size / 8))).map (fun k => ⟨true, memarea + k * 8, 8⟩) ∧
      passT = (List.range (max 1 ((size + 7) / 8))).map
        (fun k => ⟨true, memarea + k * 8, 8⟩) ∧
      (∀ x, mc.mem x = filled m.mem memarea (max 1 (size / 8) * 8) x) ∧
      (∀ x, mt.mem x = filled m.mem memarea (max 1 ((size + 7) / 8) * 8) x) ∧
      ((∀ a, a ∈ passC.map Access.addr ↔ a ∈ passT.map Access.addr) ↔
        (8 ∣ size ∨ size < 8)) := by
  have hfl : size / 8 * 8 ≤ size := Nat.div_mul_le_self size 8
  have hmono : blocks 8 (size / 8 * 8) ≤ blocks 8 size := by
    rw [blocks8_floor, blocks8_ceil]
    have : size / 8 ≤ (size + 7) / 8 := by omega
    omega
  have hnwc : memarea + Kernel.cScanWrite64PtrSimpleLoop.passBytes size < 2 ^ 64 := by
    show memarea + blocks 8 (size / 8 * 8) * 8 < 2 ^ 64
    omega
  have hC := fun fuel (hf : size + repeats < fuel) =>
    run_general Kernel.cScanWrite64PtrSimpleLoop (by decide) fuel memarea size repeats m
      hnwc hrep64 (by rw [passCount_of_pos repeats hrep]; exact hf)
  have hT := fun fuel (hf : size + repeats < fuel) =>
    run_general Kernel.ScanWrite64PtrSimpleLoop (by decide) fuel memarea size repeats m
      hnw hrep64 (by rw [passCount_of_pos repeats hrep]; exact hf)
  have eC : Kernel.cScanWrite64PtrSimpleLoop.passBytes size = max 1 (size / 8) * 8 := by
    show blocks 8 (size / 8 * 8) * 8 = _
    rw [blocks8_floor]
  have eT : Kernel.ScanWrite64PtrSimpleLoop.passBytes size = max 1 ((size + 7) / 8) * 8 := by
    show blocks 8 size * 8 = _
    rw [blocks8_ceil]
  rw [passCount_of_pos repeats hrep] at hC hT
  rw [eC] at hC
  rw [eT] at hT
  have d1 : max 1 (size / 8) * 8 / 8 = max 1 (size / 8) := Nat.mul_div_cancel _ (by norm_num)
  have d2 : max 1 ((size + 7) / 8) * 8 / 8 = max 1 ((size + 7) / 8) :=
    Nat.mul_div_cancel _ (by norm_num)
  refine ⟨_, _, passTrace true 8 memarea (max 1 (size / 8)),
    passTrace true 8 memarea (max 1 ((size + 7) / 8)),
    fun fuel hf => ⟨hC fuel hf, hT fuel hf⟩, ?_, ?_, rfl, rfl, fun _ => rfl, fun _ => rfl, ?_⟩
  · show m.trace ++ _ = _
    simp only [Kernel.isWrite, Kernel.width, d1]
  · show m.trace ++ _ = _
    simp only [Kernel.isWrite, Kernel.width, d2]
  · rw [← max_floor_eq_ceil_iff]
    constructor
    · intro h
      by_contra hne
      rcases Nat.lt_or_gt_of_ne hne with hlt | hgt
      · have h1 := (passTrace_addr_mem true 8 memarea (max 1 ((size + 7) / 8))
          (memarea + max 1 (size / 8) * 8)).mpr ⟨_, hlt, rfl⟩
        obtain ⟨i, hi, e⟩ := (passTrace_addr_mem true 8 memarea (max 1 (size / 8)) _).mp
          ((h _).mpr h1)
        omega
      · have h1 := (passTrace_addr_mem true 8 memarea (max 1 (size / 8))
          (memarea + max 1 ((size + 7) / 8) * 8)).mpr ⟨_, hgt, rfl⟩
        obtain ⟨i, hi, e⟩ := (passTrace_addr_mem true 8 memarea (max 1 ((size + 7) / 8))
          _).mp ((h _).mp h1)
        omega
    · intro h a
      rw [h]

theorem C19_pointer_writers_domain_of_agreement_witness :
    4096 + blocks 8 27 * 8 < 2 ^ 64 ∧
    ∃ mc mt passC passT,
      (∀ fuel, 27 + 2 < fuel →
        cScanWrite64PtrSimpleLoop fuel 4096 27 2 ⟨fun x => x % 251, []⟩ = some mc ∧
        ScanWrite64PtrSimpleLoop fuel 4096 27 2 ⟨fun x => x % 251, []⟩ = some mt) ∧
      mc.trace = [] ++ (List.replicate 2 passC).flatten ∧
      mt.trace = [] ++ (List.replicate 2 passT).flatten ∧
      passC = (List.range (max 1 (27 / 8))).map (fun k => ⟨true, 4096 + k * 8, 8⟩) ∧
      passT = (List.range (max 1 ((27 + 7) / 8))).map (fun k => ⟨true, 4096 + k * 8, 8⟩) ∧
      (∀ x, mc.mem x = filled (fun x => x % 251) 4096 (max 1 (27 / 8) * 8) x) ∧
      (∀ x, mt.mem x = filled (fun x => x % 251) 4096 (max 1 ((27 + 7) / 8) * 8) x) ∧
      ((∀ a, a ∈ passC.map Access.addr ↔ a ∈ passT.map Access.addr) ↔ (8 ∣ 27 ∨ 27 < 8)) :=
  ⟨by decide,
    C19_pointer_writers_domain_of_agreement 4096 27 2 ⟨fun x => x % 251, []⟩ (by decide)
      (by decide) (by norm_num)⟩

/-- C20: the indexed reference and tuned writers disagree below size 8. For every memory
and `repeats >= 1`, `cScanWrite64IndexSimpleLoop` called with `size < 8` (size 0 included)
performs no access and leaves memory unchanged, whereas `ScanWrite64IndexSimpleLoop`
called with the same arguments leaves `0xFAEE00C0FFEEEEEE` in the 8-byte word at
`memarea`; so the two memories differ whenever that word did not hold the pattern. -/
theorem C20_indexed_writers_disagree_below_8 (memarea size repeats : Nat) (m : Machine)
    (hsz : size < 8) (hrep : 1 ≤ repeats) (hrep64 : repeats < 2 ^ 64) :
    ∃ mc mt,
      (∀ fuel, repeats ≤ fuel →
        cScanWrite64IndexSimpleLoop fuel memarea size repeats m = some mc ∧
        ScanWrite64IndexSimpleLoop fuel memarea size repeats m = some mt) ∧
      (∀ x, mc.mem x = m.mem x) ∧ mc.trace = m.trace ∧
      load64 mt.mem memarea = 0xFAEE00C0FFEEEEEE ∧
      (load64 m.mem memarea ≠ 0xFAEE00C0FFEEEEEE → ¬ ∀ x, mc.mem x = mt.mem x) := by
  have hload : load64 ((sweep (access true 8) memarea 8 1)^[repeats] m).mem memarea
      = PATTERN := by
    rw [sweep_write_passes_mem 8 memarea 1 repeats m hrep]
    show load64 (writeBytes (fillBytes 8) (memarea + 0 * 8) m.mem) memarea = PATTERN
    rw [Nat.zero_mul, Nat.add_zero]
    exact load64_store m.mem memarea
  refine ⟨m, (sweep (access true 8) memarea 8 1)^[repeats] m, fun fuel hf => ⟨?_, ?_⟩,
    fun _ => rfl, rfl, hload, ?_⟩
  · rw [cScanWrite64IndexSimpleLoop_eq]
    exact scanFor_small fuel memarea size repeats m hsz hrep hrep64 hf
  · rw [ScanWrite64IndexSimpleLoop_eq]
    exact scanIdx_small true fuel memarea size repeats m (by omega) hrep hrep64 hf
  · intro hne hall
    apply hne
    have e : m.mem = ((sweep (access true 8) memarea 8 1)^[repeats] m).mem := funext hall
    rw [e]
    exact hload

theorem C20_indexed_writers_disagree_below_8_witness :
    0 < 8 ∧
    ∃ mc mt,
      (∀ fuel, 3 ≤ fuel →
        cScanWrite64IndexSimpleLoop fuel 4096 0 3 ⟨fun _ => 0, []⟩ = some mc ∧
        ScanWrite64IndexSimpleLoop fuel 4096 0 3 ⟨fun _ => 0, []⟩ = some mt) ∧
      (∀ x, mc.mem x = 0) ∧ mc.trace = [] ∧
      load64 mt.mem 4096 = 0xFAEE00C0FFEEEEEE ∧
      (load64 (fun _ => 0) 4096 ≠ 0xFAEE00C0FFEEEEEE → ¬ ∀ x, mc.mem x = mt.mem x) :=
  ⟨by decide,
    C20_indexed_writers_disagree_below_8 4096 0 3 ⟨fun _ => 0, []⟩ (by decide) (by decide)
      (by norm_num)⟩

end Pmbw
